import Mathlib

/-!
# goPool share-submission fast path and worker pool

A shallow embedding of `stratum_fastpath.go` and `submission_worker_pool.go`.

* A request buffer `[]byte` is a `List Nat` (one number per byte).
* A Go sub-slice `b[lo:hi]` is the pair of offsets `Slice.mk lo hi`; the `nil`
  slice is `none`.
* A `for j < len(b)` loop that reads `b[j]` and advances `j` by one walks the
  suffix `b.drop j` while carrying the index `j`.
* The main loop of `fastMiningSubmitID` moves its index by jumps, so it is a
  step function iterated under a fuel bound; running out of fuel and a Go
  run-time panic are outcomes of their own.
-/

set_option autoImplicit false

namespace GoPool

/-! ## Bytes and slices -/

/-- Bytes of a text, one number per character (ASCII texts only). -/
def bytesOf (s : String) : List Nat := s.toList.map Char.toNat

/-- A view `b[lo:hi]` into a buffer. -/
structure Slice where
  lo : Nat
  hi : Nat
deriving DecidableEq, Repr

/-- Bytes a view denotes in the buffer `b`. -/
def Slice.bytes (b : List Nat) (s : Slice) : List Nat := (b.drop s.lo).take (s.hi - s.lo)

/-- Go `len(val)` for a possibly nil slice. -/
def sliceLen : Option Slice → Nat
  | none => 0
  | some s => s.hi - s.lo

/-- Go `val[k]`: `none` stands for an index-out-of-range panic. -/
def sliceAt (b : List Nat) : Option Slice → Nat → Option Nat
  | none, _ => none
  | some s, k => if k < s.hi - s.lo then b[s.lo + k]? else none

/-- Go `bytes.Contains(b, pat)`: some suffix of `b` starts with `pat`. -/
def bytesContains (b pat : List Nat) : Bool := b.tails.any (fun t => pat.isPrefixOf t)

/-- The literal `mining.submit`. -/
def miningSubmit : List Nat := [109, 105, 110, 105, 110, 103, 46, 115, 117, 98, 109, 105, 116]

/-- The literal `id`. -/
def idKeyBytes : List Nat := [105, 100]

/-- The literal `method`. -/
def methodKeyBytes : List Nat := [109, 101, 116, 104, 111, 100]

/-! ## stratum_fastpath.go -/

inductive jsonTopLevelKey where
  | jsonKeyOther
  | jsonKeyID
  | jsonKeyMethod
deriving DecidableEq, Repr

open jsonTopLevelKey

/-- The loop of `scanTopLevelKey` from index `j` over the suffix `b.drop j`:
the index where it stopped, and whether it stopped by the early return at a
backslash. -/
def scanTopLevelKeyLoop : List Nat → Nat → Nat × Bool
  | [], j => (j, false)
  | c :: rest, j =>
    if c = 34 then (j, false)
    else if c = 92 then (j, true)
    else scanTopLevelKeyLoop rest (j + 1)

def scanTopLevelKey (b : List Nat) (i : Nat) : jsonTopLevelKey × Nat × Bool :=
  let start := i + 1
  match scanTopLevelKeyLoop (b.drop start) start with
  | (j, true) => (jsonKeyOther, j + 1, true)
  | (j, false) =>
    match b[j]? with
    | none => (jsonKeyOther, j, false)
    | some c =>
      if c ≠ 34 then (jsonKeyOther, j, false)
      else
        let keyBytes := Slice.bytes b ⟨start, j⟩
        let k :=
          if keyBytes = idKeyBytes then jsonKeyID
          else if keyBytes = methodKeyBytes then jsonKeyMethod
          else jsonKeyOther
        (k, j + 1, true)

/-- The whitespace bytes of `skipSpaces`: space, tab, CR, LF. -/
def isSpace (c : Nat) : Bool := c = 32 || c = 9 || c = 13 || c = 10

/-- The loop of `skipSpaces` over the suffix `b.drop i`. -/
def skipSpacesLoop : List Nat → Nat → Nat
  | [], i => i
  | c :: rest, i => if isSpace c then skipSpacesLoop rest (i + 1) else i

def skipSpaces (b : List Nat) (i : Nat) : Nat := skipSpacesLoop (b.drop i) i

/-- The loop of `scanJSONStringEnd` over the suffix `b.drop j`; `i` is the
index of the opening quote, returned on failure. -/
def scanJSONStringEndLoop (i : Nat) : List Nat → Nat → Bool → Nat × Bool
  | [], _, _ => (i, false)
  | c :: rest, j, esc =>
    if esc then scanJSONStringEndLoop i rest (j + 1) false
    else if c = 92 then scanJSONStringEndLoop i rest (j + 1) true
    else if c = 34 then (j + 1, true)
    else scanJSONStringEndLoop i rest (j + 1) esc

def scanJSONStringEnd (b : List Nat) (i : Nat) : Nat × Bool :=
  scanJSONStringEndLoop i (b.drop (i + 1)) (i + 1) false

/-- The loop of `scanJSONCompoundEnd` over the suffix `b.drop j`. -/
def scanJSONCompoundEndLoop (i : Nat) : List Nat → Nat → Int → Bool → Bool → Nat × Bool
  | [], _, _, _, _ => (i, false)
  | c :: rest, j, depth, inStr, esc =>
    if inStr then
      if esc then scanJSONCompoundEndLoop i rest (j + 1) depth inStr false
      else if c = 92 then scanJSONCompoundEndLoop i rest (j + 1) depth inStr true
      else if c = 34 then scanJSONCompoundEndLoop i rest (j + 1) depth false esc
      else scanJSONCompoundEndLoop i rest (j + 1) depth inStr esc
    else if c = 34 then scanJSONCompoundEndLoop i rest (j + 1) depth true esc
    else if c = 123 ∨ c = 91 then scanJSONCompoundEndLoop i rest (j + 1) (depth + 1) inStr esc
    else if c = 125 ∨ c = 93 then
      if depth - 1 = 0 then (j + 1, true)
      else scanJSONCompoundEndLoop i rest (j + 1) (depth - 1) inStr esc
    else scanJSONCompoundEndLoop i rest (j + 1) depth inStr esc

def scanJSONCompoundEnd (b : List Nat) (i : Nat) : Nat × Bool :=
  scanJSONCompoundEndLoop i (b.drop i) i 0 false false

/-- The bytes that end a scalar token: `,` `}` `]` space tab CR LF. -/
def isScalarEnd (c : Nat) : Bool :=
  c = 44 || c = 125 || c = 93 || c = 32 || c = 9 || c = 13 || c = 10

/-- The scalar loop of `scanJSONValueToken` over the suffix `b.drop j`. -/
def scanScalarLoop : List Nat → Nat → Nat
  | [], j => j
  | c :: rest, j => if isScalarEnd c then j else scanScalarLoop rest (j + 1)

def scanJSONValueToken (b : List Nat) (i : Nat) : Option Slice × Nat × Bool :=
  match b[i]? with
  | none => (none, i, false)
  | some c =>
    if c = 34 then
      match scanJSONStringEnd b i with
      | (_, false) => (none, i, false)
      | (j, true) => (some ⟨i, j⟩, j, true)
    else if c = 123 ∨ c = 91 then
      match scanJSONCompoundEnd b i with
      | (_, false) => (none, i, false)
      | (j, true) => (some ⟨i, j⟩, j, true)
    else
      let j := scanScalarLoop (b.drop i) i
      if j = i then (none, i, false) else (some ⟨i, j⟩, j, true)

/-- The variables of the main loop of `fastMiningSubmitID`; `i` is the index
at the head of an iteration. -/
structure LoopState where
  i : Nat
  depth : Int
  inStr : Bool
  esc : Bool
  foundMethod : Bool
  methodOK : Bool
  idRaw : Option Slice
deriving DecidableEq, Repr

/-- What a call of `fastMiningSubmitID` ends in. -/
inductive Outcome where
  | ret (idRaw : Option Slice) (ok : Bool)
  | panic
  | outOfFuel
deriving DecidableEq, Repr

/-- What one iteration of the main loop ends in. -/
inductive StepResult where
  | next (s : LoopState)
  | ret (idRaw : Option Slice) (ok : Bool)
  | panic
deriving DecidableEq, Repr

/-- The `if idRaw != nil && foundMethod` test that closes the key branch, and
the `continue` after it: the branch has set `i = j - 1`, and the loop's `i++`
follows. Indices are natural numbers; `j` is the end of a scanned token, never
zero (`scanJSONValueToken_ok`), so `j - 1` is Go's. -/
def finishKey (s : LoopState) (j : Nat) : StepResult :=
  if s.idRaw.isSome && s.foundMethod then .ret s.idRaw s.methodOK
  else .next { s with i := j - 1 + 1 }

/-- The `switch k` of the key branch, at the first byte `i` of the value. -/
def scanKeyValue (b : List Nat) (s : LoopState) (k : jsonTopLevelKey) (i : Nat) : StepResult :=
  match k with
  | jsonKeyMethod =>
    match scanJSONValueToken b i with
    | (val, j, okVal) =>
      if !okVal || sliceLen val < 2 then .ret none false
      else
        match sliceAt b val 0 with
        | none => .panic
        | some c0 =>
          if c0 ≠ 34 then .ret none false
          else
            match sliceAt b val (sliceLen val - 1), val with
            | some c1, some v =>
              if c1 ≠ 34 then .ret none false
              else
                finishKey
                  { s with
                    methodOK := decide (Slice.bytes b ⟨v.lo + 1, v.hi - 1⟩ = miningSubmit)
                    foundMethod := true } j
            | _, _ => .panic
  | jsonKeyID =>
    match scanJSONValueToken b i with
    | (val, j, okVal) =>
      if !okVal then .ret none false
      else finishKey { s with idRaw := val } j
  | jsonKeyOther =>
    match scanJSONValueToken b i with
    | (_, j, okVal) =>
      if !okVal then .ret none false
      else finishKey s j

/-- The branch `case '"'` at depth 1: key, colon, value. -/
def scanMember (b : List Nat) (s : LoopState) : StepResult :=
  match scanTopLevelKey b s.i with
  | (k, next, okKey) =>
    if !okKey then .ret none false
    else
      let i := skipSpaces b next
      match b[i]? with
      | none => .ret none false
      | some c =>
        if c ≠ 58 then .ret none false
        else
          let i := skipSpaces b (i + 1)
          if i ≥ b.length then .ret none false
          else scanKeyValue b s k i

/-- One iteration of the main loop with `c = b[i]`, up to and including the
loop's `i++`. -/
def mainStep (b : List Nat) (s : LoopState) (c : Nat) : StepResult :=
  if s.inStr then
    if s.esc then .next { s with esc := false, i := s.i + 1 }
    else if c = 92 then .next { s with esc := true, i := s.i + 1 }
    else if c = 34 then .next { s with inStr := false, i := s.i + 1 }
    else .next { s with i := s.i + 1 }
  else if c = 34 then
    if s.depth = 1 then scanMember b s
    else .next { s with inStr := true, i := s.i + 1 }
  else if c = 123 ∨ c = 91 then .next { s with depth := s.depth + 1, i := s.i + 1 }
  else if c = 125 ∨ c = 93 then
    if s.depth > 0 then .next { s with depth := s.depth - 1, i := s.i + 1 }
    else .next { s with i := s.i + 1 }
  else .next { s with i := s.i + 1 }

/-- The main loop: `fuel` bounds the number of iterations. -/
def mainLoop (b : List Nat) : Nat → LoopState → Outcome
  | 0, _ => .outOfFuel
  | fuel + 1, s =>
    match b[s.i]? with
    | none => .ret none false
    | some c =>
      match mainStep b s c with
      | .next s' => mainLoop b fuel s'
      | .ret idRaw ok => .ret idRaw ok
      | .panic => .panic

/-- The loop variables before the first iteration. -/
def initState : LoopState :=
  { i := 0, depth := 0, inStr := false, esc := false,
    foundMethod := false, methodOK := false, idRaw := none }

def fastMiningSubmitID (b : List Nat) : Outcome :=
  if !bytesContains b miningSubmit then .ret none false
  else mainLoop b (b.length + 1) initState


/-! ## submission_worker_pool.go

Go's `int` is taken as the 64-bit two's complement integer. A task is a value
of any type `Task`; `processSubmissionTask`, which lives outside these
sources, is a parameter: a computation on a world `W` that ends normally or
panics with a value of type `R`, having changed the world either way. -/

/-- Wrap-around of 64-bit signed arithmetic. -/
def wrapInt64 (x : Int) : Int := (x + 2 ^ 63) % 2 ^ 64 - 2 ^ 63

def submissionWorkerQueueMultiplier : Int := 32

def submissionWorkerQueueMinDepth : Int := 128

def normalizeWorkerCount (workerCount : Int) : Int :=
  if workerCount ≤ 0 then 1 else workerCount

def submissionWorkerQueueDepth (workerCount : Int) : Int :=
  let queueDepth := wrapInt64 (workerCount * submissionWorkerQueueMultiplier)
  if queueDepth < submissionWorkerQueueMinDepth then submissionWorkerQueueMinDepth
  else queueDepth

/-- The function `defaultSubmissionWorkerCount`, with the value of
`runtime.GOMAXPROCS(0)` as parameter. -/
def defaultSubmissionWorkerCount (gomaxprocs : Int) : Int :=
  if gomaxprocs > 0 then gomaxprocs else 1

/-- What a worker goroutine has done: the world as task processing left it,
the tasks `processSubmissionTask` was called on, oldest first, and the
records of `logger.Error`, each with the worker's id and the recovered
value. -/
structure WorkerState (Task W R : Type) where
  world : W
  calls : List Task
  errors : List (Int × R)

/-- The body of `processTask`, `task.mc.processSubmissionTask(task)`: the call
is recorded, and the outcome is the state behind it, normally (`ok`) or
panicking (`error`, with the panic value and the state the panic left). -/
def processTaskBody {Task W R : Type} (processSubmissionTask : Task → W → W × Option R)
    (task : Task) (st : WorkerState Task W R) : Except (R × WorkerState Task W R)
      (WorkerState Task W R) :=
  match processSubmissionTask task st.world with
  | (w, none) => .ok { st with world := w, calls := st.calls ++ [task] }
  | (w, some r) => .error (r, { st with world := w, calls := st.calls ++ [task] })

/-- The function `processTask`: the body under the deferred `recover`. A panic of the body
is recovered and logged, and the function returns normally; `error` would be
a panic that leaves `processTask`. -/
def processTask {Task W R : Type} (processSubmissionTask : Task → W → W × Option R)
    (id : Int) (task : Task) (st : WorkerState Task W R) :
    Except (R × WorkerState Task W R) (WorkerState Task W R) :=
  match processTaskBody processSubmissionTask task st with
  | .ok st' => .ok st'
  | .error (r, st') => .ok { st' with errors := st'.errors ++ [(id, r)] }

/-- The function `worker`: the loop `for task := range p.tasks` over the tasks
the channel delivers, oldest first. A panic that leaves `processTask` ends the loop. -/
def worker {Task W R : Type} (processSubmissionTask : Task → W → W × Option R) (id : Int) :
    List Task → WorkerState Task W R →
      Except (R × WorkerState Task W R) (WorkerState Task W R)
  | [], st => .ok st
  | task :: rest, st =>
    match processTask processSubmissionTask id task st with
    | .ok st' => worker processSubmissionTask id rest st'
    | .error e => .error e

/-- The records of `logger.Error` a worker owes after the tasks, told from
`processSubmissionTask` alone: for each task that panics, in queue order, the
worker's id and the panic value; each task runs in the world the task before
it left. -/
def panicLog {Task W R : Type} (processSubmissionTask : Task → W → W × Option R) (id : Int) :
    List Task → W → List (Int × R)
  | [], _ => []
  | task :: rest, w =>
    (match (processSubmissionTask task w).2 with
      | none => []
      | some r => [(id, r)]) ++
      panicLog processSubmissionTask id rest (processSubmissionTask task w).1

/-- The pool `newSubmissionWorkerPool` builds: the capacity of the channel
`tasks`, and the ids of the worker goroutines started, in starting order. -/
structure submissionWorkerPool where
  tasksCap : Int
  workers : List Int
deriving DecidableEq, Repr

/-- The loop `for i := 0; i < workerCount; i++ { go pool.worker(i) }` of
`newSubmissionWorkerPool` from `i` on; `started` holds the ids of the
goroutines started so far. -/
def startWorkers (workerCount : Int) (i : Int) (started : List Int) : List Int :=
  if i < workerCount then startWorkers workerCount (i + 1) (started ++ [i]) else started
termination_by (workerCount - i).toNat
decreasing_by omega

/-- Go's `make(chan T, n)` for an element type of `elemSize` bytes. The
run-time panics (`makechan: size out of range`) when `n` is negative or when
`n` elements take more than `maxMem` bytes, the most it grants the buffer of a
channel; that is `none`. Otherwise the channel has the capacity `n`. -/
def makeChan (elemSize maxMem : Nat) (n : Int) : Option Int :=
  if n < 0 ∨ (maxMem : Int) < (elemSize : Int) * n then none else some n

/-- The function `newSubmissionWorkerPool`; `elemSize` is the size of a
`submissionTask` in bytes and `maxMem` the run-time's limit for the buffer of
a channel, both fixed by the platform. A panic of `make` is `none`. -/
def newSubmissionWorkerPool (elemSize maxMem : Nat) (workerCount : Int) :
    Option submissionWorkerPool :=
  let workerCount := normalizeWorkerCount workerCount
  let queueDepth := submissionWorkerQueueDepth workerCount
  match makeChan elemSize maxMem queueDepth with
  | none => none
  | some tasks => some { tasksCap := tasks, workers := startWorkers workerCount 0 [] }

/-! ## Request texts

The shapes of text the claims speak of. The scanner validates nothing beyond
quotes and brackets, so the token grammar below is wider than RFC 8259: every
well-formed JSON string, number, literal, array or object is a `Token`. -/

/-- Every byte of `ws` is whitespace. -/
def allSpace (ws : List Nat) : Bool := ws.all isSpace

/-- The list is empty or its first byte satisfies `P`. -/
def headSat (P : Nat → Bool) : List Nat → Bool
  | [] => true
  | c :: _ => P c

/-- A byte that is neither a quote nor a backslash. -/
def isPlain (c : Nat) : Bool := c != 34 && c != 92

/-- Which key the bytes between the quotes name. -/
def classifyKey (key : List Nat) : jsonTopLevelKey :=
  if key = idKeyBytes then jsonKeyID
  else if key = methodKeyBytes then jsonKeyMethod
  else jsonKeyOther

/-- An opening brace or bracket. -/
def isOpen (c : Nat) : Bool := c = 123 || c = 91

/-- A closing brace or bracket. -/
def isClose (c : Nat) : Bool := c = 125 || c = 93

/-- A byte that is no quote, brace or bracket. -/
def isInert (c : Nat) : Bool := c != 34 && !isOpen c && !isClose c

/-- The text between the quotes of a string: plain bytes and two-byte escapes
(a backslash and any byte). -/
inductive StrBody : List Nat → Prop where
  | nil : StrBody []
  | plain (c : Nat) (t : List Nat) : isPlain c = true → StrBody t → StrBody (c :: t)
  | escaped (c : Nat) (t : List Nat) : StrBody t → StrBody (92 :: c :: t)

/-- The text between the delimiters of an array or object: inert bytes
(scalars, commas, colons, whitespace), strings, and nested compounds. -/
inductive Items : List Nat → Prop where
  | nil : Items []
  | inert (c : Nat) (t : List Nat) : isInert c = true → Items t → Items (c :: t)
  | str (body t : List Nat) : StrBody body → Items t → Items (34 :: (body ++ 34 :: t))
  | nest (o : Nat) (inner : List Nat) (c : Nat) (t : List Nat) :
      isOpen o = true → Items inner → isClose c = true → Items t →
      Items (o :: (inner ++ c :: t))

/-- A string token: quote, body, quote. -/
def StringTok (v : List Nat) : Prop := ∃ body, StrBody body ∧ v = 34 :: (body ++ [34])

/-- An array or object token: opener, items, closer. -/
def CompoundTok (v : List Nat) : Prop :=
  ∃ o inner c, isOpen o = true ∧ Items inner ∧ isClose c = true ∧ v = o :: (inner ++ [c])

/-- A scalar token (number, `true`, `false`, `null`): non-empty, free of the
bytes that end a scalar, not starting with a quote, brace or bracket. -/
def ScalarTok (v : List Nat) : Prop :=
  v ≠ [] ∧ v.all (fun c => !isScalarEnd c) = true ∧
    headSat (fun c => c != 34 && !isOpen c) v = true

/-- A value token. -/
def Token (v : List Nat) : Prop := StringTok v ∨ CompoundTok v ∨ ScalarTok v

/-- What follows a token lets it end there: after a scalar comes the end of
the buffer or one of `,` `}` `]` space tab CR LF. -/
def EndsBefore (v r : List Nat) : Prop := ScalarTok v → headSat isScalarEnd r = true

/-- The rest of a buffer behind an opening quote when no unescaped quote
closes the string: plain bytes and escapes, at most a lone backslash at the
end. -/
inductive Unterminated : List Nat → Prop where
  | nil : Unterminated []
  | dangling : Unterminated [92]
  | plain (c : Nat) (t : List Nat) : isPlain c = true → Unterminated t → Unterminated (c :: t)
  | escaped (c : Nat) (t : List Nat) : Unterminated t → Unterminated (92 :: c :: t)

/-- The rest of a buffer at nesting depth `d` (counted from the opening
delimiter of a compound, so `d ≥ 1`) when that delimiter is never balanced:
the depth never comes back to zero. -/
inductive Unclosed : Nat → List Nat → Prop where
  | nil (d : Nat) : Unclosed d []
  | inert (d c : Nat) (t : List Nat) : isInert c = true → Unclosed d t → Unclosed d (c :: t)
  | opener (d c : Nat) (t : List Nat) : isOpen c = true → Unclosed (d + 1) t →
      Unclosed d (c :: t)
  | closer (d c : Nat) (t : List Nat) : isClose c = true → Unclosed (d + 1) t →
      Unclosed (d + 2) (c :: t)
  | str (d : Nat) (body t : List Nat) : StrBody body → Unclosed d t →
      Unclosed d (34 :: (body ++ 34 :: t))
  | openStr (d : Nat) (t : List Nat) : Unterminated t → Unclosed d (34 :: t)

/-! ## Runs of the main loop -/

/-- The states the key branch hands to `finishKey`, by kind of key. -/
def keyUpdate (b : List Nat) (s : LoopState) (k : jsonTopLevelKey) (v : Slice) : LoopState :=
  match k with
  | jsonKeyMethod =>
    { s with
      methodOK := decide (Slice.bytes b ⟨v.lo + 1, v.hi - 1⟩ = miningSubmit)
      foundMethod := true }
  | jsonKeyID => { s with idRaw := some v }
  | jsonKeyOther => s

/-- The main loop from state `s` with the fuel `fastMiningSubmitID` gives it. -/
def run (b : List Nat) (s : LoopState) : Outcome := mainLoop b (b.length + 1) s

/-- The states the main loop passes through at the head of an iteration. -/
inductive Reach (b : List Nat) : LoopState → Prop where
  | init : Reach b initState
  | step (s s' : LoopState) (c : Nat) :
      Reach b s → b[s.i]? = some c → mainStep b s c = .next s' → Reach b s'

/-! ## Request objects, member by member -/

/-- The byte after a backslash in a JSON string: one of `"` `\` `/` `b` `f`
`n` `r` `t` `u`. -/
def isEscapeChar (c : Nat) : Bool :=
  c = 34 || c = 92 || c = 47 || c = 98 || c = 102 || c = 110 || c = 114 || c = 116 || c = 117

/-- The text between the quotes of an object key: plain bytes and JSON escape
sequences. -/
inductive KeyBody : List Nat → Prop where
  | nil : KeyBody []
  | plain (c : Nat) (t : List Nat) : isPlain c = true → KeyBody t → KeyBody (c :: t)
  | escaped (c : Nat) (t : List Nat) : isEscapeChar c = true → KeyBody t →
      KeyBody (92 :: c :: t)

/-- One member of the outermost object, with the whitespace around its tokens:
`pre "key" sep1 : sep2 val post`. -/
structure Member where
  pre : List Nat
  key : List Nat
  sep1 : List Nat
  sep2 : List Nat
  val : List Nat
  post : List Nat

/-- The text of a member. -/
def Member.render (m : Member) : List Nat :=
  m.pre ++ 34 :: (m.key ++ 34 :: (m.sep1 ++ 58 :: (m.sep2 ++ (m.val ++ m.post))))

/-- A member of a well-formed object: JSON whitespace between the tokens, a
string as key, a value token as value. -/
structure Member.WF (m : Member) : Prop where
  pre : allSpace m.pre = true
  key : KeyBody m.key
  sep1 : allSpace m.sep1 = true
  sep2 : allSpace m.sep2 = true
  val : Token m.val
  post : allSpace m.post = true

/-- The members after the first, each behind its comma. -/
def renderTail : List Member → List Nat
  | [] => []
  | m :: ms => 44 :: (m.render ++ renderTail ms)

/-- The text between the braces: the members, or only whitespace. -/
def renderBody (inner : List Nat) : List Member → List Nat
  | [] => inner
  | m :: ms => m.render ++ renderTail ms

/-- The text of a request: `lead { members } trail`. -/
def renderObject (lead inner : List Nat) (ms : List Member) (trail : List Nat) : List Nat :=
  lead ++ 123 :: (renderBody inner ms ++ 125 :: trail)

/-- The string token `"mining.submit"`. -/
def miningSubmitTok : List Nat := 34 :: (miningSubmit ++ [34])

/-- What the key branch does to the loop variables for a member whose key has
no escape, read off the member instead of the buffer; `v` is the view of the
value. -/
def memberUpdate (s : LoopState) (m : Member) (v : Slice) : LoopState :=
  match classifyKey m.key with
  | jsonKeyMethod =>
    { s with methodOK := decide (m.val = miningSubmitTok), foundMethod := true }
  | jsonKeyID => { s with idRaw := some v }
  | jsonKeyOther => s

/-- Offset of a member's value from the start of the member. -/
def Member.valOffset (m : Member) : Nat :=
  m.pre.length + m.key.length + m.sep1.length + m.sep2.length + 3

/-- The effect of the main loop on one member that starts at index `s.i`:
the loop returns, or goes on at the end of the member. -/
def memberStep (s : LoopState) (m : Member) : StepResult :=
  if 92 ∈ m.key then .ret none false
  else if classifyKey m.key = jsonKeyMethod ∧ m.val.head? ≠ some 34 then .ret none false
  else
    let lo := s.i + m.valOffset
    match finishKey (memberUpdate s m ⟨lo, lo + m.val.length⟩) (lo + m.val.length) with
    | .next s' => .next { s' with i := s.i + m.render.length }
    | r => r

/-- The effect of the main loop on the members after the first; `s.i` is the
index of the comma before the next member. -/
def walkTail (s : LoopState) : List Member → StepResult
  | [] => .next s
  | m :: ms =>
    match memberStep { s with i := s.i + 1 } m with
    | .next s' => walkTail s' ms
    | r => r

/-- The effect of the main loop on the members of an object whose brace is at
index `n`. -/
def walkObject (n : Nat) : List Member → StepResult
  | [] => .next { initState with i := n + 1, depth := 1 }
  | m :: ms =>
    match memberStep { initState with i := n + 1, depth := 1 } m with
    | .next s' => walkTail s' ms
    | r => r

/-! ## What the loop has seen, on arbitrary bytes -/

/-- The buffer holds, at an index where the loop stood at depth 1 outside a
string, the key `"method"`, optional whitespace, a colon, optional whitespace
and the token `"mining.submit"`. -/
def MethodSeen (b : List Nat) : Prop :=
  ∃ s ws1 ws2 rest, Reach b s ∧ s.depth = 1 ∧ s.inStr = false ∧
    allSpace ws1 = true ∧ allSpace ws2 = true ∧
    b.drop s.i = 34 :: (methodKeyBytes ++ 34 :: (ws1 ++ 58 :: (ws2 ++ (miningSubmitTok ++ rest))))

/-- The view `v` starts at the first byte that is not whitespace behind the
colon of a key `"id"` that stands where the loop stood at depth 1 outside a
string; it is not empty and lies within the buffer. -/
def IdSeen (b : List Nat) (v : Slice) : Prop :=
  ∃ s ws1 ws2 c, Reach b s ∧ s.depth = 1 ∧ s.inStr = false ∧
    allSpace ws1 = true ∧ allSpace ws2 = true ∧
    b.drop s.i = 34 :: (idKeyBytes ++ 34 :: (ws1 ++ 58 :: (ws2 ++ b.drop v.lo))) ∧
    v.lo = s.i + ws1.length + ws2.length + 5 ∧
    b[v.lo]? = some c ∧ isSpace c = false ∧ v.lo < v.hi ∧ v.hi ≤ b.length

/-! ## JSON texts (RFC 8259)

The grammar of RFC 8259 on bytes, to tie the wider token grammar to it: every
JSON value is a `Token`, and every JSON object text is a `renderObject` of
well-formed members. -/

/-- A decimal digit. -/
def isDigit (c : Nat) : Bool := decide (48 ≤ c) && decide (c ≤ 57)

/-- A hexadecimal digit. -/
def isHexDigit (c : Nat) : Bool :=
  isDigit c || (decide (65 ≤ c) && decide (c ≤ 70)) || (decide (97 ≤ c) && decide (c ≤ 102))

/-- The byte behind the backslash of a two-byte escape: one of `"` `\` `/` `b`
`f` `n` `r` `t`. -/
def isSimpleEscape (c : Nat) : Bool :=
  c = 34 || c = 92 || c = 47 || c = 98 || c = 102 || c = 110 || c = 114 || c = 116

/-- The characters of a JSON string: bytes from 0x20 on other than quote and
backslash, two-byte escapes, and `\u` with four hexadecimal digits. -/
inductive JChars : List Nat → Prop where
  | nil : JChars []
  | plain (c : Nat) (t : List Nat) : 32 ≤ c → isPlain c = true → JChars t → JChars (c :: t)
  | escape (c : Nat) (t : List Nat) : isSimpleEscape c = true → JChars t →
      JChars (92 :: c :: t)
  | unicode (h1 h2 h3 h4 : Nat) (t : List Nat) : isHexDigit h1 = true →
      isHexDigit h2 = true → isHexDigit h3 = true → isHexDigit h4 = true → JChars t →
      JChars (92 :: 117 :: h1 :: h2 :: h3 :: h4 :: t)

/-- The bytes of a number: digits, signs, a point, `e` and `E`. -/
def isNumberByte (c : Nat) : Bool :=
  isDigit c || c = 45 || c = 43 || c = 46 || c = 101 || c = 69

/-- One or more digits. -/
def JDigits (v : List Nat) : Prop := v ≠ [] ∧ v.all isDigit = true

/-- The integer part of a number: `0`, or a digit from 1 to 9 and digits. -/
def JInt (v : List Nat) : Prop :=
  v = [48] ∨ ∃ d ds, 49 ≤ d ∧ d ≤ 57 ∧ ds.all isDigit = true ∧ v = d :: ds

/-- The optional fraction of a number: a point and digits. -/
def JFrac (v : List Nat) : Prop := v = [] ∨ ∃ ds, JDigits ds ∧ v = 46 :: ds

/-- The optional exponent of a number: `e` or `E`, an optional sign, digits. -/
def JExp (v : List Nat) : Prop :=
  v = [] ∨ ∃ e sg ds, (e = 101 ∨ e = 69) ∧ (sg = [] ∨ sg = [45] ∨ sg = [43]) ∧ JDigits ds ∧
    v = e :: (sg ++ ds)

/-- A JSON number. -/
def JNumber (v : List Nat) : Prop :=
  ∃ sg n f e, (sg = [] ∨ sg = [45]) ∧ JInt n ∧ JFrac f ∧ JExp e ∧ v = sg ++ (n ++ (f ++ e))

/-- What a JSON text is read as: a value, the elements of an array, or the
members of an object. -/
inductive JKind where
  | value
  | elements
  | members

/-- The grammar of RFC 8259. -/
inductive Json : JKind → List Nat → Prop where
  | litTrue : Json .value [116, 114, 117, 101]
  | litFalse : Json .value [102, 97, 108, 115, 101]
  | litNull : Json .value [110, 117, 108, 108]
  | number (v : List Nat) : JNumber v → Json .value v
  | string (body : List Nat) : JChars body → Json .value (34 :: (body ++ [34]))
  | emptyArray (ws : List Nat) : allSpace ws = true → Json .value (91 :: (ws ++ [93]))
  | array (ws1 els ws2 : List Nat) : allSpace ws1 = true → Json .elements els →
      allSpace ws2 = true → Json .value (91 :: (ws1 ++ (els ++ (ws2 ++ [93]))))
  | emptyObject (ws : List Nat) : allSpace ws = true → Json .value (123 :: (ws ++ [125]))
  | object (ws1 mems ws2 : List Nat) : allSpace ws1 = true → Json .members mems →
      allSpace ws2 = true → Json .value (123 :: (ws1 ++ (mems ++ (ws2 ++ [125]))))
  | elemOne (v : List Nat) : Json .value v → Json .elements v
  | elemCons (v ws1 ws2 rest : List Nat) : Json .value v → allSpace ws1 = true →
      allSpace ws2 = true → Json .elements rest →
      Json .elements (v ++ (ws1 ++ 44 :: (ws2 ++ rest)))
  | memOne (key ws1 ws2 v : List Nat) : JChars key → allSpace ws1 = true →
      allSpace ws2 = true → Json .value v →
      Json .members (34 :: (key ++ 34 :: (ws1 ++ 58 :: (ws2 ++ v))))
  | memCons (key ws1 ws2 v ws3 ws4 rest : List Nat) : JChars key → allSpace ws1 = true →
      allSpace ws2 = true → Json .value v → allSpace ws3 = true → allSpace ws4 = true →
      Json .members rest →
      Json .members (34 :: (key ++ 34 :: (ws1 ++ 58 :: (ws2 ++ (v ++ (ws3 ++ 44 ::
        (ws4 ++ rest)))))))

/-- A JSON text that is an object, with the whitespace allowed around it. -/
inductive JsonObject : List Nat → Prop where
  | empty (lead ws trail : List Nat) : allSpace lead = true → allSpace ws = true →
      allSpace trail = true → JsonObject (lead ++ 123 :: (ws ++ 125 :: trail))
  | full (lead ws1 mems ws2 trail : List Nat) : allSpace lead = true → allSpace ws1 = true →
      Json .members mems → allSpace ws2 = true → allSpace trail = true →
      JsonObject (lead ++ 123 :: (ws1 ++ (mems ++ (ws2 ++ 125 :: trail))))

/-- What the grammar of RFC 8259 gives for the token grammar, by kind of
text. -/
def JsonShape : JKind → List Nat → Prop
  | .value, t => Items t ∧ Token t
  | .elements, t => Items t
  | .members, t =>
    Items t ∧ ∀ ws1 ws2 : List Nat, allSpace ws1 = true → allSpace ws2 = true →
      ∃ ms : List Member, ms ≠ [] ∧ (∀ m ∈ ms, m.WF) ∧ ws1 ++ (t ++ ws2) = renderBody [] ms

/-! ## Example requests -/

/-- The member ` "method" : "mining.submit" `. -/
def exMethodSpaced : Member := ⟨[32], methodKeyBytes, [32], [32], miningSubmitTok, [32]⟩

/-- The member ` "id" : 7 `. -/
def exIdSpaced : Member := ⟨[32], idKeyBytes, [32], [32], [55], [32]⟩

/-- The member ` "params" : [] `. -/
def exParamsSpaced : Member := ⟨[32], bytesOf "params", [32], [32], [91, 93], [32]⟩

/-- The member `"method":"mining.submit"`. -/
def exMethod : Member := ⟨[], methodKeyBytes, [], [], miningSubmitTok, []⟩

/-- The member `"method":"mining.ping"`. -/
def exMethodPing : Member := ⟨[], methodKeyBytes, [], [], bytesOf "\"mining.ping\"", []⟩

/-- The member `"id":1`. -/
def exId : Member := ⟨[], idKeyBytes, [], [], [49], []⟩

/-- The member `"params":["mining.submit"]`. -/
def exParamsSubmit : Member :=
  ⟨[], bytesOf "params", [], [], 91 :: (miningSubmitTok ++ [93]), []⟩

/-- The member `"params":[{"id":5}]`. -/
def exParamsNested : Member :=
  ⟨[], bytesOf "params", [], [], bytesOf "[\x7b\"id\":5\x7d]", []⟩

/-- The request `{"id":1,"method":"mining.submit","params":[]}` of the
source's test `numeric_id_first`. -/
def exSubmit : List Nat := bytesOf "\x7b\"id\":1,\"method\":\"mining.submit\",\"params\":[]\x7d"

/-- The text `{"id": tok ,"method":"mining.submit"` followed by `t`. -/
def submitWithId (tok t : List Nat) : List Nat :=
  bytesOf "\x7b\"id\": " ++ (tok ++ (bytesOf " ,\"method\":\"mining.submit\"" ++ t))

/-- The member `"id": tok ` of `submitWithId`. -/
def idMemberOf (tok : List Nat) : Member := ⟨[], idKeyBytes, [], [32], tok, [32]⟩

/-- The truncated request `{"method":"mining.submit","id":1`. -/
def exTruncated : List Nat := bytesOf "\x7b\"method\":\"mining.submit\",\"id\":1"

/-- The request `{"a\nb":1,"id":1,"method":"mining.submit"}`, whose first key
holds the escape sequence backslash `n`. -/
def exEscapedKey : List Nat :=
  bytesOf "\x7b\"a\\nb\":1,\"id\":1,\"method\":\"mining.submit\"\x7d"

/-- The request `{"id":x,"method":"mining.submit"}`, whose id is no JSON
value. -/
def exBadId : List Nat := bytesOf "\x7b\"id\":x,\"method\":\"mining.submit\"\x7d"

/-- The bytes a JSON value can start with (RFC 8259): a quote, a minus sign, a
digit, a brace, a bracket, or the first letter of `true`, `false`, `null`. -/
def isJSONValueStart (c : Nat) : Bool :=
  c = 34 || c = 45 || (48 ≤ c && c ≤ 57) || c = 123 || c = 91 || c = 116 || c = 102 || c = 110

/-! ## Delimiters balanced by their own kind -/

/-- The closing delimiter of an opening one: `}` for `{`, `]` for `[`. -/
def closerOf (o : Nat) : Nat := if o = 123 then 125 else 93

/-- Whether the delimiters that are open, of which `stack` holds the awaited
closers, innermost first, are all balanced within the text, each by a closer
of its own kind; strings are skipped as the scanner skips them. A closer of
the wrong kind balances nothing. -/
def balancedIn : List Nat → Bool → Bool → List Nat → Bool
  | _, _, _, [] => false
  | stack, inStr, esc, c :: t =>
    if inStr then
      if esc then balancedIn stack true false t
      else if c = 92 then balancedIn stack true true t
      else if c = 34 then balancedIn stack false false t
      else balancedIn stack true false t
    else if c = 34 then balancedIn stack true false t
    else if isOpen c then balancedIn (closerOf c :: stack) false false t
    else if isClose c then
      match stack with
      | [] => false
      | e :: rest =>
        if c = e then (if rest.isEmpty then true else balancedIn rest false false t)
        else false
    else balancedIn stack false false t

/-- A value that is neither a string nor an array or object: its first byte
is no quote, brace or bracket. -/
def isScalarValue (v : List Nat) : Bool := headSat (fun c => c != 34 && !isOpen c) v

/-- The six structural characters of JSON: `,` `:` `{` `}` `[` `]`. -/
def isJSONStructural (c : Nat) : Bool :=
  c = 44 || c = 58 || c = 123 || c = 125 || c = 91 || c = 93

/-- The end of a scalar as the specification words it: the least index from
`i` on at which a structural character or a whitespace byte stands, or the
length of the buffer. -/
def scalarRunEnd (b : List Nat) (i : Nat) : Nat :=
  i + ((b.drop i).takeWhile (fun c => !(isJSONStructural c || isSpace c))).length

/-! ## The scan without the pre-check, and the count of iterations -/

/-- The function `fastMiningSubmitID` with its `bytes.Contains` test taken
out: the structural scan alone. -/
def structuralScan (b : List Nat) : Outcome := mainLoop b (b.length + 1) initState

/-- The number of iterations of the main loop, counted along `mainLoop`: the
times the loop body runs, the iteration that returns included. -/
def mainLoopIters (b : List Nat) : Nat → LoopState → Nat
  | 0, _ => 0
  | fuel + 1, s =>
    match b[s.i]? with
    | none => 0
    | some c =>
      match mainStep b s c with
      | .next s' => 1 + mainLoopIters b fuel s'
      | _ => 1

/-! ## A generic decode of a request object

The other side of the comparison with a full decode: what a generic JSON
decoder, which keeps the last occurrence of a repeated key, gives for the
members of the outermost object. -/

/-- The raw value a generic decode gives a key: that of the last member with
this key. -/
def decodeLast (key : List Nat) : List Member → Option (List Nat)
  | [] => none
  | m :: ms =>
    match decodeLast key ms with
    | some v => some v
    | none => if m.key = key then some m.val else none

/-- What a full generic decode of a request object says on the two questions
of the fast path: the raw text of the value of `id`, and whether the value of
`method` is the string `"mining.submit"`. -/
def genericDecode (ms : List Member) : Option (List Nat) × Bool :=
  (decodeLast idKeyBytes ms, decide (decodeLast methodKeyBytes ms = some miningSubmitTok))

/-- Some member has the key. -/
def hasKey (key : List Nat) (ms : List Member) : Bool := ms.any (fun m => decide (m.key = key))

/-- The members hold both an `id` key and a `method` key. -/
def hasBoth (ms : List Member) : Bool := hasKey idKeyBytes ms && hasKey methodKeyBytes ms

/-- The loop variables agree with a generic decode of the members `seen`. -/
def Tracks (b : List Nat) (s : LoopState) (seen : List Member) : Prop :=
  s.foundMethod = hasKey methodKeyBytes seen ∧
  s.methodOK = decide (decodeLast methodKeyBytes seen = some miningSubmitTok) ∧
  s.idRaw.map (Slice.bytes b) = decodeLast idKeyBytes seen

/-- The member `"id":2`. -/
def exIdTwo : Member := ⟨[], idKeyBytes, [], [], [50], []⟩

/-- The members of `{"id":1,"method":"mining.submit","id":2}`. -/
def exRepeatedId : List Member := [exId, exMethod, exIdTwo]

/-- The members of `{"method":"mining.submit","id":1,"method":"mining.ping"}`. -/
def exRepeatedMethod : List Member := [exMethod, exId, exMethodPing]

/-! ## The submission processor

The method `processSubmissionTask` of a miner's connection is called by
`processTask` and by the tests `TestProcessSubmissionTaskFastAckSilentReject`
and `TestProcessSubmissionTaskFastAckWinningBlockStillSubmits`; its body, the
types `MinerConn` and `Job`, and the values of `submitRejectReason` are not
part of the sources at hand. They are modelled from the specification's
state machine (parse, validate, hash, classify, relay, acknowledge). What the
specification leaves to collaborators is a parameter. -/

/-- Modelled from the spec: the values of `submitRejectReason`, the closed
set of reasons of the rejection record (unauthorized connection,
job-not-found or stale, bad-extranonce-size, malformed-params,
duplicate-share, low-difficulty-share). -/
inductive submitRejectReason where
  | unauthorized
  | jobNotFound
  | badExtranonceSize
  | malformedParams
  | duplicateShare
  | lowDifficultyShare
deriving DecidableEq, Repr

/-- Modelled from the spec: the type `Job`, as far as the processor reads it:
the job id, the configured byte length of extranonce2, and the target, a
256-bit threshold. -/
structure Job where
  JobID : List Nat
  Extranonce2Size : Nat
  Target : Nat
deriving DecidableEq, Repr

/-- Modelled from the spec: the positional parameters of a `mining.submit`
request: worker name, job id, extranonce2 (hex), time (hex), nonce (hex). -/
structure SubmitParams where
  worker : List Nat
  jobID : List Nat
  extranonce2 : List Nat
  ntime : List Nat
  nonce : List Nat
deriving DecidableEq, Repr

/-- The struct `submissionTask`, with the fields the tests of
`processSubmissionTask` set: the raw request line and the flag that the
response has been sent already. -/
structure submissionTask where
  rawLine : List Nat
  optimistic : Bool
deriving DecidableEq, Repr

/-- Modelled from the spec: the type `MinerConn`, the state of a connection
that the processor reads and writes: authorization, extranonce1, the
active-job set, the share target of the connection, the submissions accepted
so far, the bytes written to the connection, the calls made to the node RPC
client (method and payload), and the durable record of found blocks. -/
structure MinerConn where
  authorized : Bool
  extranonce1 : List Nat
  activeJobs : List (List Nat × Job)
  shareTarget : Nat
  seen : List SubmitParams
  written : List Nat
  rpcCalls : List (List Nat × List Nat)
  foundBlocks : List (List Nat)

/-- Modelled from the spec: the collaborators of the processor that the
specification names without defining: the decoding of the positional
parameters and the full generic decode of a request (id token and
parameters), the test that time and nonce are well-formed hex of the expected
width, the proof-of-work hash of the header assembled from job, extranonce1
and parameters, the serialization of the block, and the bytes of a response
line for an id and a rejection or success. -/
structure Collaborators where
  decodeParams : List Nat → Option SubmitParams
  fullDecode : List Nat → Option (List Nat × SubmitParams)
  timeNonceOK : SubmitParams → Bool
  headerHash : Job → List Nat → SubmitParams → Nat
  serializeBlock : Job → List Nat → SubmitParams → List Nat
  response : Option (List Nat) → Option submitRejectReason → List Nat

/-- Modelled from the spec: what processing a task came to: the rejection, if
any, and whether the share was classified as a winning block. -/
structure SubmitResult where
  reject : Option submitRejectReason
  winning : Bool
deriving DecidableEq, Repr

/-- The method name of the relay call. -/
def submitblockMethod : List Nat := bytesOf "submitblock"

/-- Modelled from the spec: step 1 of `processSubmissionTask`, parse. If the
fast path yields an id and the submit confirmation, the envelope is not
decoded and only the positional parameters are; otherwise the request is
decoded in full. -/
def parseSubmit (env : Collaborators) (raw : List Nat) : Option (List Nat × SubmitParams) :=
  match fastMiningSubmitID raw with
  | .ret (some v) true => (env.decodeParams raw).map (fun p => (v.bytes raw, p))
  | _ => env.fullDecode raw

/-- Every byte is a hexadecimal digit: the text decodes as hex. -/
def allHex (t : List Nat) : Bool := t.all isHexDigit

/-- Modelled from the spec: step 2 of `processSubmissionTask`, validate: the
ordered checks, of which the first that fails gives the rejection. The
connection is authorized; the job id resolves in the active-job set;
extranonce2 decodes to exactly the job's extranonce2 byte length (two hex
digits a byte); time and nonce are well-formed; the submission is no
duplicate. The result is the job, or the reason. -/
def validateSubmit (env : Collaborators) (mc : MinerConn) (p : SubmitParams) :
    Except submitRejectReason Job :=
  if !mc.authorized then .error .unauthorized
  else
    match mc.activeJobs.lookup p.jobID with
    | none => .error .jobNotFound
    | some job =>
      if p.extranonce2.length ≠ 2 * job.Extranonce2Size || !allHex p.extranonce2 then
        .error .badExtranonceSize
      else if !env.timeNonceOK p then .error .malformedParams
      else if decide (p ∈ mc.seen) then .error .duplicateShare
      else .ok job

/-- Modelled from the spec: step 6 of `processSubmissionTask`, acknowledge. A
task that was acknowledged optimistically gets no further response, success
or rejection (silent drop); otherwise the response line is written. -/
def acknowledge (env : Collaborators) (task : submissionTask) (mc : MinerConn)
    (id : Option (List Nat)) (reject : Option submitRejectReason) : MinerConn :=
  if task.optimistic then mc
  else { mc with written := mc.written ++ env.response id reject }

/-- Modelled from the spec: the method `processSubmissionTask`, the state
machine of section 4.3. Parse; validate; hash the header and read the hash as
a 256-bit integer; classify it against the share target of the connection
(accept or reject) and, independently, against the job's target (winning
block), a hash less than or equal to a target satisfying it; relay a winning
block with one `submitblock` call and record it, whatever the outcome of the
call; acknowledge. -/
def processSubmissionTask (env : Collaborators) (task : submissionTask) (mc : MinerConn) :
    MinerConn × SubmitResult :=
  match parseSubmit env task.rawLine with
  | none => (acknowledge env task mc none (some .malformedParams), ⟨some .malformedParams, false⟩)
  | some (id, p) =>
    match validateSubmit env mc p with
    | .error r => (acknowledge env task mc (some id) (some r), ⟨some r, false⟩)
    | .ok job =>
      let hash := env.headerHash job mc.extranonce1 p % 2 ^ 256
      let reject := if hash ≤ mc.shareTarget then none else some submitRejectReason.lowDifficultyShare
      let winning := decide (hash ≤ job.Target)
      let mc1 := if reject.isNone then { mc with seen := mc.seen ++ [p] } else mc
      let mc2 :=
        if winning then
          { mc1 with
            rpcCalls := mc1.rpcCalls ++ [(submitblockMethod, env.serializeBlock job mc.extranonce1 p)]
            foundBlocks := mc1.foundBlocks ++ [env.serializeBlock job mc.extranonce1 p] }
        else mc1
      (acknowledge env task mc2 (some id) reject, ⟨reject, winning⟩)

/-- The job of the tests of `processSubmissionTask`: id `job1`, four bytes of
extranonce2, and the target given. -/
def exJob (target : Nat) : Job := ⟨bytesOf "job1", 4, target⟩

/-- The connection of the tests: authorized, with the one active job. -/
def exMinerConn (target : Nat) : MinerConn :=
  { authorized := true, extranonce1 := [1, 2, 3, 4],
    activeJobs := [(bytesOf "job1", exJob target)], shareTarget := 2 ^ 256 - 1,
    seen := [], written := [], rpcCalls := [], foundBlocks := [] }

/-- Collaborators for the examples: the parameters decoded are the ones
given. -/
def exCollaborators (p : SubmitParams) : Collaborators :=
  { decodeParams := fun _ => some p, fullDecode := fun _ => none,
    timeNonceOK := fun q => q.ntime.length = 8 && q.nonce.length = 8,
    headerHash := fun _ _ _ => 12345, serializeBlock := fun _ _ q => q.nonce,
    response := fun _ _ => [110, 111, 10] }

/-- The request of `TestProcessSubmissionTaskFastAckSilentReject`, whose
extranonce2 is `00`. -/
def exShortLine : List Nat :=
  bytesOf ("\x7b\"id\":1,\"method\":\"mining.submit\",\"params\":" ++
    "[\"worker1\",\"job1\",\"00\",\"00000000\",\"00000000\"]\x7d")

/-- The parameters of `exShortLine`. -/
def exShortParams : SubmitParams :=
  ⟨bytesOf "worker1", bytesOf "job1", bytesOf "00", bytesOf "00000000", bytesOf "00000000"⟩

/-- The request of `TestProcessSubmissionTaskFastAckWinningBlockStillSubmits`. -/
def exWinningLine : List Nat :=
  bytesOf ("\x7b\"id\":1,\"method\":\"mining.submit\",\"params\":" ++
    "[\"worker1\",\"job1\",\"aabbccdd\",\"6553f100\",\"00000001\"]\x7d")

/-- The parameters of `exWinningLine`. -/
def exWinningParams : SubmitParams :=
  ⟨bytesOf "worker1", bytesOf "job1", bytesOf "aabbccdd", bytesOf "6553f100",
    bytesOf "00000001"⟩

/-! ## The sub-scanners on well-formed tokens -/

theorem getElem?_at {b p r : List Nat} {c n : Nat} (hb : b = p ++ c :: r) (hn : n = p.length) :
    b[n]? = some c := by
  subst hb hn
  rw [List.getElem?_append_right (Nat.le_refl _)]
  simp

theorem drop_at {b p r : List Nat} {n : Nat} (hb : b = p ++ r) (hn : n = p.length) :
    b.drop n = r := by
  subst hb hn
  simp

theorem bytes_at {b p v r : List Nat} {lo hi : Nat} (hb : b = p ++ (v ++ r))
    (hlo : lo = p.length) (hhi : hi = p.length + v.length) :
    Slice.bytes b ⟨lo, hi⟩ = v := by
  subst hb hlo hhi
  simp [Slice.bytes]

theorem skipSpacesLoop_ws (ws r : List Nat) (j : Nat) (hws : allSpace ws = true)
    (hr : headSat (fun c => !isSpace c) r = true) :
    skipSpacesLoop (ws ++ r) j = j + ws.length := by
  induction ws generalizing j with
  | nil =>
    cases r with
    | nil => simp [skipSpacesLoop]
    | cons c r => simp [headSat] at hr; simp [skipSpacesLoop, hr]
  | cons w ws ih =>
    simp only [allSpace, List.all_cons, Bool.and_eq_true] at hws
    have := ih (j + 1) (by simpa [allSpace] using hws.2)
    simp [skipSpacesLoop, hws.1, this]; omega

theorem skipSpaces_at {b p ws r : List Nat} {n : Nat} (hb : b = p ++ (ws ++ r))
    (hn : n = p.length) (hws : allSpace ws = true)
    (hr : headSat (fun c => !isSpace c) r = true) :
    skipSpaces b n = n + ws.length := by
  rw [skipSpaces, drop_at hb hn, skipSpacesLoop_ws ws r n hws hr]

theorem scanTopLevelKeyLoop_plain (key r : List Nat) (j : Nat) (hk : key.all isPlain = true) :
    scanTopLevelKeyLoop (key ++ 34 :: r) j = (j + key.length, false) := by
  induction key generalizing j with
  | nil => simp [scanTopLevelKeyLoop]
  | cons c key ih =>
    simp only [List.all_cons, Bool.and_eq_true, isPlain, bne_iff_ne, ne_eq] at hk
    have := ih (j + 1) (by simpa [isPlain] using hk.2)
    simp [scanTopLevelKeyLoop, hk.1.1, hk.1.2, this]; omega

theorem scanTopLevelKey_plain {b p key r : List Nat} {n : Nat}
    (hb : b = p ++ 34 :: (key ++ 34 :: r)) (hn : n = p.length) (hk : key.all isPlain = true) :
    scanTopLevelKey b n = (classifyKey key, n + key.length + 2, true) := by
  have hd : b.drop (n + 1) = key ++ 34 :: r :=
    drop_at (p := p ++ [34]) (by simp [hb]) (by simp [hn])
  have hg : b[n + 1 + key.length]? = some 34 :=
    getElem?_at (p := p ++ 34 :: key) (r := r) (by simp [hb]) (by simp [hn]; omega)
  have hbytes : Slice.bytes b ⟨n + 1, n + 1 + key.length⟩ = key :=
    bytes_at (p := p ++ [34]) (r := 34 :: r) (by simp [hb]) (by simp [hn]) (by simp [hn])
  simp only [scanTopLevelKey, hd, scanTopLevelKeyLoop_plain key r (n + 1) hk, hg, hbytes,
    classifyKey]
  simp; omega

theorem scanTopLevelKeyLoop_escape (k1 r : List Nat) (j : Nat) (hk : k1.all isPlain = true) :
    scanTopLevelKeyLoop (k1 ++ 92 :: r) j = (j + k1.length, true) := by
  induction k1 generalizing j with
  | nil => simp [scanTopLevelKeyLoop]
  | cons c key ih =>
    simp only [List.all_cons, Bool.and_eq_true, isPlain, bne_iff_ne, ne_eq] at hk
    have := ih (j + 1) (by simpa [isPlain] using hk.2)
    simp [scanTopLevelKeyLoop, hk.1.1, hk.1.2, this]; omega

theorem scanTopLevelKey_escape {b p k1 r : List Nat} {n : Nat}
    (hb : b = p ++ 34 :: (k1 ++ 92 :: r)) (hn : n = p.length) (hk : k1.all isPlain = true) :
    scanTopLevelKey b n = (jsonKeyOther, n + k1.length + 2, true) := by
  have hd : b.drop (n + 1) = k1 ++ 92 :: r :=
    drop_at (p := p ++ [34]) (by simp [hb]) (by simp [hn])
  simp [scanTopLevelKey, hd, scanTopLevelKeyLoop_escape k1 r (n + 1) hk]; omega

theorem isOpen_iff {c : Nat} : isOpen c = true ↔ c = 123 ∨ c = 91 := by simp [isOpen]

theorem isClose_iff {c : Nat} : isClose c = true ↔ c = 125 ∨ c = 93 := by simp [isClose]

theorem isPlain_iff {c : Nat} : isPlain c = true ↔ c ≠ 34 ∧ c ≠ 92 := by simp [isPlain]

theorem isInert_iff {c : Nat} :
    isInert c = true ↔ c ≠ 34 ∧ c ≠ 123 ∧ c ≠ 91 ∧ c ≠ 125 ∧ c ≠ 93 := by
  simp [isInert, isOpen, isClose]
  tauto

theorem isSpace_iff {c : Nat} : isSpace c = true ↔ c = 32 ∨ c = 9 ∨ c = 13 ∨ c = 10 := by
  simp [isSpace, or_assoc]

theorem isScalarEnd_iff {c : Nat} :
    isScalarEnd c = true ↔ c = 44 ∨ c = 125 ∨ c = 93 ∨ c = 32 ∨ c = 9 ∨ c = 13 ∨ c = 10 := by
  simp [isScalarEnd, or_assoc]

theorem scanJSONStringEndLoop_body (i : Nat) (body r : List Nat) (j : Nat) (hb : StrBody body) :
    scanJSONStringEndLoop i (body ++ 34 :: r) j false = (j + body.length + 1, true) := by
  induction hb generalizing j with
  | nil => simp [scanJSONStringEndLoop]
  | plain c t hc _ ih =>
    rw [isPlain_iff] at hc
    simp [scanJSONStringEndLoop, hc.1, hc.2, ih (j + 1)]; omega
  | escaped c t _ ih =>
    simp [scanJSONStringEndLoop, ih (j + 1 + 1)]; omega

theorem scanJSONStringEnd_at {b p body r : List Nat} {n : Nat}
    (hb : b = p ++ 34 :: (body ++ 34 :: r)) (hn : n = p.length) (hs : StrBody body) :
    scanJSONStringEnd b n = (n + body.length + 2, true) := by
  have hd : b.drop (n + 1) = body ++ 34 :: r :=
    drop_at (p := p ++ [34]) (by simp [hb]) (by simp [hn])
  rw [scanJSONStringEnd, hd, scanJSONStringEndLoop_body n body r (n + 1) hs]
  simp; omega

/-! Single iterations of the compound loop. -/

theorem compoundLoop_escaped (i c : Nat) (rest : List Nat) (j : Nat) (d : Int) :
    scanJSONCompoundEndLoop i (c :: rest) j d true true =
      scanJSONCompoundEndLoop i rest (j + 1) d true false := by
  simp [scanJSONCompoundEndLoop]

theorem compoundLoop_backslash (i : Nat) (rest : List Nat) (j : Nat) (d : Int) :
    scanJSONCompoundEndLoop i (92 :: rest) j d true false =
      scanJSONCompoundEndLoop i rest (j + 1) d true true := by
  simp [scanJSONCompoundEndLoop]

theorem compoundLoop_closeQuote (i : Nat) (rest : List Nat) (j : Nat) (d : Int) :
    scanJSONCompoundEndLoop i (34 :: rest) j d true false =
      scanJSONCompoundEndLoop i rest (j + 1) d false false := by
  simp [scanJSONCompoundEndLoop]

theorem compoundLoop_plain (i c : Nat) (rest : List Nat) (j : Nat) (d : Int)
    (hc : isPlain c = true) :
    scanJSONCompoundEndLoop i (c :: rest) j d true false =
      scanJSONCompoundEndLoop i rest (j + 1) d true false := by
  rw [isPlain_iff] at hc
  simp [scanJSONCompoundEndLoop, hc.1, hc.2]

theorem compoundLoop_openQuote (i : Nat) (rest : List Nat) (j : Nat) (d : Int) (e : Bool) :
    scanJSONCompoundEndLoop i (34 :: rest) j d false e =
      scanJSONCompoundEndLoop i rest (j + 1) d true e := by
  simp [scanJSONCompoundEndLoop]

theorem compoundLoop_open (i c : Nat) (rest : List Nat) (j : Nat) (d : Int) (e : Bool)
    (hc : isOpen c = true) :
    scanJSONCompoundEndLoop i (c :: rest) j d false e =
      scanJSONCompoundEndLoop i rest (j + 1) (d + 1) false e := by
  rw [isOpen_iff] at hc
  have : c ≠ 34 := by omega
  simp [scanJSONCompoundEndLoop, hc, this]

theorem compoundLoop_close (i c : Nat) (rest : List Nat) (j : Nat) (d : Int) (e : Bool)
    (hc : isClose c = true) (hd : d ≠ 0) :
    scanJSONCompoundEndLoop i (c :: rest) j (d + 1) false e =
      scanJSONCompoundEndLoop i rest (j + 1) d false e := by
  rw [isClose_iff] at hc
  have h1 : c ≠ 34 := by omega
  have h2 : ¬ (c = 123 ∨ c = 91) := by omega
  simp [scanJSONCompoundEndLoop, hc, h1, h2, hd]

theorem compoundLoop_last (i c : Nat) (rest : List Nat) (j : Nat) (e : Bool)
    (hc : isClose c = true) :
    scanJSONCompoundEndLoop i (c :: rest) j 1 false e = (j + 1, true) := by
  rw [isClose_iff] at hc
  have h1 : c ≠ 34 := by omega
  have h2 : ¬ (c = 123 ∨ c = 91) := by omega
  simp [scanJSONCompoundEndLoop, hc, h1, h2]

theorem compoundLoop_inert (i c : Nat) (rest : List Nat) (j : Nat) (d : Int) (e : Bool)
    (hc : isInert c = true) :
    scanJSONCompoundEndLoop i (c :: rest) j d false e =
      scanJSONCompoundEndLoop i rest (j + 1) d false e := by
  rw [isInert_iff] at hc
  have h2 : ¬ (c = 123 ∨ c = 91) := by omega
  have h3 : ¬ (c = 125 ∨ c = 93) := by omega
  simp [scanJSONCompoundEndLoop, hc.1, h2, h3]

theorem scanJSONCompoundEndLoop_str (i : Nat) (body r : List Nat) (j : Nat) (d : Int)
    (hb : StrBody body) :
    scanJSONCompoundEndLoop i (body ++ 34 :: r) j d true false =
      scanJSONCompoundEndLoop i r (j + body.length + 1) d false false := by
  induction hb generalizing j with
  | nil => simp [compoundLoop_closeQuote]
  | plain c t hc _ ih =>
    rw [List.cons_append, compoundLoop_plain _ _ _ _ _ hc, ih]
    congr 1; simp; omega
  | escaped c t _ ih =>
    rw [List.cons_append, List.cons_append, compoundLoop_backslash, compoundLoop_escaped, ih]
    congr 1; simp; omega

theorem scanJSONCompoundEndLoop_items (i : Nat) (inner r : List Nat) (j : Nat) (d : Int)
    (hd : 1 ≤ d) (hi : Items inner) :
    scanJSONCompoundEndLoop i (inner ++ r) j d false false =
      scanJSONCompoundEndLoop i r (j + inner.length) d false false := by
  induction hi generalizing j d r with
  | nil => simp
  | inert c t hc _ ih =>
    rw [List.cons_append, compoundLoop_inert _ _ _ _ _ _ hc, ih _ _ _ hd]
    congr 1; simp; omega
  | str body t hbody _ ih =>
    rw [List.cons_append, List.append_assoc, List.cons_append, compoundLoop_openQuote,
      scanJSONCompoundEndLoop_str _ _ _ _ _ hbody, ih _ _ _ hd]
    congr 1; simp; omega
  | nest o inner c t ho _ hc _ ih1 ih2 =>
    rw [List.cons_append, List.append_assoc, List.cons_append,
      compoundLoop_open _ _ _ _ _ _ ho, ih1 _ _ _ (by omega),
      compoundLoop_close _ _ _ _ _ _ hc (by omega), ih2 _ _ _ hd]
    congr 1; simp; omega

theorem scanJSONCompoundEnd_at {b p inner r : List Nat} {o c n : Nat}
    (hb : b = p ++ o :: (inner ++ c :: r)) (hn : n = p.length) (ho : isOpen o = true)
    (hi : Items inner) (hc : isClose c = true) :
    scanJSONCompoundEnd b n = (n + inner.length + 2, true) := by
  have hd : b.drop n = o :: (inner ++ c :: r) := drop_at hb hn
  rw [scanJSONCompoundEnd, hd, compoundLoop_open _ _ _ _ _ _ ho,
    scanJSONCompoundEndLoop_items _ _ _ _ _ (by omega) hi]
  rw [show (0 : Int) + 1 = 1 by rfl, compoundLoop_last _ _ _ _ _ hc]
  congr 1; omega

theorem scanScalarLoop_run (v r : List Nat) (j : Nat)
    (hv : v.all (fun c => !isScalarEnd c) = true) (hr : headSat isScalarEnd r = true) :
    scanScalarLoop (v ++ r) j = j + v.length := by
  induction v generalizing j with
  | nil =>
    cases r with
    | nil => simp [scanScalarLoop]
    | cons c r => simp [headSat] at hr; simp [scanScalarLoop, hr]
  | cons c v ih =>
    simp only [List.all_cons, Bool.and_eq_true, Bool.not_eq_true'] at hv
    have := ih (j + 1) (by simpa using hv.2)
    simp [scanScalarLoop, hv.1, this]; omega

theorem scanJSONValueToken_string {b p body r : List Nat} {n : Nat}
    (hb : b = p ++ 34 :: (body ++ 34 :: r)) (hn : n = p.length) (hs : StrBody body) :
    scanJSONValueToken b n =
      (some ⟨n, n + body.length + 2⟩, n + body.length + 2, true) := by
  simp [scanJSONValueToken, getElem?_at hb hn, scanJSONStringEnd_at hb hn hs]

theorem scanJSONValueToken_compound {b p inner r : List Nat} {o c n : Nat}
    (hb : b = p ++ o :: (inner ++ c :: r)) (hn : n = p.length) (ho : isOpen o = true)
    (hi : Items inner) (hc : isClose c = true) :
    scanJSONValueToken b n =
      (some ⟨n, n + inner.length + 2⟩, n + inner.length + 2, true) := by
  have ho2 := isOpen_iff.1 ho
  have ho1 : o ≠ 34 := by omega
  simp [scanJSONValueToken, getElem?_at hb hn, scanJSONCompoundEnd_at hb hn ho hi hc, ho1, ho2]

theorem scanJSONValueToken_scalar {b p v r : List Nat} {n : Nat}
    (hb : b = p ++ (v ++ r)) (hn : n = p.length) (hv : ScalarTok v)
    (hr : headSat isScalarEnd r = true) :
    scanJSONValueToken b n = (some ⟨n, n + v.length⟩, n + v.length, true) := by
  obtain ⟨hne, hall, hhead⟩ := hv
  cases v with
  | nil => exact absurd rfl hne
  | cons c v =>
    simp only [headSat, Bool.and_eq_true, bne_iff_ne, ne_eq, Bool.not_eq_true'] at hhead
    have ho : ¬ (c = 123 ∨ c = 91) := by
      intro h; have := isOpen_iff.2 h; simp [this] at hhead
    have hg : b[n]? = some c := getElem?_at (r := v ++ r) (by simpa using hb) hn
    have hd : b.drop n = (c :: v) ++ r := drop_at hb hn
    have hrun := scanScalarLoop_run (c :: v) r n hall hr
    have hne2 : ¬ (n + (c :: v).length = n) := by simp
    simp only [scanJSONValueToken, hg, hhead.1, ho, hd, hrun, hne2, if_false]

/-- A token is scanned whole, wherever it stands. -/
theorem scanJSONValueToken_token {b p v r : List Nat} {n : Nat}
    (hb : b = p ++ (v ++ r)) (hn : n = p.length) (hv : Token v) (hr : EndsBefore v r) :
    scanJSONValueToken b n = (some ⟨n, n + v.length⟩, n + v.length, true) := by
  rcases hv with ⟨body, hs, rfl⟩ | ⟨o, inner, c, ho, hi, hc, rfl⟩ | hsc
  · have := scanJSONValueToken_string (b := b) (p := p) (r := r) (by simpa using hb) hn hs
    simpa [Nat.add_assoc] using this
  · have := scanJSONValueToken_compound (b := b) (p := p) (r := r) (by simpa using hb) hn ho hi hc
    simpa [Nat.add_assoc] using this
  · exact scanJSONValueToken_scalar hb hn hsc (hr hsc)

/-! ## Bounds on what the sub-scanners return, on arbitrary bytes -/

theorem skipSpacesLoop_bounds (l : List Nat) (j : Nat) :
    j ≤ skipSpacesLoop l j ∧ skipSpacesLoop l j ≤ j + l.length := by
  induction l generalizing j with
  | nil => simp [skipSpacesLoop]
  | cons c l ih =>
    simp only [skipSpacesLoop, List.length_cons]
    split
    · have := ih (j + 1); omega
    · omega

theorem skipSpaces_ge (b : List Nat) (i : Nat) : i ≤ skipSpaces b i :=
  (skipSpacesLoop_bounds _ _).1

theorem skipSpaces_le (b : List Nat) (i : Nat) (hi : i ≤ b.length) :
    skipSpaces b i ≤ b.length := by
  have := (skipSpacesLoop_bounds (b.drop i) i).2
  simp only [List.length_drop] at this
  unfold skipSpaces; omega

theorem scanTopLevelKeyLoop_bounds (l : List Nat) (j : Nat) :
    j ≤ (scanTopLevelKeyLoop l j).1 ∧ (scanTopLevelKeyLoop l j).1 ≤ j + l.length := by
  induction l generalizing j with
  | nil => simp [scanTopLevelKeyLoop]
  | cons c l ih =>
    simp only [scanTopLevelKeyLoop, List.length_cons]
    split
    · simp
    · split
      · simp
      · have := ih (j + 1); omega

theorem scanTopLevelKey_next {b : List Nat} {i next : Nat} {k : jsonTopLevelKey}
    (h : scanTopLevelKey b i = (k, next, true)) : i + 2 ≤ next := by
  have hb := (scanTopLevelKeyLoop_bounds (b.drop (i + 1)) (i + 1)).1
  unfold scanTopLevelKey at h
  rcases hres : scanTopLevelKeyLoop (b.drop (i + 1)) (i + 1) with ⟨j, e⟩
  rw [hres] at hb
  simp only [hres] at h
  cases e with
  | true => simp at h; simp at hb; omega
  | false =>
    simp only at h hb
    split at h
    · simp at h
    · split at h
      · simp at h
      · simp at h; omega

theorem scanJSONStringEndLoop_bounds (i : Nat) (l : List Nat) (j : Nat) (esc : Bool) {e : Nat}
    (h : scanJSONStringEndLoop i l j esc = (e, true)) : j < e ∧ e ≤ j + l.length := by
  induction l generalizing j esc with
  | nil => simp [scanJSONStringEndLoop] at h
  | cons c l ih =>
    simp only [scanJSONStringEndLoop] at h
    simp only [List.length_cons]
    split at h
    · have := ih _ _ h; omega
    · split at h
      · have := ih _ _ h; omega
      · split at h
        · simp at h; omega
        · have := ih _ _ h; omega

theorem scanJSONCompoundEndLoop_bounds (i : Nat) (l : List Nat) (j : Nat) (d : Int)
    (inStr esc : Bool) {e : Nat}
    (h : scanJSONCompoundEndLoop i l j d inStr esc = (e, true)) : j < e ∧ e ≤ j + l.length := by
  induction l generalizing j d inStr esc with
  | nil => simp [scanJSONCompoundEndLoop] at h
  | cons c l ih =>
    simp only [scanJSONCompoundEndLoop] at h
    simp only [List.length_cons]
    repeat' split at h
    all_goals first
      | (have hh := ih _ _ _ _ h; omega)
      | (simp at h; omega)

theorem scanScalarLoop_bounds (l : List Nat) (j : Nat) :
    j ≤ scanScalarLoop l j ∧ scanScalarLoop l j ≤ j + l.length := by
  induction l generalizing j with
  | nil => simp [scanScalarLoop]
  | cons c l ih =>
    simp only [scanScalarLoop, List.length_cons]
    split
    · omega
    · have := ih (j + 1); omega

/-- A successful value scan returns the view `b[i:j]` with `i < j ≤ len(b)`. -/
theorem scanJSONValueToken_ok {b : List Nat} {i j : Nat} {tok : Option Slice}
    (h : scanJSONValueToken b i = (tok, j, true)) :
    tok = some ⟨i, j⟩ ∧ i < j ∧ j ≤ b.length := by
  unfold scanJSONValueToken at h
  split at h
  · simp at h
  · rename_i c hc
    have hlt : i < b.length := by
      rcases Nat.lt_or_ge i b.length with h1 | h1
      · exact h1
      · rw [List.getElem?_eq_none h1] at hc; cases hc
    split at h
    · unfold scanJSONStringEnd at h
      split at h
      · simp at h
      · rename_i e he
        have := scanJSONStringEndLoop_bounds _ _ _ _ he
        simp only [List.length_drop] at this
        simp only [Prod.mk.injEq, and_true] at h
        obtain ⟨h1, h2⟩ := h
        subst h2
        exact ⟨h1.symm, by omega, by omega⟩
    · split at h
      · unfold scanJSONCompoundEnd at h
        split at h
        · simp at h
        · rename_i e he
          have := scanJSONCompoundEndLoop_bounds _ _ _ _ _ _ he
          simp only [List.length_drop] at this
          simp only [Prod.mk.injEq, and_true] at h
          obtain ⟨h1, h2⟩ := h
          subst h2
          exact ⟨h1.symm, by omega, by omega⟩
      · have := scanScalarLoop_bounds (b.drop i) i
        simp only [List.length_drop] at this
        simp only at h
        split at h
        · simp at h
        · simp only [Prod.mk.injEq, and_true] at h
          obtain ⟨h1, h2⟩ := h
          subst h2
          exact ⟨h1.symm, by omega, by omega⟩

/-- A failed value scan returns the nil slice. -/
theorem scanJSONValueToken_fail {b : List Nat} {i j : Nat} {tok : Option Slice}
    (h : scanJSONValueToken b i = (tok, j, false)) : tok = none ∧ j = i := by
  unfold scanJSONValueToken at h
  split at h
  · simp at h; simp [h]
  · split at h
    · split at h
      · simp at h; simp [h]
      · simp at h
    · split at h
      · split at h
        · simp at h; simp [h]
        · simp at h
      · simp only at h
        split at h
        · simp at h; simp [h]
        · simp at h

/-! ## The key branch and the main loop, on arbitrary bytes -/

theorem getElem?_some_of_lt {b : List Nat} {i : Nat} (h : i < b.length) :
    ∃ c, b[i]? = some c := ⟨b[i], List.getElem?_eq_getElem h⟩

theorem lt_of_getElem?_some {b : List Nat} {i c : Nat} (h : b[i]? = some c) : i < b.length := by
  rcases Nat.lt_or_ge i b.length with h1 | h1
  · exact h1
  · rw [List.getElem?_eq_none h1] at h; cases h

/-- The switch on the key either gives up with `(nil, false)` or has scanned a
value token `b[i:j]` (for the method key: one that starts and ends with a
quote) and goes on to the test of `finishKey`. It never panics. -/
theorem scanKeyValue_cases (b : List Nat) (s : LoopState) (k : jsonTopLevelKey) (i : Nat) :
    scanKeyValue b s k i = .ret none false ∨
    ∃ j, scanJSONValueToken b i = (some ⟨i, j⟩, j, true) ∧ i < j ∧ j ≤ b.length ∧
      (k = jsonKeyMethod → b[i]? = some 34 ∧ b[j - 1]? = some 34 ∧ i + 2 ≤ j) ∧
      scanKeyValue b s k i = finishKey (keyUpdate b s k ⟨i, j⟩) j := by
  rcases hv : scanJSONValueToken b i with ⟨val, j, okVal⟩
  cases okVal with
  | false =>
    left
    cases k <;> simp [scanKeyValue, hv]
  | true =>
    obtain ⟨rfl, hij, hj⟩ := scanJSONValueToken_ok hv
    cases k with
    | jsonKeyOther =>
      right
      exact ⟨j, rfl, hij, hj, by simp, by simp [scanKeyValue, hv, keyUpdate]⟩
    | jsonKeyID =>
      right
      exact ⟨j, rfl, hij, hj, by simp, by simp [scanKeyValue, hv, keyUpdate]⟩
    | jsonKeyMethod =>
      by_cases hlen : j - i < 2
      · left
        simp [scanKeyValue, hv, sliceLen, hlen]
      · obtain ⟨c0, hc0⟩ := getElem?_some_of_lt (show i < b.length by omega)
        obtain ⟨c1, hc1⟩ := getElem?_some_of_lt (show j - 1 < b.length by omega)
        have h0 : sliceAt b (some ⟨i, j⟩) 0 = some c0 := by
          simp [sliceAt, hc0]; omega
        have h1 : sliceAt b (some ⟨i, j⟩) (j - i - 1) = some c1 := by
          have : i + (j - i - 1) = j - 1 := by omega
          simp [sliceAt, this, hc1]; omega
        by_cases hq0 : c0 = 34
        · by_cases hq1 : c1 = 34
          · right
            subst hq0 hq1
            refine ⟨j, rfl, hij, hj, fun _ => ⟨hc0, hc1, by omega⟩, ?_⟩
            simp [scanKeyValue, hv, sliceLen, hlen, h0, h1, keyUpdate]
          · left
            subst hq0
            simp [scanKeyValue, hv, sliceLen, hlen, h0, h1, hq1]
        · left
          simp [scanKeyValue, hv, sliceLen, hlen, h0, hq0]

/-- The key branch either gives up with `(nil, false)` or has read a key, a
colon and a value token and goes on to the test of `finishKey`. -/
theorem scanMember_cases (b : List Nat) (s : LoopState) :
    scanMember b s = .ret none false ∨
    ∃ k next j, scanTopLevelKey b s.i = (k, next, true) ∧
      b[skipSpaces b next]? = some 58 ∧
      skipSpaces b (skipSpaces b next + 1) < b.length ∧
      scanJSONValueToken b (skipSpaces b (skipSpaces b next + 1)) =
        (some ⟨skipSpaces b (skipSpaces b next + 1), j⟩, j, true) ∧
      skipSpaces b (skipSpaces b next + 1) < j ∧ j ≤ b.length ∧
      (k = jsonKeyMethod → b[skipSpaces b (skipSpaces b next + 1)]? = some 34 ∧
        b[j - 1]? = some 34 ∧ skipSpaces b (skipSpaces b next + 1) + 2 ≤ j) ∧
      scanMember b s =
        finishKey (keyUpdate b s k ⟨skipSpaces b (skipSpaces b next + 1), j⟩) j := by
  rcases hk : scanTopLevelKey b s.i with ⟨k, next, okKey⟩
  cases okKey with
  | false => left; simp [scanMember, hk]
  | true =>
    rcases hc : b[skipSpaces b next]? with _ | c
    · left; simp [scanMember, hk, hc]
    · by_cases h58 : c = 58
      · subst h58
        by_cases hlen : skipSpaces b (skipSpaces b next + 1) < b.length
        · have hsm : scanMember b s =
              scanKeyValue b s k (skipSpaces b (skipSpaces b next + 1)) := by
            simp [scanMember, hk, hc]; omega
          rcases scanKeyValue_cases b s k (skipSpaces b (skipSpaces b next + 1)) with h | h
          · left; rw [hsm, h]
          · obtain ⟨j, h1, h2, h3, h4, h5⟩ := h
            right
            exact ⟨k, next, j, rfl, hc, hlen, h1, h2, h3, h4, by rw [hsm, h5]⟩
        · left
          simp [scanMember, hk, hc]; omega
      · left; simp [scanMember, hk, hc, h58]

theorem finishKey_next {s s' : LoopState} {j : Nat} (h : finishKey s j = .next s') :
    s' = { s with i := j - 1 + 1 } ∧ ¬ (s.idRaw.isSome = true ∧ s.foundMethod = true) := by
  unfold finishKey at h
  split at h
  · cases h
  · rename_i hc
    simp only [StepResult.next.injEq] at h
    exact ⟨h.symm, by simpa using hc⟩

theorem finishKey_ret {s : LoopState} {j : Nat} {id : Option Slice} {ok : Bool}
    (h : finishKey s j = .ret id ok) :
    id = s.idRaw ∧ ok = s.methodOK ∧ s.idRaw.isSome = true ∧ s.foundMethod = true := by
  unfold finishKey at h
  split at h
  · rename_i hc
    simp only [StepResult.ret.injEq] at h
    simp only [Bool.and_eq_true] at hc
    exact ⟨h.1.symm, h.2.symm, hc.1, hc.2⟩
  · cases h

theorem finishKey_ne_panic (s : LoopState) (j : Nat) : finishKey s j ≠ .panic := by
  unfold finishKey; split <;> simp

theorem scanMember_ne_panic (b : List Nat) (s : LoopState) : scanMember b s ≠ .panic := by
  rcases scanMember_cases b s with h | ⟨k, next, j, _, _, _, _, _, _, _, h⟩
  · rw [h]; simp
  · rw [h]; exact finishKey_ne_panic _ _

/-- An iteration that continues moves the index forward, and not past the end. -/
theorem mainStep_next {b : List Nat} {s s' : LoopState} {c : Nat} (hc : b[s.i]? = some c)
    (h : mainStep b s c = .next s') : s.i < s'.i ∧ s'.i ≤ b.length := by
  have hlt := lt_of_getElem?_some hc
  unfold mainStep at h
  by_cases hkey : s.inStr = false ∧ c = 34 ∧ s.depth = 1
  · obtain ⟨h1, h2, h3⟩ := hkey
    simp only [h1, h2, h3, if_true, Bool.false_eq_true, if_false] at h
    rcases scanMember_cases b s with hm | ⟨k, next, j, hk, _, _, _, hvj, hj, _, hm⟩
    · rw [hm] at h; cases h
    · rw [hm] at h
      obtain ⟨rfl, _⟩ := finishKey_next h
      have := scanTopLevelKey_next hk
      have := skipSpaces_ge b next
      have := skipSpaces_ge b (skipSpaces b next + 1)
      cases k <;> simp [keyUpdate] <;> omega
  · repeat' split at h
    all_goals first
      | (exfalso; apply hkey; simp_all; done)
      | (simp only [StepResult.next.injEq] at h; subst h; simp; omega)

theorem mainStep_ne_panic (b : List Nat) (s : LoopState) (c : Nat) :
    mainStep b s c ≠ .panic := by
  unfold mainStep
  repeat' split
  all_goals first
    | exact scanMember_ne_panic b s
    | simp

/-! Fuel: every iteration moves the index forward, so `len(b) + 1` iterations
are enough from any state, and more fuel changes nothing. -/

theorem mainLoop_fuel (b : List Nat) (n m : Nat) (s : LoopState) (hn : 1 ≤ n) (hm : 1 ≤ m)
    (hns : b.length + 1 ≤ n + s.i) (hms : b.length + 1 ≤ m + s.i) :
    mainLoop b n s = mainLoop b m s := by
  induction n generalizing m s with
  | zero => omega
  | succ n ih =>
    cases m with
    | zero => omega
    | succ m =>
      simp only [mainLoop]
      rcases hc : b[s.i]? with _ | c
      · rfl
      · simp only
        rcases hstep : mainStep b s c with s' | ⟨id, ok⟩ | _
        · simp only
          have hlt := lt_of_getElem?_some hc
          have := mainStep_next hc hstep
          exact ih m s' (by omega) (by omega) (by omega) (by omega)
        · rfl
        · rfl

theorem mainLoop_total (b : List Nat) (n : Nat) (s : LoopState) (hn : 1 ≤ n)
    (hns : b.length + 1 ≤ n + s.i) : ∃ id ok, mainLoop b n s = .ret id ok := by
  induction n generalizing s with
  | zero => omega
  | succ n ih =>
    simp only [mainLoop]
    rcases hc : b[s.i]? with _ | c
    · exact ⟨none, false, rfl⟩
    · simp only
      rcases hstep : mainStep b s c with s' | ⟨id, ok⟩ | _
      · simp only
        have hlt := lt_of_getElem?_some hc
        have := mainStep_next hc hstep
        exact ih s' (by omega) (by omega)
      · exact ⟨id, ok, rfl⟩
      · exact absurd hstep (mainStep_ne_panic b s c)

theorem run_end {b : List Nat} {s : LoopState} (hc : b[s.i]? = none) :
    run b s = .ret none false := by
  simp [run, mainLoop, hc]

theorem run_ret {b : List Nat} {s : LoopState} {c : Nat} {id : Option Slice} {ok : Bool}
    (hc : b[s.i]? = some c) (h : mainStep b s c = .ret id ok) : run b s = .ret id ok := by
  simp [run, mainLoop, hc, h]

theorem run_next {b : List Nat} {s s' : LoopState} {c : Nat}
    (hc : b[s.i]? = some c) (h : mainStep b s c = .next s') : run b s = run b s' := by
  have hlt := lt_of_getElem?_some hc
  have := mainStep_next hc h
  simp only [run, mainLoop, hc, h]
  have h1 : 1 ≤ b.length := by omega
  have h2 : b.length + 1 ≤ b.length + s'.i := by omega
  exact mainLoop_fuel b b.length (b.length + 1) s' h1 (by omega) h2 (by omega)

theorem run_total (b : List Nat) (s : LoopState) : ∃ id ok, run b s = .ret id ok :=
  mainLoop_total b _ s (by omega) (by omega)

theorem fastMiningSubmitID_eq_run {b : List Nat} (h : bytesContains b miningSubmit = true) :
    fastMiningSubmitID b = run b initState := by
  simp [fastMiningSubmitID, h, run]

/-- The call always returns: it neither panics nor runs out of iterations. -/
theorem fastMiningSubmitID_total (b : List Nat) :
    ∃ id ok, fastMiningSubmitID b = .ret id ok := by
  unfold fastMiningSubmitID
  split
  · exact ⟨none, false, rfl⟩
  · exact run_total b initState

/-- A run that ends in a result other than `(nil, false)` ends in the key
branch of some state the loop reached. -/
theorem run_ret_reach {b : List Nat} {s : LoopState} {id : Option Slice} {ok : Bool}
    (hs : Reach b s) (h : run b s = .ret id ok) (hne : ¬ (id = none ∧ ok = false)) :
    ∃ s' c, Reach b s' ∧ b[s'.i]? = some c ∧ mainStep b s' c = .ret id ok := by
  unfold run at h
  generalize b.length + 1 = n at h
  induction n generalizing s with
  | zero => simp [mainLoop] at h
  | succ n ih =>
    simp only [mainLoop] at h
    rcases hc : b[s.i]? with _ | c
    · simp only [hc, Outcome.ret.injEq] at h
      exact absurd ⟨h.1.symm, h.2.symm⟩ hne
    · simp only [hc] at h
      rcases hstep : mainStep b s c with s' | ⟨id', ok'⟩ | _
      · simp only [hstep] at h
        exact ih (Reach.step s s' c hs hc hstep) h
      · simp only [hstep, Outcome.ret.injEq] at h
        obtain ⟨rfl, rfl⟩ := h
        exact ⟨s, c, hs, hc, hstep⟩
      · simp [hstep] at h

/-! ## The main loop on one member of a well-formed object -/

theorem isEscapeChar_iff {c : Nat} :
    isEscapeChar c = true ↔
      c = 34 ∨ c = 92 ∨ c = 47 ∨ c = 98 ∨ c = 102 ∨ c = 110 ∨ c = 114 ∨ c = 116 ∨ c = 117 := by
  simp [isEscapeChar, or_assoc]

/-- A key is free of backslashes, or splits at its first escape. -/
theorem keyBody_split {key : List Nat} (h : KeyBody key) :
    (92 ∉ key ∧ key.all isPlain = true) ∨
    (92 ∈ key ∧ ∃ k1 e k2, key = k1 ++ 92 :: e :: k2 ∧ k1.all isPlain = true ∧
      isEscapeChar e = true) := by
  induction h with
  | nil => left; simp
  | plain c t hc _ ih =>
    have hc2 := isPlain_iff.1 hc
    rcases ih with ⟨h1, h2⟩ | ⟨h1, k1, e, k2, rfl, h2, h3⟩
    · left
      refine ⟨?_, by simp [hc, h2]⟩
      simp only [List.mem_cons, not_or]
      exact ⟨fun h => hc2.2 h.symm, h1⟩
    · right
      exact ⟨by simp, c :: k1, e, k2, by simp, by simp [hc, h2], h3⟩
  | escaped c t hc _ _ =>
    right
    exact ⟨by simp, [], c, t, by simp, by simp, hc⟩

/-- Whitespace outside strings changes nothing but the index. -/
theorem run_ws {b p ws rest : List Nat} {s : LoopState} (hb : b = p ++ (ws ++ rest))
    (hi : s.i = p.length) (hstr : s.inStr = false) (hws : allSpace ws = true) :
    run b s = run b { s with i := s.i + ws.length } := by
  induction ws generalizing p s with
  | nil => simp
  | cons c ws ih =>
    simp only [allSpace, List.all_cons, Bool.and_eq_true] at hws
    have hc := isSpace_iff.1 hws.1
    have hg : b[s.i]? = some c := getElem?_at (r := ws ++ rest) (by simpa using hb) hi
    have hstep : mainStep b s c = .next { s with i := s.i + 1 } := by
      have h1 : c ≠ 34 := by omega
      have h2 : ¬ (c = 123 ∨ c = 91) := by omega
      have h3 : ¬ (c = 125 ∨ c = 93) := by omega
      simp [mainStep, hstr, h1, h2, h3]
    rw [run_next hg hstep]
    have := ih (p := p ++ [c]) (s := { s with i := s.i + 1 }) (by simp [hb]) (by simp [hi])
      hstr (by simpa [allSpace] using hws.2)
    rw [this]
    congr 1
    simp only [List.length_cons]
    congr 1
    omega

/-- A token is not empty and does not start with whitespace. -/
theorem token_head {v : List Nat} (h : Token v) :
    ∃ c v', v = c :: v' ∧ isSpace c = false := by
  rcases h with ⟨body, _, rfl⟩ | ⟨o, inner, c, ho, _, _, rfl⟩ | ⟨hne, hall, _⟩
  · exact ⟨34, _, rfl, by decide⟩
  · refine ⟨o, _, rfl, ?_⟩
    rcases isOpen_iff.1 ho with rfl | rfl <;> decide
  · cases v with
    | nil => exact absurd rfl hne
    | cons c v =>
      refine ⟨c, v, rfl, ?_⟩
      simp only [List.all_cons, Bool.and_eq_true, Bool.not_eq_true'] at hall
      have h1 := hall.1
      cases hs : isSpace c with
      | false => rfl
      | true =>
        have := isSpace_iff.1 hs
        have : isScalarEnd c = true := isScalarEnd_iff.2 (by omega)
        simp [this] at h1

/-- The key branch on a member whose key has no escape: key, colon and value
are found where the member has them. -/
theorem scanMember_plain {b p key sep1 sep2 val rest : List Nat} {s : LoopState}
    (hb : b = p ++ 34 :: (key ++ 34 :: (sep1 ++ 58 :: (sep2 ++ (val ++ rest)))))
    (hi : s.i = p.length) (hk : key.all isPlain = true) (h1 : allSpace sep1 = true)
    (h2 : allSpace sep2 = true) (hv : Token val) (he : EndsBefore val rest) :
    scanMember b s =
        scanKeyValue b s (classifyKey key) (s.i + key.length + sep1.length + sep2.length + 3) ∧
      scanJSONValueToken b (s.i + key.length + sep1.length + sep2.length + 3) =
        (some ⟨s.i + key.length + sep1.length + sep2.length + 3,
            s.i + key.length + sep1.length + sep2.length + 3 + val.length⟩,
          s.i + key.length + sep1.length + sep2.length + 3 + val.length, true) := by
  obtain ⟨c, v', rfl, hc⟩ := (token_head hv)
  have hkey := scanTopLevelKey_plain hb hi hk
  have hs1 : skipSpaces b (s.i + key.length + 2) = s.i + key.length + 2 + sep1.length :=
    skipSpaces_at (p := p ++ 34 :: (key ++ [34])) (r := 58 :: (sep2 ++ (c :: v' ++ rest)))
      (by simp [hb]) (by simp [hi]; omega) h1 (by simp [headSat]; decide)
  have hcolon : b[s.i + key.length + 2 + sep1.length]? = some 58 :=
    getElem?_at (p := p ++ 34 :: (key ++ 34 :: sep1)) (r := sep2 ++ (c :: v' ++ rest))
      (by simp [hb]) (by simp [hi]; omega)
  have hs2 : skipSpaces b (s.i + key.length + 2 + sep1.length + 1) =
      s.i + key.length + 2 + sep1.length + 1 + sep2.length :=
    skipSpaces_at (p := p ++ 34 :: (key ++ 34 :: (sep1 ++ [58]))) (r := c :: v' ++ rest)
      (by simp [hb]) (by simp [hi]; omega) h2 (by simp [headSat, hc])
  have hpos : s.i + key.length + 2 + sep1.length + 1 + sep2.length =
      s.i + key.length + sep1.length + sep2.length + 3 := by omega
  have hlt : s.i + key.length + sep1.length + sep2.length + 3 < b.length := by
    simp [hb, hi]; omega
  constructor
  · simp only [scanMember, hkey, hs1, hcolon, hs2, hpos]
    simp [hlt]
  · exact scanJSONValueToken_token
      (p := p ++ 34 :: (key ++ 34 :: (sep1 ++ 58 :: sep2))) (r := rest)
      (by simp [hb]) (by simp [hi]; omega) hv he

/-- The key branch on a member whose key has an escape gives up: the scan of
the key stops behind the backslash, where no colon follows. -/
theorem scanMember_escape {b p k1 k2 rest : List Nat} {e : Nat} {s : LoopState}
    (hb : b = p ++ 34 :: (k1 ++ 92 :: e :: (k2 ++ rest)))
    (hi : s.i = p.length) (hk : k1.all isPlain = true) (he : isEscapeChar e = true) :
    scanMember b s = .ret none false := by
  have hkey := scanTopLevelKey_escape (r := e :: (k2 ++ rest)) hb hi hk
  have he2 := isEscapeChar_iff.1 he
  have hsp : isSpace e = false := by
    cases hs : isSpace e with
    | false => rfl
    | true => have := isSpace_iff.1 hs; omega
  have hs1 : skipSpaces b (s.i + k1.length + 2) = s.i + k1.length + 2 + ([] : List Nat).length :=
    @skipSpaces_at b (p ++ 34 :: (k1 ++ [92])) [] (e :: (k2 ++ rest)) _
      (by simp [hb]) (by simp [hi]; omega) (by decide) (by simp [headSat, hsp])
  have hg : b[s.i + k1.length + 2]? = some e :=
    getElem?_at (p := p ++ 34 :: (k1 ++ [92])) (r := k2 ++ rest)
      (by simp [hb]) (by simp [hi]; omega)
  have h58 : e ≠ 58 := by omega
  simp only [List.length_nil, Nat.add_zero] at hs1
  simp [scanMember, hkey, hs1, hg, h58]

/-- A token that starts with a quote is a string token. -/
theorem token_string_of_head {v : List Nat} (h : Token v) (hq : v.head? = some 34) :
    StringTok v := by
  rcases h with hs | ⟨o, inner, c, ho, _, _, rfl⟩ | ⟨hne, _, hhead⟩
  · exact hs
  · simp only [List.head?_cons, Option.some.injEq] at hq
    subst hq
    exact absurd ho (by decide)
  · cases v with
    | nil => exact absurd rfl hne
    | cons c v =>
      simp only [List.head?_cons, Option.some.injEq] at hq
      subst hq
      simp [headSat] at hhead

/-- The switch on the key for a member's value token. -/
theorem scanKeyValue_member {b p rest : List Nat} {s : LoopState} {m : Member} {lo : Nat}
    (hb : b = p ++ (m.val ++ rest)) (hlo : lo = p.length) (hv : Token m.val)
    (he : EndsBefore m.val rest) :
    scanKeyValue b s (classifyKey m.key) lo =
      if classifyKey m.key = jsonKeyMethod ∧ m.val.head? ≠ some 34 then .ret none false
      else finishKey (memberUpdate s m ⟨lo, lo + m.val.length⟩) (lo + m.val.length) := by
  have hscan := scanJSONValueToken_token hb hlo hv he
  rcases hk : classifyKey m.key with _ | _ | _
  · simp [scanKeyValue, hscan, memberUpdate, hk]
  · simp [scanKeyValue, hscan, memberUpdate, hk]
  · by_cases hq : m.val.head? = some 34
    · obtain ⟨body, hbody, hval⟩ := token_string_of_head hv hq
      have hlen : m.val.length = body.length + 2 := by simp [hval]
      have h0 : b[lo]? = some 34 :=
        getElem?_at (p := p) (r := body ++ 34 :: rest) (by simp [hb, hval]) hlo
      have h1 : b[lo + (body.length + 1)]? = some 34 :=
        getElem?_at (p := p ++ 34 :: body) (r := rest) (by simp [hb, hval])
          (by simp [hlo])
      have hbytes : Slice.bytes b ⟨lo + 1, lo + (body.length + 1)⟩ = body :=
        bytes_at (p := p ++ [34]) (r := 34 :: rest) (by simp [hb, hval]) (by simp [hlo])
          (by simp [hlo]; omega)
      have hdec : decide (body = miningSubmit) = decide (m.val = miningSubmitTok) := by
        simp [hval, miningSubmitTok]
      have hl2 : ¬ (lo + (body.length + 2) - lo < 2) := by omega
      have hsub : lo + (body.length + 2) - lo - 1 = body.length + 2 - 1 := by omega
      have hpos : 0 < lo + (body.length + 2) - lo := by omega
      have hpos2 : body.length + 2 - 1 < lo + (body.length + 2) - lo := by omega
      simp only [hlen] at hscan
      simp [scanKeyValue, hscan, sliceLen, sliceAt, hl2, hsub, hpos, hpos2, h0, h1, hbytes,
        hdec, memberUpdate, hk, hq, hlen]
    · obtain ⟨c, v', hval, _⟩ := (token_head hv)
      have hc : c ≠ 34 := by
        intro h; apply hq; simp [hval, h]
      have h0 : b[lo]? = some c :=
        getElem?_at (p := p) (r := v' ++ rest) (by simp [hb, hval]) hlo
      have hpos : 0 < lo + m.val.length - lo := by simp [hval]
      simp only [scanKeyValue, hscan, sliceLen, sliceAt, hpos, if_true, Nat.add_zero, h0]
      simp [hc, hq]

theorem memberUpdate_i (s : LoopState) (m : Member) (v : Slice) (n : Nat) :
    memberUpdate { s with i := n } m v = { memberUpdate s m v with i := n } := by
  unfold memberUpdate
  cases classifyKey m.key <;> rfl

theorem member_render_length (m : Member) :
    m.render.length = m.valOffset + m.val.length + m.post.length := by
  simp [Member.render, Member.valOffset]; omega

theorem finishKey_i (s : LoopState) (n j : Nat) :
    finishKey { s with i := n } j = finishKey s j := by
  unfold finishKey
  split <;> rfl

theorem finishKey_seen {s : LoopState} (j : Nat)
    (h : (s.idRaw.isSome && s.foundMethod) = true) :
    finishKey s j = .ret s.idRaw s.methodOK := by
  simp [finishKey, h]

theorem finishKey_unseen {s : LoopState} (j : Nat)
    (h : ¬ (s.idRaw.isSome && s.foundMethod) = true) :
    finishKey s j = .next { s with i := j - 1 + 1 } := by
  simp [finishKey, h]

/-- The main loop on one member of a well-formed object, at depth 1: it does
what `memberStep` says. -/
theorem run_member {b p rest : List Nat} {s : LoopState} {m : Member}
    (hb : b = p ++ (m.render ++ rest)) (hi : s.i = p.length) (hd : s.depth = 1)
    (hstr : s.inStr = false) (hwf : m.WF) (he : EndsBefore m.val (m.post ++ rest)) :
    run b s =
      match memberStep s m with
      | .next s' => run b s'
      | .ret id ok => .ret id ok
      | .panic => .panic := by
  have hws := @run_ws b p m.pre
    (34 :: (m.key ++ 34 :: (m.sep1 ++ 58 :: (m.sep2 ++ (m.val ++ m.post))) ++ rest)) s
    (by simp [hb, Member.render]) hi hstr hwf.pre
  rw [hws]
  have hg : b[s.i + m.pre.length]? = some 34 :=
    getElem?_at (p := p ++ m.pre)
      (r := m.key ++ 34 :: (m.sep1 ++ 58 :: (m.sep2 ++ (m.val ++ m.post))) ++ rest)
      (by simp [hb, Member.render]) (by simp [hi])
  have hstep : mainStep b { s with i := s.i + m.pre.length } 34 =
      scanMember b { s with i := s.i + m.pre.length } := by
    simp [mainStep, hstr, hd]
  rcases (keyBody_split hwf.key) with ⟨hno, hplain⟩ | ⟨hyes, k1, e, k2, hkey, hk1, hesc⟩
  · obtain ⟨hsm, -⟩ := @scanMember_plain b (p ++ m.pre) m.key m.sep1 m.sep2 m.val
      (m.post ++ rest) { s with i := s.i + m.pre.length }
      (by simp [hb, Member.render]) (by simp [hi]) hplain hwf.sep1 hwf.sep2 hwf.val he
    have hlo : s.i + m.pre.length + m.key.length + m.sep1.length + m.sep2.length + 3 =
        s.i + m.valOffset := by simp [Member.valOffset]; omega
    simp only [hlo] at hsm
    have hkv := @scanKeyValue_member b
      (p ++ (m.pre ++ 34 :: (m.key ++ 34 :: (m.sep1 ++ 58 :: m.sep2))))
      (m.post ++ rest) { s with i := s.i + m.pre.length } m
      (s.i + m.valOffset) (by simp [hb, Member.render])
      (by simp [hi, Member.valOffset]; omega) hwf.val he
    rw [hkv, memberUpdate_i, finishKey_i] at hsm
    simp only [memberStep, hno, if_false]
    by_cases hcond : classifyKey m.key = jsonKeyMethod ∧ m.val.head? ≠ some 34
    · rw [if_pos hcond] at hsm
      rw [if_pos hcond]
      exact run_ret hg (hstep.trans hsm)
    · rw [if_neg hcond] at hsm
      rw [if_neg hcond]
      by_cases hfin : ((memberUpdate s m
            ⟨s.i + m.valOffset, s.i + m.valOffset + m.val.length⟩).idRaw.isSome &&
          (memberUpdate s m
            ⟨s.i + m.valOffset, s.i + m.valOffset + m.val.length⟩).foundMethod) = true
      · rw [finishKey_seen _ hfin] at hsm
        simp only [finishKey_seen _ hfin]
        exact run_ret hg (hstep.trans hsm)
      · rw [finishKey_unseen _ hfin] at hsm
        simp only [finishKey_unseen _ hfin]
        rw [run_next hg (hstep.trans hsm)]
        have hws2 := @run_ws b
          (p ++ (m.pre ++ 34 :: (m.key ++ 34 :: (m.sep1 ++ 58 :: (m.sep2 ++ m.val)))))
          m.post rest
          { memberUpdate s m ⟨s.i + m.valOffset, s.i + m.valOffset + m.val.length⟩ with
            i := s.i + m.valOffset + m.val.length }
          (by simp [hb, Member.render]) (by simp [hi, Member.valOffset]; omega)
          (by unfold memberUpdate; cases classifyKey m.key <;> simpa using hstr) hwf.post
        have hj : s.i + m.valOffset + m.val.length - 1 + 1 =
            s.i + m.valOffset + m.val.length := by
          obtain ⟨c, v', hval, -⟩ := (token_head hwf.val)
          have : 1 ≤ m.val.length := by simp [hval]
          omega
        rw [hj, hws2]
        simp only [member_render_length]
        congr 2
        omega
  · have hsm := @scanMember_escape b (p ++ m.pre) k1 k2
      (34 :: (m.sep1 ++ 58 :: (m.sep2 ++ (m.val ++ m.post))) ++ rest) e
      { s with i := s.i + m.pre.length }
      (by simp [hb, Member.render, hkey]) (by simp [hi]) hk1 hesc
    simp only [memberStep, hyes, if_true]
    exact run_ret hg (hstep.trans hsm)

/-! ## The main loop on a well-formed object -/

theorem memberUpdate_frame (s : LoopState) (m : Member) (v : Slice) :
    (memberUpdate s m v).i = s.i ∧ (memberUpdate s m v).depth = s.depth ∧
      (memberUpdate s m v).inStr = s.inStr := by
  unfold memberUpdate
  cases classifyKey m.key <;> simp

theorem memberStep_next {s s' : LoopState} {m : Member} (h : memberStep s m = .next s') :
    s'.i = s.i + m.render.length ∧ s'.depth = s.depth ∧ s'.inStr = s.inStr := by
  unfold memberStep at h
  split at h
  · cases h
  · split at h
    · cases h
    · simp only at h
      split at h
      · rename_i s'' hfk
        obtain ⟨rfl, -⟩ := finishKey_next hfk
        simp only [StepResult.next.injEq] at h
        subst h
        have := memberUpdate_frame s m ⟨s.i + m.valOffset, s.i + m.valOffset + m.val.length⟩
        simp [this]
      · rename_i hne
        exact absurd h (hne s')

theorem memberStep_ne_panic (s : LoopState) (m : Member) : memberStep s m ≠ .panic := by
  unfold memberStep
  split
  · simp
  · split
    · simp
    · simp only
      split
      · simp
      · rename_i r hne
        exact finishKey_ne_panic _ _

theorem walkTail_next {s s' : LoopState} {ms : List Member} (h : walkTail s ms = .next s') :
    s'.i = s.i + (renderTail ms).length ∧ s'.depth = s.depth ∧ s'.inStr = s.inStr := by
  induction ms generalizing s with
  | nil =>
    simp only [walkTail, StepResult.next.injEq] at h
    subst h; simp [renderTail]
  | cons m ms ih =>
    simp only [walkTail] at h
    split at h
    · rename_i s'' hm
      have h1 := memberStep_next hm
      have h2 := ih h
      simp only at h1
      simp only [renderTail, List.length_cons, List.length_append]
      refine ⟨by omega, by rw [h2.2.1, h1.2.1], by rw [h2.2.2, h1.2.2]⟩
    · rename_i hne
      exact absurd h (hne s')

theorem walkTail_ne_panic (s : LoopState) (ms : List Member) : walkTail s ms ≠ .panic := by
  induction ms generalizing s with
  | nil => simp [walkTail]
  | cons m ms ih =>
    simp only [walkTail]
    split
    · exact ih _
    · exact memberStep_ne_panic _ _

/-- What follows a member of an object lets its value end: whitespace, a comma
or the closing brace. -/
theorem endsBefore_post (v post tail : List Nat) (hpost : allSpace post = true)
    (htail : headSat isScalarEnd tail = true) : EndsBefore v (post ++ tail) := by
  intro _
  cases post with
  | nil => simpa using htail
  | cons c post =>
    simp only [allSpace, List.all_cons, Bool.and_eq_true] at hpost
    have := isSpace_iff.1 hpost.1
    simp only [List.cons_append, headSat]
    exact isScalarEnd_iff.2 (by omega)

theorem headSat_renderTail (ms : List Member) (r : List Nat) :
    headSat isScalarEnd (renderTail ms ++ 125 :: r) = true := by
  cases ms with
  | nil => simp [renderTail, headSat]; decide
  | cons m ms => simp [renderTail, headSat]; decide

/-- A comma outside strings changes nothing but the index. -/
theorem run_comma {b p rest : List Nat} {s : LoopState} (hb : b = p ++ 44 :: rest)
    (hi : s.i = p.length) (hstr : s.inStr = false) :
    run b s = run b { s with i := s.i + 1 } := by
  have hg : b[s.i]? = some 44 := getElem?_at hb hi
  exact run_next hg (by simp [mainStep, hstr])

/-- The main loop on the members after the first. -/
theorem run_tail {b p r : List Nat} {s : LoopState} {ms : List Member}
    (hb : b = p ++ (renderTail ms ++ 125 :: r)) (hi : s.i = p.length) (hd : s.depth = 1)
    (hstr : s.inStr = false) (hwf : ∀ m ∈ ms, m.WF) :
    run b s =
      match walkTail s ms with
      | .next s' => run b s'
      | .ret id ok => .ret id ok
      | .panic => .panic := by
  induction ms generalizing p s with
  | nil => simp [walkTail]
  | cons m ms ih =>
    have hm := hwf m (by simp)
    rw [@run_comma b p (m.render ++ renderTail ms ++ 125 :: r) s
      (by simp [hb, renderTail]) hi hstr]
    rw [@run_member b (p ++ [44]) (renderTail ms ++ 125 :: r)
      { s with i := s.i + 1 } m (by simp [hb, renderTail]) (by simp [hi]) hd hstr hm
      (endsBefore_post _ _ _ hm.post (headSat_renderTail ms r))]
    simp only [walkTail]
    rcases hstep : memberStep { s with i := s.i + 1 } m with s' | ⟨id, ok⟩ | _
    · simp only
      have hn := memberStep_next hstep
      simp only at hn
      exact ih (p := p ++ 44 :: m.render) (s := s') (by simp [hb, renderTail])
        (by simp [hn.1, hi]; omega) (by rw [hn.2.1, hd]) (by rw [hn.2.2, hstr])
        (fun m' hm' => hwf m' (by simp [hm']))
    · rfl
    · rfl

/-- The closing brace of the object and the whitespace behind it: the loop
runs to the end of the buffer and returns `(nil, false)`. -/
theorem run_close {b p trail : List Nat} {s : LoopState} (hb : b = p ++ 125 :: trail)
    (hi : s.i = p.length) (hstr : s.inStr = false) (htrail : allSpace trail = true) :
    run b s = .ret none false := by
  have hg : b[s.i]? = some 125 := getElem?_at hb hi
  have hlen : b.length = p.length + 1 + trail.length := by simp [hb]; omega
  by_cases hd : s.depth > 0
  · rw [run_next hg (show mainStep b s 125 = .next { s with depth := s.depth - 1, i := s.i + 1 }
      by simp [mainStep, hstr, hd])]
    rw [@run_ws b (p ++ [125]) trail []
      { s with depth := s.depth - 1, i := s.i + 1 } (by simp [hb])
      (by simp [hi]) hstr htrail]
    exact run_end (List.getElem?_eq_none (by simp [hi]; omega))
  · rw [run_next hg (show mainStep b s 125 = .next { s with i := s.i + 1 }
      by simp [mainStep, hstr, hd])]
    rw [@run_ws b (p ++ [125]) trail []
      { s with i := s.i + 1 } (by simp [hb])
      (by simp [hi]) hstr htrail]
    exact run_end (List.getElem?_eq_none (by simp [hi]; omega))

theorem walkObject_ne_panic (n : Nat) (ms : List Member) : walkObject n ms ≠ .panic := by
  cases ms with
  | nil => simp [walkObject]
  | cons m ms =>
    simp only [walkObject]
    split
    · exact walkTail_ne_panic _ _
    · exact memberStep_ne_panic _ _

theorem walkObject_next {n : Nat} {s' : LoopState} {ms : List Member}
    (h : walkObject n ms = .next s') :
    s'.i = n + 1 + (renderBody [] ms).length ∧ s'.depth = 1 ∧ s'.inStr = false := by
  cases ms with
  | nil =>
    simp only [walkObject, StepResult.next.injEq] at h
    subst h; simp [renderBody, initState]
  | cons m ms =>
    simp only [walkObject] at h
    split at h
    · rename_i s'' hm
      have h1 := memberStep_next hm
      have h2 := walkTail_next h
      simp only [initState] at h1
      simp only [renderBody, List.length_append]
      refine ⟨by omega, by rw [h2.2.1, h1.2.1], by rw [h2.2.2, h1.2.2]⟩
    · rename_i hne
      exact absurd h (hne s')

/-- The main loop up to the opening brace of the object. -/
theorem run_open {b lead rest : List Nat} (hb : b = lead ++ 123 :: rest)
    (hlead : allSpace lead = true) :
    run b initState = run b { initState with i := lead.length + 1, depth := 1 } := by
  rw [@run_ws b [] lead (123 :: rest) initState (by simp [hb]) rfl rfl hlead]
  have hg : b[initState.i + lead.length]? = some 123 :=
    getElem?_at (p := lead) hb (by simp [initState])
  rw [run_next hg (show mainStep b { initState with i := initState.i + lead.length } 123 =
    .next { initState with i := lead.length + 1, depth := 1 } by simp [mainStep, initState])]

/-- The main loop on a request object whose members are well-formed, up to
the point where `walkObject` stops: if the walk returns, so does the loop,
whatever follows; otherwise the loop stands at the closing brace. -/
theorem run_object {b lead r : List Nat} {ms : List Member}
    (hb : b = lead ++ 123 :: (renderBody [] ms ++ 125 :: r))
    (hlead : allSpace lead = true) (hwf : ∀ m ∈ ms, m.WF) :
    run b initState =
      match walkObject lead.length ms with
      | .next s' => run b s'
      | .ret id ok => .ret id ok
      | .panic => .panic := by
  rw [run_open hb hlead]
  cases ms with
  | nil => simp [walkObject]
  | cons m ms =>
    have hm := hwf m (by simp)
    rw [@run_member b (lead ++ [123]) (renderTail ms ++ 125 :: r)
      { initState with i := lead.length + 1, depth := 1 } m
      (by simp [hb, renderBody]) (by simp) rfl rfl hm
      (endsBefore_post _ _ _ hm.post (headSat_renderTail ms r))]
    simp only [walkObject]
    rcases hstep : memberStep { initState with i := lead.length + 1, depth := 1 } m
      with s' | ⟨id, ok⟩ | _
    · simp only
      have hn := memberStep_next hstep
      simp only at hn
      exact run_tail (p := lead ++ 123 :: m.render) (r := r) (by simp [hb, renderBody])
        (by simp [hn.1]; omega) (by rw [hn.2.1]) (by rw [hn.2.2]; rfl)
        (fun m' hm' => hwf m' (by simp [hm']))
    · rfl
    · rfl

/-! ## What the walk over the members returns -/

theorem classifyKey_id {key : List Nat} : classifyKey key = jsonKeyID ↔ key = idKeyBytes := by
  unfold classifyKey
  split
  · simp [*]
  · split
    · rename_i h1 h2; subst h2; simp; decide
    · simp [*]

theorem classifyKey_method {key : List Nat} :
    classifyKey key = jsonKeyMethod ↔ key = methodKeyBytes := by
  unfold classifyKey
  split
  · rename_i h; subst h; simp; decide
  · split <;> simp [*]

/-- The three ways `memberStep` ends. -/
theorem memberStep_cases (s : LoopState) (m : Member) :
    memberStep s m = .ret none false ∨
    (92 ∉ m.key ∧ ¬ (classifyKey m.key = jsonKeyMethod ∧ m.val.head? ≠ some 34) ∧
      ((((memberUpdate s m ⟨s.i + m.valOffset, s.i + m.valOffset + m.val.length⟩).idRaw.isSome &&
          (memberUpdate s m ⟨s.i + m.valOffset, s.i + m.valOffset + m.val.length⟩).foundMethod)
            = true ∧
        memberStep s m =
          .ret (memberUpdate s m ⟨s.i + m.valOffset, s.i + m.valOffset + m.val.length⟩).idRaw
            (memberUpdate s m ⟨s.i + m.valOffset, s.i + m.valOffset + m.val.length⟩).methodOK) ∨
       (¬ ((memberUpdate s m ⟨s.i + m.valOffset, s.i + m.valOffset + m.val.length⟩).idRaw.isSome &&
          (memberUpdate s m ⟨s.i + m.valOffset, s.i + m.valOffset + m.val.length⟩).foundMethod)
            = true ∧
        memberStep s m =
          .next { memberUpdate s m ⟨s.i + m.valOffset, s.i + m.valOffset + m.val.length⟩ with
            i := s.i + m.render.length }))) := by
  by_cases h1 : 92 ∈ m.key
  · left; simp [memberStep, h1]
  · by_cases h2 : classifyKey m.key = jsonKeyMethod ∧ m.val.head? ≠ some 34
    · left
      simp only [memberStep, h1, if_false]
      rw [if_pos h2]
    · right
      refine ⟨h1, h2, ?_⟩
      by_cases h3 : ((memberUpdate s m
          ⟨s.i + m.valOffset, s.i + m.valOffset + m.val.length⟩).idRaw.isSome &&
          (memberUpdate s m
            ⟨s.i + m.valOffset, s.i + m.valOffset + m.val.length⟩).foundMethod) = true
      · left
        refine ⟨h3, ?_⟩
        simp only [memberStep, h1, if_false, h2, finishKey_seen _ h3]
      · right
        refine ⟨h3, ?_⟩
        simp only [memberStep, h1, if_false, h2, finishKey_unseen _ h3]

/-- With no member whose method is the token `"mining.submit"`, the walk never
reports a submit. -/
theorem walkTail_not_submit {ms : List Member} {s : LoopState} {id : Option Slice} {ok : Bool}
    (hms : ∀ m ∈ ms, m.key = methodKeyBytes → m.val ≠ miningSubmitTok)
    (hs : s.methodOK = false) (h : walkTail s ms = .ret id ok) : ok = false := by
  induction ms generalizing s with
  | nil => simp [walkTail] at h
  | cons m ms ih =>
    have hm := hms m (by simp)
    have hupd : ∀ v, (memberUpdate { s with i := s.i + 1 } m v).methodOK = false := by
      intro v
      unfold memberUpdate
      rcases hk : classifyKey m.key with _ | _ | _
      · simpa using hs
      · simpa using hs
      · simpa using hm (classifyKey_method.1 hk)
    simp only [walkTail] at h
    rcases memberStep_cases { s with i := s.i + 1 } m with hc | ⟨_, _, ⟨_, hc⟩ | ⟨_, hc⟩⟩
    · rw [hc] at h
      simp only [StepResult.ret.injEq] at h
      exact h.2.symm
    · rw [hc] at h
      simp only [StepResult.ret.injEq] at h
      rw [← h.2]; exact hupd _
    · rw [hc] at h
      refine ih (fun m' hm' => hms m' (by simp [hm'])) ?_ h
      exact hupd _

/-- With no member whose key is `id`, the walk never returns an id. -/
theorem walkTail_no_id {ms : List Member} {s : LoopState} {id : Option Slice} {ok : Bool}
    (hms : ∀ m ∈ ms, m.key ≠ idKeyBytes)
    (hs : s.idRaw = none) (h : walkTail s ms = .ret id ok) : id = none ∧ ok = false := by
  induction ms generalizing s with
  | nil => simp [walkTail] at h
  | cons m ms ih =>
    have hm := hms m (by simp)
    have hupd : ∀ v, (memberUpdate { s with i := s.i + 1 } m v).idRaw = none := by
      intro v
      unfold memberUpdate
      rcases hk : classifyKey m.key with _ | _ | _
      · simpa using hs
      · exact absurd (classifyKey_id.1 hk) hm
      · simpa using hs
    simp only [walkTail] at h
    rcases memberStep_cases { s with i := s.i + 1 } m with hc | ⟨_, _, ⟨hseen, _⟩ | ⟨_, hc⟩⟩
    · rw [hc] at h
      simp only [StepResult.ret.injEq] at h
      exact ⟨h.1.symm, h.2.symm⟩
    · simp [hupd] at hseen
    · rw [hc] at h
      refine ih (fun m' hm' => hms m' (by simp [hm'])) ?_ h
      exact hupd _

theorem memberStep_eval {s : LoopState} {m : Member} (h1 : 92 ∉ m.key)
    (h2 : ¬ (classifyKey m.key = jsonKeyMethod ∧ m.val.head? ≠ some 34)) (u : LoopState)
    (hu : u = memberUpdate s m ⟨s.i + m.valOffset, s.i + m.valOffset + m.val.length⟩) :
    memberStep s m =
      if (u.idRaw.isSome && u.foundMethod) = true then .ret u.idRaw u.methodOK
      else .next { u with i := s.i + m.render.length } := by
  subst hu
  by_cases h3 : ((memberUpdate s m
      ⟨s.i + m.valOffset, s.i + m.valOffset + m.val.length⟩).idRaw.isSome &&
      (memberUpdate s m
        ⟨s.i + m.valOffset, s.i + m.valOffset + m.val.length⟩).foundMethod) = true
  · rw [if_pos h3]
    simp only [memberStep, h1, if_false, h2, finishKey_seen _ h3]
  · rw [if_neg h3]
    simp only [memberStep, h1, if_false, h2, finishKey_unseen _ h3]

theorem renderTail_append (pre post : List Member) :
    renderTail (pre ++ post) = renderTail pre ++ renderTail post := by
  induction pre with
  | nil => simp [renderTail]
  | cons m pre ih => simp [renderTail, ih]

/-- A well-formed submit request with distinct escape-free keys: the walk
returns the view of the value of the `id` member, and `true`. -/
theorem walkTail_submit {ms : List Member} {s : LoopState}
    (hesc : ∀ m ∈ ms, 92 ∉ m.key) (hnodup : (ms.map Member.key).Nodup)
    (hM1 : s.foundMethod = true → s.methodOK = true ∧ ∀ m ∈ ms, m.key ≠ methodKeyBytes)
    (hM2 : s.foundMethod = false →
      ∃ m ∈ ms, m.key = methodKeyBytes ∧ m.val = miningSubmitTok)
    (hI1 : ∀ v, s.idRaw = some v → (∀ m ∈ ms, m.key ≠ idKeyBytes) ∧ s.foundMethod = false)
    (hI2 : s.idRaw = none → ∃ m ∈ ms, m.key = idKeyBytes) :
    ∃ v, walkTail s ms = .ret (some v) true ∧
      (s.idRaw = some v ∨ ∃ pre mi post, ms = pre ++ mi :: post ∧ mi.key = idKeyBytes ∧
        v = ⟨s.i + (renderTail pre).length + 1 + mi.valOffset,
          s.i + (renderTail pre).length + 1 + mi.valOffset + mi.val.length⟩) := by
  induction ms generalizing s with
  | nil =>
    exfalso
    cases hf : s.foundMethod with
    | false => obtain ⟨m, hm, _⟩ := hM2 hf; simp at hm
    | true =>
      cases hid : s.idRaw with
      | none => obtain ⟨m, hm, _⟩ := hI2 hid; simp at hm
      | some v => have := (hI1 v hid).2; simp [hf] at this
  | cons m ms ih =>
    rw [List.map_cons, List.nodup_cons] at hnodup
    have hnk : ∀ m' ∈ ms, m'.key ≠ m.key := by
      intro m' hm' heq
      exact hnodup.1 (List.mem_map.2 ⟨m', hm', heq⟩)
    have hnd : (ms.map Member.key).Nodup := hnodup.2
    have hesc' : ∀ m' ∈ ms, 92 ∉ m'.key := fun m' hm' => hesc m' (by simp [hm'])
    have hlen : ∀ pre : List Member,
        s.i + 1 + m.render.length + (renderTail pre).length =
          s.i + (renderTail (m :: pre)).length := by
      intro pre; simp [renderTail]; omega
    -- lifting the result of the induction hypothesis over the member `m`
    have lift : ∀ (s' : LoopState), s'.i = s.i + 1 + m.render.length →
        ∀ v, (s'.idRaw = some v ∨ ∃ pre mi post, ms = pre ++ mi :: post ∧ mi.key = idKeyBytes ∧
          v = ⟨s'.i + (renderTail pre).length + 1 + mi.valOffset,
            s'.i + (renderTail pre).length + 1 + mi.valOffset + mi.val.length⟩) →
        (s'.idRaw = some v ∨ ∃ pre mi post, m :: ms = pre ++ mi :: post ∧ mi.key = idKeyBytes ∧
          v = ⟨s.i + (renderTail pre).length + 1 + mi.valOffset,
            s.i + (renderTail pre).length + 1 + mi.valOffset + mi.val.length⟩) := by
      intro s' hi v hv
      rcases hv with hv | ⟨pre, mi, post, h1, h2, h3⟩
      · exact Or.inl hv
      · refine Or.inr ⟨m :: pre, mi, post, by simp [h1], h2, ?_⟩
        rw [h3, hi, hlen pre]
    simp only [walkTail]
    rcases hk : classifyKey m.key with _ | _ | _
    · -- another key
      have hkid : m.key ≠ idKeyBytes := fun h => by simp [classifyKey_id.2 h] at hk
      have hkm : m.key ≠ methodKeyBytes := fun h => by simp [classifyKey_method.2 h] at hk
      have hunseen : ¬ (s.idRaw.isSome && s.foundMethod) = true := by
        cases hid : s.idRaw with
        | none => simp
        | some v => simp [(hI1 v hid).2]
      rw [memberStep_eval (hesc m (by simp)) (by simp [hk]) { s with i := s.i + 1 }
        (by simp [memberUpdate, hk])]
      simp only [hunseen, if_false]
      obtain ⟨v, hv1, hv2⟩ := ih (s := { s with i := s.i + 1 + m.render.length }) hesc' hnd
        (fun hf => ⟨(hM1 hf).1, fun m' hm' => (hM1 hf).2 m' (by simp [hm'])⟩)
        (fun hf => by
          obtain ⟨mm, hmm, h1, h2⟩ := hM2 hf
          rcases List.mem_cons.1 hmm with rfl | hmm
          · exact absurd h1 hkm
          · exact ⟨mm, hmm, h1, h2⟩)
        (fun v hv => ⟨fun m' hm' => (hI1 v hv).1 m' (by simp [hm']), (hI1 v hv).2⟩)
        (fun hid => by
          obtain ⟨mi, hmi, h1⟩ := hI2 hid
          rcases List.mem_cons.1 hmi with rfl | hmi
          · exact absurd h1 hkid
          · exact ⟨mi, hmi, h1⟩)
      exact ⟨v, hv1, lift { s with i := s.i + 1 + m.render.length } rfl v hv2⟩
    · -- the id key
      have hkid : m.key = idKeyBytes := classifyKey_id.1 hk
      have hnone : s.idRaw = none := by
        cases hid : s.idRaw with
        | none => rfl
        | some v => exact absurd hkid ((hI1 v hid).1 m (by simp))
      rw [memberStep_eval (hesc m (by simp)) (by simp [hk])
        { s with i := s.i + 1, idRaw := some ⟨s.i + 1 + m.valOffset, s.i + 1 + m.valOffset + m.val.length⟩ }
        (by simp [memberUpdate, hk])]
      cases hf : s.foundMethod with
      | true =>
        refine ⟨⟨s.i + 1 + m.valOffset, s.i + 1 + m.valOffset + m.val.length⟩, ?_, ?_⟩
        · simp [hf, (hM1 hf).1]
        · refine Or.inr ⟨[], m, ms, rfl, hkid, ?_⟩
          simp [renderTail]
      | false =>
        simp only [hf, Bool.and_false, Bool.false_eq_true, if_false]
        obtain ⟨v, hv1, hv2⟩ := ih
          (s := { s with i := s.i + 1 + m.render.length, idRaw := some ⟨s.i + 1 + m.valOffset, s.i + 1 + m.valOffset + m.val.length⟩ })
          hesc' hnd
          (fun hf' => by simp [hf] at hf')
          (fun _ => by
            obtain ⟨mm, hmm, h1, h2⟩ := hM2 hf
            rcases List.mem_cons.1 hmm with rfl | hmm
            · rw [hkid] at h1; exact absurd h1 (by decide)
            · exact ⟨mm, hmm, h1, h2⟩)
          (fun v _ => ⟨fun m' hm' => by rw [← hkid]; exact hnk m' hm', hf⟩)
          (fun hid => by simp at hid)
        rw [hf] at hv1
        refine ⟨v, hv1, ?_⟩
        rcases lift { s with i := s.i + 1 + m.render.length, idRaw := some ⟨s.i + 1 + m.valOffset, s.i + 1 + m.valOffset + m.val.length⟩ }
          rfl v hv2 with h | h
        · simp only [Option.some.injEq] at h
          refine Or.inr ⟨[], m, ms, rfl, hkid, ?_⟩
          rw [← h]; simp [renderTail]
        · exact Or.inr h
    · -- the method key
      have hkm : m.key = methodKeyBytes := classifyKey_method.1 hk
      have hf : s.foundMethod = false := by
        cases hf : s.foundMethod with
        | false => rfl
        | true => exact absurd hkm ((hM1 hf).2 m (by simp))
      have hval : m.val = miningSubmitTok := by
        obtain ⟨mm, hmm, h1, h2⟩ := hM2 hf
        rcases List.mem_cons.1 hmm with rfl | hmm
        · exact h2
        · exact absurd (h1.trans hkm.symm) (hnk mm hmm)
      rw [memberStep_eval (hesc m (by simp)) (by simp [hval, miningSubmitTok])
        { s with i := s.i + 1, methodOK := true, foundMethod := true }
        (by simp [memberUpdate, hk, hval])]
      cases hid : s.idRaw with
      | some v =>
        exact ⟨v, by simp [hid], Or.inl rfl⟩
      | none =>
        simp only [hid, Option.isSome_none, Bool.false_and, Bool.false_eq_true, if_false]
        obtain ⟨v, hv1, hv2⟩ := ih
          (s := { s with i := s.i + 1 + m.render.length, methodOK := true, foundMethod := true, idRaw := none })
          hesc' hnd
          (fun _ => ⟨rfl, fun m' hm' => by rw [← hkm]; exact hnk m' hm'⟩)
          (fun hf' => by simp at hf')
          (fun v hv => by simp at hv)
          (fun _ => by
            obtain ⟨mi, hmi, h1⟩ := hI2 hid
            rcases List.mem_cons.1 hmi with rfl | hmi
            · rw [hkm] at h1; exact absurd h1 (by decide)
            · exact ⟨mi, hmi, h1⟩)
        refine ⟨v, ?_, ?_⟩
        · rw [← hv1]
        · rcases lift { s with i := s.i + 1 + m.render.length, methodOK := true, foundMethod := true, idRaw := none }
            rfl v hv2 with h | h
          · simp at h
          · exact Or.inr h

/-! ## Reading the text back from what the sub-scanners return -/

theorem drop_cons_of_getElem? {b : List Nat} {i c : Nat} (h : b[i]? = some c) :
    b.drop i = c :: b.drop (i + 1) := by
  have hlt := lt_of_getElem?_some h
  rw [List.drop_eq_getElem_cons hlt]
  rw [List.getElem?_eq_getElem hlt] at h
  simp only [Option.some.injEq] at h
  rw [h]

theorem drop_eq_bytes_append {b : List Nat} {lo hi : Nat} (h1 : lo ≤ hi) :
    b.drop lo = Slice.bytes b ⟨lo, hi⟩ ++ b.drop hi := by
  have : b.drop hi = (b.drop lo).drop (hi - lo) := by
    rw [List.drop_drop]; congr 1; omega
  rw [this, Slice.bytes]
  exact (List.take_append_drop _ _).symm

theorem skipSpacesLoop_split (l : List Nat) (j : Nat) :
    ∃ ws, allSpace ws = true ∧ skipSpacesLoop l j = j + ws.length ∧
      l = ws ++ l.drop ws.length ∧ headSat (fun c => !isSpace c) (l.drop ws.length) = true := by
  induction l generalizing j with
  | nil => exact ⟨[], rfl, rfl, rfl, rfl⟩
  | cons c l ih =>
    by_cases hc : isSpace c = true
    · obtain ⟨ws, h1, h2, h3, h4⟩ := ih (j + 1)
      refine ⟨c :: ws, by simp [allSpace, hc] at h1 ⊢; exact h1, ?_, ?_, ?_⟩
      · simp [skipSpacesLoop, hc, h2]; omega
      · simp only [List.length_cons, List.drop_succ_cons, List.cons_append]
        rw [← h3]
      · simpa using h4
    · exact ⟨[], rfl, by simp [skipSpacesLoop, hc], rfl, by simpa [headSat] using hc⟩

/-- What `skipSpaces` skips is whitespace, and it stops at the end of the
buffer or at a byte that is not whitespace. -/
theorem skipSpaces_split (b : List Nat) (n : Nat) :
    ∃ ws, allSpace ws = true ∧ skipSpaces b n = n + ws.length ∧
      b.drop n = ws ++ b.drop (skipSpaces b n) ∧
      headSat (fun c => !isSpace c) (b.drop (skipSpaces b n)) = true := by
  obtain ⟨ws, h1, h2, h3, h4⟩ := skipSpacesLoop_split (b.drop n) n
  have hd : (b.drop n).drop ws.length = b.drop (skipSpaces b n) := by
    rw [List.drop_drop, skipSpaces, h2]
  rw [hd] at h3 h4
  exact ⟨ws, h1, h2, h3, h4⟩

theorem scanTopLevelKeyLoop_split (l : List Nat) (j j' : Nat)
    (h : scanTopLevelKeyLoop l j = (j', false)) :
    ∃ key, key.all isPlain = true ∧ j' = j + key.length ∧ l = key ++ l.drop key.length := by
  induction l generalizing j with
  | nil =>
    simp only [scanTopLevelKeyLoop, Prod.mk.injEq, and_true] at h
    exact ⟨[], rfl, by simp [h], rfl⟩
  | cons c l ih =>
    simp only [scanTopLevelKeyLoop] at h
    split at h
    · simp only [Prod.mk.injEq, and_true] at h
      exact ⟨[], rfl, by simp [h], rfl⟩
    · rename_i h34
      split at h
      · simp at h
      · rename_i h92
        obtain ⟨key, h1, h2, h3⟩ := ih (j + 1) h
        refine ⟨c :: key, by simp [isPlain, h34, h92, h1], by simp [h2]; omega, ?_⟩
        simp only [List.length_cons, List.drop_succ_cons, List.cons_append]
        rw [← h3]

/-- A key the scan reports as `id` or `method` stands in the buffer between
two quotes. -/
theorem scanTopLevelKey_split {b : List Nat} {i next : Nat} {k : jsonTopLevelKey}
    (h : scanTopLevelKey b i = (k, next, true)) (hk : k ≠ jsonKeyOther) :
    ∃ key, classifyKey key = k ∧ next = i + key.length + 2 ∧
      b.drop (i + 1) = key ++ 34 :: b.drop next := by
  unfold scanTopLevelKey at h
  rcases hres : scanTopLevelKeyLoop (b.drop (i + 1)) (i + 1) with ⟨j, e⟩
  simp only [hres] at h
  cases e with
  | true =>
    simp only [Prod.mk.injEq, and_true] at h
    exact absurd h.1.symm hk
  | false =>
    simp only at h
    obtain ⟨key, -, h2, h3⟩ := scanTopLevelKeyLoop_split _ _ _ hres
    rcases hc : b[j]? with _ | c
    · simp [hc] at h
    · simp only [hc] at h
      by_cases h34 : c = 34
      · subst h34
        simp only [ne_eq, not_true_eq_false, if_false, Prod.mk.injEq, and_true] at h
        obtain ⟨hcl, hnext⟩ := h
        have hd : (b.drop (i + 1)).drop key.length = b.drop j := by
          rw [List.drop_drop, h2]
        rw [hd, drop_cons_of_getElem? hc] at h3
        have hbytes : Slice.bytes b ⟨i + 1, j⟩ = key := by
          have hlen : j - (i + 1) = key.length := by omega
          rw [Slice.bytes, hlen, h3]
          simp
        rw [hbytes] at hcl
        refine ⟨key, hcl, by omega, ?_⟩
        rw [← hnext]
        exact h3
      · simp [h34] at h

/-- A reading of the key branch for the keys `id` and `method`: the text at
the index of the loop is the key between quotes, whitespace, a colon,
whitespace, and the value, which does not start with whitespace. -/
theorem keyStep_text {b : List Nat} {s : LoopState} {k : jsonTopLevelKey} {next : Nat}
    (h34 : b[s.i]? = some 34) (hk : scanTopLevelKey b s.i = (k, next, true))
    (hne : k ≠ jsonKeyOther) (hcolon : b[skipSpaces b next]? = some 58)
    (hlt : skipSpaces b (skipSpaces b next + 1) < b.length) :
    ∃ key ws1 ws2 c, classifyKey key = k ∧ allSpace ws1 = true ∧ allSpace ws2 = true ∧
      b.drop s.i = 34 :: (key ++ 34 :: (ws1 ++ 58 :: (ws2 ++
        b.drop (skipSpaces b (skipSpaces b next + 1))))) ∧
      skipSpaces b (skipSpaces b next + 1) = s.i + key.length + ws1.length + ws2.length + 3 ∧
      b[skipSpaces b (skipSpaces b next + 1)]? = some c ∧ isSpace c = false := by
  obtain ⟨key, hcl, hnext, hd⟩ := scanTopLevelKey_split hk hne
  obtain ⟨ws1, hw1, hn1, hd1, -⟩ := skipSpaces_split b next
  obtain ⟨ws2, hw2, hn2, hd2, hh2⟩ := skipSpaces_split b (skipSpaces b next + 1)
  obtain ⟨c, hc⟩ := getElem?_some_of_lt hlt
  refine ⟨key, ws1, ws2, c, hcl, hw1, hw2, ?_, by omega, hc, ?_⟩
  · rw [drop_cons_of_getElem? h34, hd, hd1, drop_cons_of_getElem? hcolon, hd2]
  · rw [drop_cons_of_getElem? hc] at hh2
    simpa [headSat] using hh2

/-- A method value the key branch accepted as `mining.submit` is that token. -/
theorem method_token_text {b : List Nat} {i j : Nat} (h0 : b[i]? = some 34)
    (h1 : b[j - 1]? = some 34) (hij : i + 2 ≤ j)
    (hm : Slice.bytes b ⟨i + 1, j - 1⟩ = miningSubmit) :
    b.drop i = miningSubmitTok ++ b.drop j := by
  have hj : j - 1 + 1 = j := by omega
  rw [drop_cons_of_getElem? h0, @drop_eq_bytes_append b (i + 1) (j - 1) (by omega), hm,
    drop_cons_of_getElem? h1, hj]
  simp [miningSubmitTok]

/-- An iteration either leaves `foundMethod`, `methodOK` and `idRaw` alone and
continues, or is the key branch at depth 1. -/
theorem mainStep_cases (b : List Nat) (s : LoopState) (c : Nat) :
    (∃ s', mainStep b s c = .next s' ∧ s'.methodOK = s.methodOK ∧ s'.idRaw = s.idRaw ∧
      s'.foundMethod = s.foundMethod) ∨
    (s.inStr = false ∧ c = 34 ∧ s.depth = 1 ∧ mainStep b s c = scanMember b s) := by
  by_cases hkey : s.inStr = false ∧ c = 34 ∧ s.depth = 1
  · right
    obtain ⟨h1, h2, h3⟩ := hkey
    exact ⟨h1, h2, h3, by simp [mainStep, h1, h2, h3]⟩
  · left
    unfold mainStep
    repeat' split
    all_goals first
      | (exfalso; apply hkey; simp_all; done)
      | exact ⟨_, rfl, rfl, rfl, rfl⟩

/-- What the key branch hands to `finishKey` at a state the loop reached:
`methodOK` is set only behind a key `"method"` with the token
`"mining.submit"`, and `idRaw` only to the value behind a key `"id"`. -/
theorem keyUpdate_seen {b : List Nat} {s : LoopState} {k : jsonTopLevelKey} {next j : Nat}
    (hr : Reach b s) (hstr : s.inStr = false) (hd : s.depth = 1) (h34 : b[s.i]? = some 34)
    (hM : s.methodOK = true → MethodSeen b) (hI : ∀ v, s.idRaw = some v → IdSeen b v)
    (hk : scanTopLevelKey b s.i = (k, next, true)) (hcolon : b[skipSpaces b next]? = some 58)
    (hlt : skipSpaces b (skipSpaces b next + 1) < b.length)
    (hvj : skipSpaces b (skipSpaces b next + 1) < j) (hj : j ≤ b.length)
    (hq : k = jsonKeyMethod → b[skipSpaces b (skipSpaces b next + 1)]? = some 34 ∧
      b[j - 1]? = some 34 ∧ skipSpaces b (skipSpaces b next + 1) + 2 ≤ j) :
    ((keyUpdate b s k ⟨skipSpaces b (skipSpaces b next + 1), j⟩).methodOK = true →
        MethodSeen b) ∧
      ∀ v, (keyUpdate b s k ⟨skipSpaces b (skipSpaces b next + 1), j⟩).idRaw = some v →
        IdSeen b v := by
  cases k with
  | jsonKeyOther => exact ⟨hM, hI⟩
  | jsonKeyID =>
    refine ⟨hM, ?_⟩
    intro v hv
    simp only [keyUpdate, Option.some.injEq] at hv
    subst hv
    obtain ⟨key, ws1, ws2, c, hcl, hw1, hw2, htext, hpos, hc, hsp⟩ :=
      keyStep_text h34 hk (by simp) hcolon hlt
    have hkey := classifyKey_id.1 hcl
    subst hkey
    refine ⟨s, ws1, ws2, c, hr, hd, hstr, hw1, hw2, htext, ?_, hc, hsp, hvj, hj⟩
    simp only [hpos, idKeyBytes, List.length_cons, List.length_nil]
    omega
  | jsonKeyMethod =>
    refine ⟨?_, hI⟩
    intro hm
    simp only [keyUpdate, decide_eq_true_eq] at hm
    obtain ⟨key, ws1, ws2, c, hcl, hw1, hw2, htext, -, -, -⟩ :=
      keyStep_text h34 hk (by simp) hcolon hlt
    have hkey := classifyKey_method.1 hcl
    subst hkey
    obtain ⟨h0, h1, h2⟩ := hq rfl
    rw [method_token_text h0 h1 h2 hm] at htext
    exact ⟨s, ws1, ws2, _, hr, hd, hstr, hw1, hw2, htext⟩

/-- At every state the loop reaches, `methodOK` and `idRaw` come from what it
has seen. -/
theorem reach_seen {b : List Nat} {s : LoopState} (hr : Reach b s) :
    (s.methodOK = true → MethodSeen b) ∧ ∀ v, s.idRaw = some v → IdSeen b v := by
  induction hr with
  | init => exact ⟨fun h => Bool.noConfusion h, fun v h => Option.noConfusion h⟩
  | step s s' c hr hc hstep ih =>
    rcases mainStep_cases b s c with ⟨s'', h1, h2, h3, -⟩ | ⟨hstr, h34, hd, hkey⟩
    · rw [h1] at hstep
      simp only [StepResult.next.injEq] at hstep
      subst hstep
      rw [h2, h3]
      exact ih
    · subst h34
      rw [hkey] at hstep
      rcases scanMember_cases b s with hm | ⟨k, next, j, hk, hcolon, hlt, -, hvj, hj, hq, hm⟩
      · rw [hm] at hstep; cases hstep
      · rw [hm] at hstep
        obtain ⟨rfl, -⟩ := finishKey_next hstep
        exact keyUpdate_seen hr hstr hd hc ih.1 ih.2 hk hcolon hlt hvj hj hq

/-- Whatever `fastMiningSubmitID` returns besides `(nil, false)` comes from
what the loop has seen: `ok = true` from a key `"method"` with the token
`"mining.submit"`, an id from the value behind a key `"id"`. -/
theorem fastMiningSubmitID_seen {b : List Nat} {id : Option Slice} {ok : Bool}
    (h : fastMiningSubmitID b = .ret id ok) :
    (ok = true → MethodSeen b) ∧ (∀ v, id = some v → IdSeen b v) ∧
      (ok = true → id.isSome = true) := by
  by_cases hne : id = none ∧ ok = false
  · obtain ⟨rfl, rfl⟩ := hne
    exact ⟨fun h => Bool.noConfusion h, fun v h => Option.noConfusion h,
      fun h => Bool.noConfusion h⟩
  · by_cases hpre : bytesContains b miningSubmit = true
    · rw [fastMiningSubmitID_eq_run hpre] at h
      obtain ⟨s, c, hr, hc, hstep⟩ := run_ret_reach Reach.init h hne
      have ih := reach_seen hr
      rcases mainStep_cases b s c with ⟨s'', h1, -⟩ | ⟨hstr, h34, hd, hkey⟩
      · rw [h1] at hstep; cases hstep
      · subst h34
        rw [hkey] at hstep
        rcases scanMember_cases b s with hm | ⟨k, next, j, hk, hcolon, hlt, -, hvj, hj, hq, hm⟩
        · rw [hm] at hstep
          simp only [StepResult.ret.injEq] at hstep
          exact absurd ⟨hstep.1.symm, hstep.2.symm⟩ hne
        · rw [hm] at hstep
          obtain ⟨rfl, rfl, hsome, -⟩ := finishKey_ret hstep
          have hseen := keyUpdate_seen hr hstr hd hc ih.1 ih.2 hk hcolon hlt hvj hj hq
          exact ⟨hseen.1, hseen.2, fun _ => hsome⟩
    · simp only [fastMiningSubmitID, hpre, Bool.not_false, if_true, Bool.false_eq_true,
        Outcome.ret.injEq] at h
      exact absurd ⟨h.1.symm, h.2.symm⟩ hne

/-! ## Requests that are well-formed objects -/

theorem bytesContains_iff {b pat : List Nat} : bytesContains b pat = true ↔ pat <:+: b := by
  simp only [bytesContains, List.any_eq_true, List.mem_tails, List.isPrefixOf_iff_prefix,
    List.infix_iff_prefix_suffix]
  constructor
  · rintro ⟨t, h1, h2⟩; exact ⟨t, h2, h1⟩
  · rintro ⟨t, h1, h2⟩; exact ⟨t, h2, h1⟩

theorem bytesContains_mid (x pat y : List Nat) : bytesContains (x ++ (pat ++ y)) pat = true :=
  bytesContains_iff.2 ⟨x, y, by simp⟩

/-- A member of the list stands in the text of the object, behind a prefix
whose length the walk knows. -/
theorem renderObject_split (lead inner trail : List Nat) (pre post : List Member) (mi : Member) :
    ∃ X, renderObject lead inner (pre ++ mi :: post) trail =
        X ++ (mi.render ++ (renderTail post ++ 125 :: trail)) ∧
      X.length = lead.length + (renderTail pre).length + 1 := by
  cases pre with
  | nil => exact ⟨lead ++ [123], by simp [renderObject, renderBody], by simp [renderTail]⟩
  | cons m0 pre =>
    refine ⟨lead ++ 123 :: (m0.render ++ (renderTail pre ++ [44])), ?_, ?_⟩
    · simp [renderObject, renderBody, renderTail_append, renderTail]
    · simp [renderTail]; omega

theorem renderObject_cons (lead inner trail : List Nat) (m : Member) (ms : List Member) :
    renderObject lead inner (m :: ms) trail =
      lead ++ 123 :: (renderBody [] (m :: ms) ++ 125 :: trail) := rfl

/-- The bytes of the view the walk returns for a member's value. -/
theorem bytes_member_val (lead inner trail : List Nat) (pre post : List Member) (mi : Member) :
    Slice.bytes (renderObject lead inner (pre ++ mi :: post) trail)
      ⟨lead.length + (renderTail pre).length + 1 + mi.valOffset,
        lead.length + (renderTail pre).length + 1 + mi.valOffset + mi.val.length⟩ = mi.val := by
  obtain ⟨X, hX, hlen⟩ := renderObject_split lead inner trail pre post mi
  rw [hX]
  exact bytes_at (p := X ++ (mi.pre ++ 34 :: (mi.key ++ 34 :: (mi.sep1 ++ 58 :: mi.sep2))))
    (r := mi.post ++ (renderTail post ++ 125 :: trail))
    (by simp [Member.render]) (by simp [hlen, Member.valOffset]; omega)
    (by simp [hlen, Member.valOffset]; omega)

theorem mem_split_render {ms : List Member} {m : Member} (h : m ∈ ms)
    (lead inner trail : List Nat) :
    ∃ X Y, renderObject lead inner ms trail = X ++ (m.render ++ Y) := by
  obtain ⟨pre, post, rfl⟩ := List.append_of_mem h
  obtain ⟨X, hX, -⟩ := renderObject_split lead inner trail pre post m
  exact ⟨X, _, hX⟩

theorem walkObject_cons (n : Nat) (m : Member) (ms : List Member) :
    walkObject n (m :: ms) = walkTail { initState with i := n, depth := 1 } (m :: ms) := rfl

/-- C1. A well-formed `mining.submit` request: an object whose members have
pairwise distinct keys without escape sequences, among them `id` and
`method` with the value `"mining.submit"`, in any order, with any JSON
whitespace between the tokens and any value tokens. `fastMiningSubmitID`
returns `ok = true` and a view whose bytes are the raw text of the value of
`id`. -/
theorem fastMiningSubmitID_submit_id (lead inner trail : List Nat) (ms : List Member)
    (mi mm : Member) (hlead : allSpace lead = true) (hwf : ∀ m ∈ ms, m.WF)
    (hesc : ∀ m ∈ ms, 92 ∉ m.key) (hnodup : (ms.map Member.key).Nodup)
    (hmi : mi ∈ ms) (hik : mi.key = idKeyBytes)
    (hmm : mm ∈ ms) (hmk : mm.key = methodKeyBytes) (hmv : mm.val = miningSubmitTok) :
    ∃ v, fastMiningSubmitID (renderObject lead inner ms trail) = .ret (some v) true ∧
      v.bytes (renderObject lead inner ms trail) = mi.val := by
  have hpre : bytesContains (renderObject lead inner ms trail) miningSubmit = true := by
    obtain ⟨X, Y, hXY⟩ := mem_split_render hmm lead inner trail
    rw [hXY]
    have : X ++ (mm.render ++ Y) =
        (X ++ (mm.pre ++ 34 :: (mm.key ++ 34 :: (mm.sep1 ++ 58 :: (mm.sep2 ++ [34]))))) ++
          (miningSubmit ++ (34 :: (mm.post ++ Y))) := by
      simp [Member.render, hmv, miningSubmitTok]
    rw [this]
    exact bytesContains_mid _ _ _
  rw [fastMiningSubmitID_eq_run hpre]
  cases ms with
  | nil => simp at hmi
  | cons m0 rest =>
    rw [run_object (renderObject_cons lead inner trail m0 rest) hlead hwf, walkObject_cons]
    obtain ⟨v, hv1, hv2⟩ := walkTail_submit
      (s := { initState with i := lead.length, depth := 1 }) hesc hnodup
      (fun h => by simp [initState] at h) (fun _ => ⟨mm, hmm, hmk, hmv⟩)
      (fun v h => by simp [initState] at h) (fun _ => ⟨mi, hmi, hik⟩)
    refine ⟨v, by rw [hv1], ?_⟩
    rcases hv2 with h | ⟨pre, mi', post, hms, hk', rfl⟩
    · simp [initState] at h
    · have hmi' : mi' ∈ m0 :: rest := by rw [hms]; simp
      have heq : mi' = mi :=
        List.inj_on_of_nodup_map hnodup hmi' hmi (hk'.trans hik.symm)
      subst heq
      rw [hms]
      exact bytes_member_val lead inner trail pre post mi'

/-- The main loop on a whole well-formed object with nothing but whitespace
behind it: the result of the walk, or `(nil, false)` when the walk reaches
the closing brace. -/
theorem run_closed {lead inner trail : List Nat} {ms : List Member}
    (hlead : allSpace lead = true) (hinner : allSpace inner = true)
    (htrail : allSpace trail = true) (hwf : ∀ m ∈ ms, m.WF) :
    run (renderObject lead inner ms trail) initState =
      match walkObject lead.length ms with
      | .ret id ok => .ret id ok
      | _ => .ret none false := by
  cases ms with
  | nil =>
    simp only [walkObject]
    rw [@run_open (renderObject lead inner [] trail) lead
      (inner ++ 125 :: trail) (by simp [renderObject, renderBody]) hlead]
    rw [@run_ws (renderObject lead inner [] trail) (lead ++ [123]) inner
      (125 :: trail) { initState with i := lead.length + 1, depth := 1 }
      (by simp [renderObject, renderBody]) (by simp) rfl hinner]
    exact @run_close _ (lead ++ 123 :: inner) trail _
      (by simp [renderObject, renderBody]) (by simp; omega) rfl htrail
  | cons m0 rest =>
    rw [run_object (renderObject_cons lead inner trail m0 rest) hlead hwf]
    rcases hw : walkObject lead.length (m0 :: rest) with s' | ⟨id, ok⟩ | _
    · simp only
      obtain ⟨h1, _, h3⟩ := walkObject_next hw
      exact @run_close _ (lead ++ 123 :: renderBody [] (m0 :: rest)) trail _
        (by simp [renderObject, renderBody]) (by simp [h1]; omega) h3 htrail
    · rfl
    · exact absurd hw (walkObject_ne_panic _ _)

/-- What `fastMiningSubmitID` returns on a whole well-formed object. -/
theorem fastMiningSubmitID_closed {lead inner trail : List Nat} {ms : List Member}
    (hlead : allSpace lead = true) (hinner : allSpace inner = true)
    (htrail : allSpace trail = true) (hwf : ∀ m ∈ ms, m.WF) :
    fastMiningSubmitID (renderObject lead inner ms trail) = .ret none false ∨
    ∃ id ok, walkObject lead.length ms = .ret id ok ∧
      fastMiningSubmitID (renderObject lead inner ms trail) = .ret id ok := by
  by_cases hpre : bytesContains (renderObject lead inner ms trail) miningSubmit = true
  · rw [fastMiningSubmitID_eq_run hpre, run_closed hlead hinner htrail hwf]
    rcases hw : walkObject lead.length ms with s' | ⟨id, ok⟩ | _
    · left; rfl
    · right; exact ⟨id, ok, rfl, rfl⟩
    · left; rfl
  · left
    simp [fastMiningSubmitID, hpre]

theorem walkObject_not_submit {n : Nat} {ms : List Member} {id : Option Slice} {ok : Bool}
    (hms : ∀ m ∈ ms, m.key = methodKeyBytes → m.val ≠ miningSubmitTok)
    (h : walkObject n ms = .ret id ok) : ok = false := by
  cases ms with
  | nil => simp [walkObject] at h
  | cons m ms =>
    rw [walkObject_cons] at h
    exact walkTail_not_submit hms rfl h

theorem walkObject_no_id {n : Nat} {ms : List Member} {id : Option Slice} {ok : Bool}
    (hms : ∀ m ∈ ms, m.key ≠ idKeyBytes)
    (h : walkObject n ms = .ret id ok) : id = none ∧ ok = false := by
  cases ms with
  | nil => simp [walkObject] at h
  | cons m ms =>
    rw [walkObject_cons] at h
    exact walkTail_no_id hms rfl h

/-- C3. Only keys of the outermost object are interpreted: on a well-formed
request object with no member whose key is `id`, `fastMiningSubmitID` returns
`(nil, false)`, whatever the method is and whatever keys stand inside the
values. -/
theorem fastMiningSubmitID_no_top_level_id (lead inner trail : List Nat) (ms : List Member)
    (hlead : allSpace lead = true) (hinner : allSpace inner = true)
    (htrail : allSpace trail = true) (hwf : ∀ m ∈ ms, m.WF)
    (hid : ∀ m ∈ ms, m.key ≠ idKeyBytes) :
    fastMiningSubmitID (renderObject lead inner ms trail) = .ret none false := by
  rcases fastMiningSubmitID_closed hlead hinner htrail hwf with h | ⟨id, ok, hw, h⟩
  · exact h
  · obtain ⟨rfl, rfl⟩ := walkObject_no_id hid hw
    exact h

/-! ## Building tokens -/

theorem strBody_of_plain {l : List Nat} (h : l.all isPlain = true) : StrBody l := by
  induction l with
  | nil => exact StrBody.nil
  | cons c l ih =>
    simp only [List.all_cons, Bool.and_eq_true] at h
    exact StrBody.plain c l h.1 (ih h.2)

theorem keyBody_of_plain {l : List Nat} (h : l.all isPlain = true) : KeyBody l := by
  induction l with
  | nil => exact KeyBody.nil
  | cons c l ih =>
    simp only [List.all_cons, Bool.and_eq_true] at h
    exact KeyBody.plain c l h.1 (ih h.2)

theorem items_of_inert {l : List Nat} (h : l.all isInert = true) : Items l := by
  induction l with
  | nil => exact Items.nil
  | cons c l ih =>
    simp only [List.all_cons, Bool.and_eq_true] at h
    exact Items.inert c l h.1 (ih h.2)

theorem token_of_plain_string (t : List Nat) (h : t.all isPlain = true) :
    Token (34 :: (t ++ [34])) :=
  Or.inl ⟨t, strBody_of_plain h, rfl⟩

theorem token_of_scalar {v : List Nat} (h : ScalarTok v) : Token v := Or.inr (Or.inr h)

theorem token_of_compound (o : Nat) (t : List Nat) (c : Nat) (ho : isOpen o = true)
    (hi : Items t) (hc : isClose c = true) : Token (o :: (t ++ [c])) :=
  Or.inr (Or.inl ⟨o, t, c, ho, hi, hc, rfl⟩)

/-- A member without whitespace or escapes in its key is well-formed once its
value is a token. -/
theorem member_wf_of_plain {m : Member} (h1 : allSpace m.pre = true)
    (h2 : m.key.all isPlain = true) (h3 : allSpace m.sep1 = true)
    (h4 : allSpace m.sep2 = true) (h5 : Token m.val) (h6 : allSpace m.post = true) : m.WF :=
  ⟨h1, keyBody_of_plain h2, h3, h4, h5, h6⟩

theorem exMethodSpaced_wf : exMethodSpaced.WF :=
  member_wf_of_plain (by decide) (by decide) (by decide) (by decide)
    (token_of_plain_string miningSubmit (by decide)) (by decide)

theorem exIdSpaced_wf : exIdSpaced.WF :=
  member_wf_of_plain (by decide) (by decide) (by decide) (by decide)
    (token_of_scalar ⟨by decide, by decide, by decide⟩) (by decide)

theorem exParamsSpaced_wf : exParamsSpaced.WF :=
  member_wf_of_plain (by decide) (by decide) (by decide) (by decide)
    (token_of_compound 91 [] 93 (by decide) Items.nil (by decide))
    (by decide)

theorem exMethod_wf : exMethod.WF :=
  member_wf_of_plain (by decide) (by decide) (by decide) (by decide)
    (token_of_plain_string miningSubmit (by decide)) (by decide)

theorem exMethodPing_wf : exMethodPing.WF :=
  member_wf_of_plain (by decide) (by decide) (by decide) (by decide)
    (token_of_plain_string (bytesOf "mining.ping") (by decide)) (by decide)

theorem exId_wf : exId.WF :=
  member_wf_of_plain (by decide) (by decide) (by decide) (by decide)
    (token_of_scalar ⟨by decide, by decide, by decide⟩) (by decide)

theorem exParamsSubmit_wf : exParamsSubmit.WF :=
  member_wf_of_plain (by decide) (by decide) (by decide) (by decide)
    (token_of_compound 91 miningSubmitTok 93 (by decide)
      (Items.str miningSubmit [] (strBody_of_plain (by decide)) Items.nil) (by decide))
    (by decide)

theorem exParamsNested_wf : exParamsNested.WF :=
  member_wf_of_plain (by decide) (by decide) (by decide) (by decide)
    (token_of_compound 91 (bytesOf "\x7b\"id\":5\x7d") 93 (by decide)
      (Items.nest 123 (bytesOf "\"id\":5") 125 [] (by decide)
        (Items.str idKeyBytes [58, 53] (strBody_of_plain (by decide))
          (items_of_inert (by decide)))
        (by decide) Items.nil)
      (by decide))
    (by decide)

theorem forall_mem_cons {P : Member → Prop} {m : Member} {ms : List Member} (h1 : P m)
    (h2 : ∀ m' ∈ ms, P m') : ∀ m' ∈ m :: ms, P m' := by
  intro m' hm'
  rcases List.mem_cons.1 hm' with rfl | h
  · exact h1
  · exact h2 m' h

theorem forall_mem_nil {P : Member → Prop} : ∀ m' ∈ ([] : List Member), P m' := by
  intro m' hm'
  cases hm'

/-- Witness of C1: the request
`{ "method" : "mining.submit" , "id" : 7 , "params" : [] }` of the source's
test `with_spaces`, whose id token is `7`. -/
theorem fastMiningSubmitID_submit_id_witness :
    renderObject [] [] [exMethodSpaced, exIdSpaced, exParamsSpaced] [] =
        bytesOf "\x7b \"method\" : \"mining.submit\" , \"id\" : 7 , \"params\" : [] \x7d" ∧
      ∃ v, fastMiningSubmitID
          (renderObject [] [] [exMethodSpaced, exIdSpaced, exParamsSpaced] []) =
            .ret (some v) true ∧
        v.bytes (renderObject [] [] [exMethodSpaced, exIdSpaced, exParamsSpaced] []) = [55] :=
  ⟨by decide,
    fastMiningSubmitID_submit_id [] [] [] [exMethodSpaced, exIdSpaced, exParamsSpaced]
      exIdSpaced exMethodSpaced (by decide)
      (forall_mem_cons exMethodSpaced_wf
        (forall_mem_cons exIdSpaced_wf (forall_mem_cons exParamsSpaced_wf forall_mem_nil)))
      (by decide) (by decide) (by simp) rfl (by simp) rfl rfl⟩

/-- Witness of C3: `{"method":"mining.submit","params":[{"id":5}]}` has no
top-level id and yields `(nil, false)`. -/
theorem fastMiningSubmitID_no_top_level_id_witness :
    renderObject [] [] [exMethod, exParamsNested] [] =
        bytesOf "\x7b\"method\":\"mining.submit\",\"params\":[\x7b\"id\":5\x7d]\x7d" ∧
      fastMiningSubmitID (renderObject [] [] [exMethod, exParamsNested] []) = .ret none false :=
  ⟨by decide,
    fastMiningSubmitID_no_top_level_id [] [] [] [exMethod, exParamsNested] (by decide)
      (by decide) (by decide)
      (forall_mem_cons exMethod_wf (forall_mem_cons exParamsNested_wf forall_mem_nil))
      (by decide)⟩

/-! ## Results on arbitrary bytes -/

theorem bytes_infix (b : List Nat) (v : Slice) : v.bytes b <:+: b :=
  (List.take_prefix _ _).isInfix.trans (List.drop_suffix _ _).isInfix

theorem bytes_length {b : List Nat} {v : Slice} (h : v.hi ≤ b.length) :
    (v.bytes b).length = v.hi - v.lo := by
  simp [Slice.bytes]; omega

/-- C2. A request whose method is not `mining.submit` is never reported as a
submit. First, on every well-formed request object without a member whose key
is `method` and whose value is the token `"mining.submit"`, the call returns
`ok = false`, also when the bytes `mining.submit` stand elsewhere. Second, on
every input, `ok = true` means that the buffer holds, where the loop stood at
depth 1, the key `"method"`, optional whitespace, a colon, optional
whitespace and exactly the token `"mining.submit"`. -/
theorem fastMiningSubmitID_not_submit :
    (∀ (lead inner trail : List Nat) (ms : List Member),
      allSpace lead = true → allSpace inner = true → allSpace trail = true →
      (∀ m ∈ ms, m.WF) → (∀ m ∈ ms, m.key = methodKeyBytes → m.val ≠ miningSubmitTok) →
      ∃ id, fastMiningSubmitID (renderObject lead inner ms trail) = .ret id false) ∧
    (∀ (b : List Nat) (id : Option Slice),
      fastMiningSubmitID b = .ret id true → MethodSeen b) := by
  constructor
  · intro lead inner trail ms hlead hinner htrail hwf hm
    rcases fastMiningSubmitID_closed hlead hinner htrail hwf with h | ⟨id, ok, hw, h⟩
    · exact ⟨none, h⟩
    · have := walkObject_not_submit hm hw
      subst this
      exact ⟨id, h⟩
  · intro b id h
    exact (fastMiningSubmitID_seen h).1 rfl

/-- C4. The returned id is a view into the input: when the call returns
`ok = true`, the id is a view `b[lo:hi]` with `lo < hi ≤ len(b)`, its bytes
are a contiguous run of `b` of length `hi - lo`, and `b[lo]` is the first
byte that is not whitespace behind the colon of a key `"id"` the loop met at
depth 1. The function is pure: it has no access to `b` but reading. -/
theorem fastMiningSubmitID_id_view (b : List Nat) (id : Option Slice)
    (h : fastMiningSubmitID b = .ret id true) :
    ∃ v, id = some v ∧ v.lo < v.hi ∧ v.hi ≤ b.length ∧ v.bytes b <:+: b ∧
      (v.bytes b).length = v.hi - v.lo ∧ v.bytes b ≠ [] ∧ IdSeen b v := by
  obtain ⟨-, hI, hS⟩ := fastMiningSubmitID_seen h
  have hsome := hS rfl
  rcases id with _ | v
  · simp at hsome
  · have hseen := hI v rfl
    obtain ⟨s, ws1, ws2, c, -, -, -, -, -, -, -, -, -, hlo, hhi⟩ := hseen
    refine ⟨v, rfl, hlo, hhi, bytes_infix b v, bytes_length hhi, ?_, hI v rfl⟩
    intro hnil
    have := bytes_length (b := b) hhi
    rw [hnil] at this
    simp at this
    omega

/-- Witness of C2: `{"id":1,"method":"mining.ping","params":["mining.submit"]}`
holds the bytes `mining.submit` but is not reported as a submit; and the
request `{"id":1,"method":"mining.submit","params":[]}` is, its key `"method"`
having been seen. -/
theorem fastMiningSubmitID_not_submit_witness :
    renderObject [] [] [exId, exMethodPing, exParamsSubmit] [] =
        bytesOf
          "\x7b\"id\":1,\"method\":\"mining.ping\",\"params\":[\"mining.submit\"]\x7d" ∧
      (∃ id, fastMiningSubmitID (renderObject [] [] [exId, exMethodPing, exParamsSubmit] []) =
        .ret id false) ∧
      fastMiningSubmitID exSubmit = .ret (some ⟨6, 7⟩) true ∧ MethodSeen exSubmit :=
  ⟨by decide,
    fastMiningSubmitID_not_submit.1 [] [] [] [exId, exMethodPing, exParamsSubmit] (by decide)
      (by decide) (by decide)
      (forall_mem_cons exId_wf
        (forall_mem_cons exMethodPing_wf (forall_mem_cons exParamsSubmit_wf forall_mem_nil)))
      (by decide),
    by decide, fastMiningSubmitID_not_submit.2 exSubmit (some ⟨6, 7⟩) (by decide)⟩

/-- Witness of C4: on `{"id":1,"method":"mining.submit","params":[]}` the id
is the view `b[6:7]`. -/
theorem fastMiningSubmitID_id_view_witness :
    fastMiningSubmitID exSubmit = .ret (some ⟨6, 7⟩) true ∧
      ∃ v, some (Slice.mk 6 7) = some v ∧ v.lo < v.hi ∧ v.hi ≤ exSubmit.length ∧
        v.bytes exSubmit <:+: exSubmit ∧ (v.bytes exSubmit).length = v.hi - v.lo ∧
        v.bytes exSubmit ≠ [] ∧ IdSeen exSubmit v :=
  ⟨by decide, fastMiningSubmitID_id_view exSubmit (some ⟨6, 7⟩) (by decide)⟩

/-! ## Malformed values -/

theorem balancedIn_str (stack body t : List Nat) (h : StrBody body) :
    balancedIn stack true false (body ++ 34 :: t) = balancedIn stack false false t := by
  induction h with
  | nil => simp [balancedIn]
  | plain c u hc _ ih =>
    rw [isPlain_iff] at hc
    simp [balancedIn, hc.1, hc.2, ih]
  | escaped c u _ ih => simp [balancedIn, ih]

theorem balancedIn_unterminated (stack t : List Nat) (h : Unterminated t) :
    balancedIn stack true false t = false := by
  induction h with
  | nil => simp [balancedIn]
  | dangling => simp [balancedIn]
  | plain c u hc _ ih =>
    rw [isPlain_iff] at hc
    simp [balancedIn, hc.1, hc.2, ih]
  | escaped c u _ ih => simp [balancedIn, ih]

/-- A compound that the depth count never closes is not balanced by closers
of the right kind either. -/
theorem unclosed_not_balanced (d : Nat) (t : List Nat) (h : Unclosed d t) :
    ∀ stack : List Nat, stack.length = d → 1 ≤ d → balancedIn stack false false t = false := by
  induction h with
  | nil d => intro stack _ _; simp [balancedIn]
  | inert d c t hc _ ih =>
    intro stack hs hd
    rw [isInert_iff] at hc
    have hq : c ≠ 34 := hc.1
    have ho : isOpen c = false := by simp [isOpen, hc.2.1, hc.2.2.1]
    have hcl : isClose c = false := by simp [isClose, hc.2.2.2.1, hc.2.2.2.2]
    simp [balancedIn, hq, ho, hcl, ih stack hs hd]
  | opener d c t hc _ ih =>
    intro stack hs hd
    have hq : c ≠ 34 := by rcases isOpen_iff.1 hc with rfl | rfl <;> decide
    simp [balancedIn, hq, hc, ih (closerOf c :: stack) (by simp [hs]) (by omega)]
  | closer d c t hc _ ih =>
    intro stack hs hd
    have hq : c ≠ 34 := by rcases isClose_iff.1 hc with rfl | rfl <;> decide
    have ho : isOpen c = false := by rcases isClose_iff.1 hc with rfl | rfl <;> decide
    match stack, hs with
    | e :: f :: rest, hs =>
      simp only [List.length_cons] at hs
      by_cases hce : c = e
      · subst hce
        simp [balancedIn, hq, ho, hc, ih (f :: rest) (by simp; omega) (by omega)]
      · simp [balancedIn, hq, ho, hc, hce]
  | str d body t hb _ ih =>
    intro stack hs hd
    simp only [balancedIn, Bool.false_eq_true, if_false, if_true]
    rw [balancedIn_str _ _ _ hb]
    exact ih stack hs hd
  | openStr d t ht =>
    intro stack hs hd
    simp only [balancedIn, Bool.false_eq_true, if_false, if_true]
    exact balancedIn_unterminated _ _ ht

theorem getElem?_append_some {b : List Nat} (t : List Nat) {i c : Nat} (h : b[i]? = some c) :
    (b ++ t)[i]? = some c := by
  rw [List.getElem?_append_left (lt_of_getElem?_some h), h]

theorem drop_append_le {b : List Nat} (t : List Nat) {i : Nat} (h : i ≤ b.length) :
    (b ++ t).drop i = b.drop i ++ t := List.drop_append_of_le_length h

theorem bytes_append {b : List Nat} (t : List Nat) {v : Slice} (h : v.hi ≤ b.length) :
    Slice.bytes (b ++ t) v = Slice.bytes b v := by
  unfold Slice.bytes
  by_cases hlo : v.lo ≤ b.length
  · rw [drop_append_le t hlo, List.take_append_of_le_length]
    simp only [List.length_drop]; omega
  · have h0 : v.hi - v.lo = 0 := by omega
    simp [h0]

theorem skipSpacesLoop_append (l t : List Nat) (j : Nat)
    (h : skipSpacesLoop l j < j + l.length) :
    skipSpacesLoop (l ++ t) j = skipSpacesLoop l j := by
  induction l generalizing j with
  | nil => simp [skipSpacesLoop] at h
  | cons c l ih =>
    simp only [List.cons_append, skipSpacesLoop] at h ⊢
    split
    · rename_i hc
      simp only [hc, if_true, List.length_cons] at h
      exact ih (j + 1) (by omega)
    · rfl

theorem skipSpaces_append {b : List Nat} (t : List Nat) {i : Nat}
    (h : skipSpaces b i < b.length) : skipSpaces (b ++ t) i = skipSpaces b i := by
  have hge := (skipSpacesLoop_bounds (b.drop i) i).1
  unfold skipSpaces at h ⊢
  rw [drop_append_le t (by omega)]
  exact skipSpacesLoop_append _ t i (by simp only [List.length_drop]; omega)

theorem scanTopLevelKeyLoop_append (l t : List Nat) (j : Nat)
    (h : (scanTopLevelKeyLoop l j).1 < j + l.length) :
    scanTopLevelKeyLoop (l ++ t) j = scanTopLevelKeyLoop l j := by
  induction l generalizing j with
  | nil => simp [scanTopLevelKeyLoop] at h
  | cons c l ih =>
    simp only [List.cons_append, scanTopLevelKeyLoop] at h ⊢
    split
    · rfl
    · rename_i h34
      split
      · rfl
      · rename_i h92
        simp only [h34, h92, if_false, List.length_cons] at h
        exact ih (j + 1) (by omega)

theorem scanTopLevelKeyLoop_early (l : List Nat) (j j' : Nat)
    (h : scanTopLevelKeyLoop l j = (j', true)) : j' < j + l.length := by
  induction l generalizing j with
  | nil => simp [scanTopLevelKeyLoop] at h
  | cons c l ih =>
    simp only [scanTopLevelKeyLoop] at h
    simp only [List.length_cons]
    split at h
    · simp at h
    · split at h
      · simp only [Prod.mk.injEq, and_true] at h; omega
      · have := ih (j + 1) h; omega

theorem scanTopLevelKey_append {b : List Nat} (t : List Nat) {i next : Nat}
    {k : jsonTopLevelKey} (h : scanTopLevelKey b i = (k, next, true)) :
    scanTopLevelKey (b ++ t) i = (k, next, true) := by
  simp only [scanTopLevelKey] at h ⊢
  rcases hres : scanTopLevelKeyLoop (b.drop (i + 1)) (i + 1) with ⟨j, e⟩
  simp only [hres] at h
  have hle : i + 1 ≤ b.length := by
    by_contra hgt
    have hnil : b.drop (i + 1) = [] := List.drop_eq_nil_of_le (by omega)
    rw [hnil] at hres
    simp only [scanTopLevelKeyLoop, Prod.mk.injEq] at hres
    obtain ⟨rfl, rfl⟩ := hres
    have : b[i + 1]? = none := List.getElem?_eq_none (by omega)
    simp [this] at h
  cases e with
  | true =>
    have hlt := scanTopLevelKeyLoop_early _ _ _ hres
    rw [drop_append_le t hle, scanTopLevelKeyLoop_append _ t _ (by rw [hres]; exact hlt), hres]
    exact h
  | false =>
    simp only at h
    rcases hc : b[j]? with _ | c
    · simp [hc] at h
    · have hj := lt_of_getElem?_some hc
      rw [drop_append_le t hle, scanTopLevelKeyLoop_append _ t _
        (by rw [hres]; simp only [List.length_drop]; omega), hres]
      simp only [getElem?_append_some t hc]
      simp only [hc] at h
      rw [bytes_append t (show (Slice.mk (i + 1) j).hi ≤ b.length by simp; omega)]
      exact h

theorem scanJSONStringEndLoop_append (i : Nat) (l t : List Nat) (j : Nat) (esc : Bool) {e : Nat}
    (h : scanJSONStringEndLoop i l j esc = (e, true)) :
    scanJSONStringEndLoop i (l ++ t) j esc = (e, true) := by
  induction l generalizing j esc with
  | nil => simp [scanJSONStringEndLoop] at h
  | cons c l ih =>
    simp only [List.cons_append, scanJSONStringEndLoop] at h ⊢
    repeat' split
    all_goals first
      | exact ih _ _ (by simpa [*] using h)
      | (simpa [*] using h)

theorem scanJSONCompoundEndLoop_append (i : Nat) (l t : List Nat) (j : Nat) (d : Int)
    (inStr esc : Bool) {e : Nat}
    (h : scanJSONCompoundEndLoop i l j d inStr esc = (e, true)) :
    scanJSONCompoundEndLoop i (l ++ t) j d inStr esc = (e, true) := by
  induction l generalizing j d inStr esc with
  | nil => simp [scanJSONCompoundEndLoop] at h
  | cons c l ih =>
    simp only [List.cons_append, scanJSONCompoundEndLoop] at h ⊢
    repeat' split
    all_goals first
      | exact ih _ _ _ _ (by simpa [*] using h)
      | (simpa [*] using h)

theorem scanScalarLoop_append (l t : List Nat) (j : Nat)
    (h : scanScalarLoop l j < j + l.length ∨ headSat isScalarEnd t = true) :
    scanScalarLoop (l ++ t) j = scanScalarLoop l j := by
  induction l generalizing j with
  | nil =>
    rcases h with h | h
    · simp [scanScalarLoop] at h
    · cases t with
      | nil => rfl
      | cons c t =>
        simp only [headSat] at h
        simp [scanScalarLoop, h]
  | cons c l ih =>
    simp only [List.cons_append, scanScalarLoop] at h ⊢
    split
    · rfl
    · rename_i hc
      simp only [hc, Bool.false_eq_true, if_false, List.length_cons] at h
      refine ih (j + 1) ?_
      rcases h with h | h
      · exact Or.inl (by omega)
      · exact Or.inr h

/-- A value the scan found is found again when bytes are appended, unless it
is a scalar that ran to the end of the buffer and the appended bytes go on
with it. -/
theorem scanJSONValueToken_append {b : List Nat} (t : List Nat) {i j : Nat} {tok : Option Slice}
    (h : scanJSONValueToken b i = (tok, j, true))
    (hc : j < b.length ∨ (∃ c, b[i]? = some c ∧ (c = 34 ∨ c = 123 ∨ c = 91)) ∨
      headSat isScalarEnd t = true) :
    scanJSONValueToken (b ++ t) i = (tok, j, true) := by
  unfold scanJSONValueToken at h ⊢
  rcases hg : b[i]? with _ | c
  · simp [hg] at h
  · have hlt := lt_of_getElem?_some hg
    simp only [hg] at h
    simp only [getElem?_append_some t hg]
    by_cases h34 : c = 34
    · simp only [h34, if_true] at h ⊢
      unfold scanJSONStringEnd at h ⊢
      rcases hres : scanJSONStringEndLoop i (b.drop (i + 1)) (i + 1) false with ⟨e, ok⟩
      rw [hres] at h
      cases ok with
      | false => simp at h
      | true =>
        rw [drop_append_le t (by omega), scanJSONStringEndLoop_append _ _ t _ _ hres]
        exact h
    · simp only [h34, if_false] at h ⊢
      by_cases ho : c = 123 ∨ c = 91
      · simp only [ho, if_true] at h ⊢
        unfold scanJSONCompoundEnd at h ⊢
        rcases hres : scanJSONCompoundEndLoop i (b.drop i) i 0 false false with ⟨e, ok⟩
        rw [hres] at h
        cases ok with
        | false => simp at h
        | true =>
          rw [drop_append_le t (by omega), scanJSONCompoundEndLoop_append _ _ t _ _ _ _ hres]
          exact h
      · simp only [ho, if_false] at h ⊢
        have hj : j = scanScalarLoop (b.drop i) i := by
          split at h
          · simp at h
          · simp only [Prod.mk.injEq, and_true] at h; exact h.2.symm
        have hstable : scanScalarLoop (b.drop i ++ t) i = scanScalarLoop (b.drop i) i := by
          apply scanScalarLoop_append
          rcases hc with hc | ⟨c', hc', hq⟩ | hc
          · left; simp only [List.length_drop]; omega
          · rw [hg] at hc'
            simp only [Option.some.injEq] at hc'
            subst hc'
            rcases hq with hq | hq
            · exact absurd hq h34
            · exact absurd hq ho
          · right; exact hc
        rw [drop_append_le t (by omega), hstable]
        exact h

theorem sliceAt_append {b : List Nat} (t : List Nat) {v : Slice} (n : Nat)
    (h : v.hi ≤ b.length) : sliceAt (b ++ t) (some v) n = sliceAt b (some v) n := by
  simp only [sliceAt]
  split
  · rw [List.getElem?_append_left (by omega)]
  · rfl

theorem keyUpdate_append {b : List Nat} (t : List Nat) (s : LoopState) (k : jsonTopLevelKey)
    {v : Slice} (h : v.hi ≤ b.length) : keyUpdate (b ++ t) s k v = keyUpdate b s k v := by
  cases k with
  | jsonKeyOther => rfl
  | jsonKeyID => rfl
  | jsonKeyMethod =>
    simp only [keyUpdate]
    rw [bytes_append t (show (Slice.mk (v.lo + 1) (v.hi - 1)).hi ≤ b.length by simp; omega)]

theorem scanKeyValue_append {b : List Nat} (t : List Nat) (s : LoopState) (k : jsonTopLevelKey)
    {i j : Nat} (hv : scanJSONValueToken b i = (some ⟨i, j⟩, j, true))
    (hv' : scanJSONValueToken (b ++ t) i = (some ⟨i, j⟩, j, true)) :
    scanKeyValue (b ++ t) s k i = scanKeyValue b s k i := by
  obtain ⟨-, -, hj⟩ := scanJSONValueToken_ok hv
  cases k with
  | jsonKeyOther => simp only [scanKeyValue, hv, hv']
  | jsonKeyID => simp only [scanKeyValue, hv, hv']
  | jsonKeyMethod =>
    have hb := bytes_append t (show (Slice.mk (i + 1) (j - 1)).hi ≤ b.length by simp; omega)
    have hs : ∀ n, sliceAt (b ++ t) (some ⟨i, j⟩) n = sliceAt b (some ⟨i, j⟩) n :=
      fun n => sliceAt_append t n hj
    simp only [scanKeyValue, hv, hv', hs]
    repeat' split
    all_goals first
      | rfl
      | (rename_i hq _; cases hq; simp only [hb])

theorem scanMember_eq {b : List Nat} {s : LoopState} {k : jsonTopLevelKey} {next : Nat}
    (hk : scanTopLevelKey b s.i = (k, next, true)) (hcolon : b[skipSpaces b next]? = some 58)
    (hlt : skipSpaces b (skipSpaces b next + 1) < b.length) :
    scanMember b s = scanKeyValue b s k (skipSpaces b (skipSpaces b next + 1)) := by
  simp [scanMember, hk, hcolon]; omega

/-- The key branch does the same when bytes are appended, once it has found
its value and the value is found again. -/
theorem scanMember_append {b : List Nat} (t : List Nat) (s : LoopState) {k : jsonTopLevelKey}
    {next j : Nat} (hk : scanTopLevelKey b s.i = (k, next, true))
    (hcolon : b[skipSpaces b next]? = some 58)
    (hlt : skipSpaces b (skipSpaces b next + 1) < b.length)
    (hv : scanJSONValueToken b (skipSpaces b (skipSpaces b next + 1)) =
      (some ⟨skipSpaces b (skipSpaces b next + 1), j⟩, j, true))
    (hc : j < b.length ∨
      (∃ c, b[skipSpaces b (skipSpaces b next + 1)]? = some c ∧ (c = 34 ∨ c = 123 ∨ c = 91)) ∨
      headSat isScalarEnd t = true) :
    scanMember (b ++ t) s = scanMember b s := by
  have hv' := scanJSONValueToken_append t hv hc
  have h1 := skipSpaces_append t (lt_of_getElem?_some hcolon)
  have h2 := skipSpaces_append t hlt
  have hkv := scanKeyValue_append t s k hv hv'
  have hcolon' : (b ++ t)[skipSpaces (b ++ t) next]? = some 58 := by
    rw [h1]; exact getElem?_append_some t hcolon
  have hlt' : skipSpaces (b ++ t) (skipSpaces (b ++ t) next + 1) < (b ++ t).length := by
    rw [h1, h2]; simp only [List.length_append]; omega
  rw [scanMember_eq hk hcolon hlt, scanMember_eq (scanTopLevelKey_append t hk) hcolon' hlt',
    h1, h2]
  exact hkv

theorem mainStep_nonkey (b b' : List Nat) (s : LoopState) (c : Nat)
    (h : ¬ (s.inStr = false ∧ c = 34 ∧ s.depth = 1)) : mainStep b' s c = mainStep b s c := by
  unfold mainStep
  repeat' split
  all_goals first
    | rfl
    | (exfalso; apply h; simp_all)

/-- The loop never stands at the head of an iteration with both `idRaw` and
`foundMethod` set: it has returned before. -/
theorem reach_unseen {b : List Nat} {s : LoopState} (hr : Reach b s) :
    ¬ (s.idRaw.isSome = true ∧ s.foundMethod = true) := by
  induction hr with
  | init => simp [initState]
  | step s s' c _ hc hstep ih =>
    rcases mainStep_cases b s c with ⟨s'', h1, -, h2, h3⟩ | ⟨-, -, -, hkey⟩
    · rw [h1] at hstep
      simp only [StepResult.next.injEq] at hstep
      subst hstep
      rw [h2, h3]; exact ih
    · rw [hkey] at hstep
      rcases scanMember_cases b s with hm | ⟨k, next, j, -, -, -, -, -, -, -, hm⟩
      · rw [hm] at hstep; cases hstep
      · rw [hm] at hstep
        obtain ⟨rfl, hun⟩ := finishKey_next hstep
        exact hun

theorem bytesContains_append {b pat : List Nat} (t : List Nat)
    (h : bytesContains b pat = true) : bytesContains (b ++ t) pat = true :=
  bytesContains_iff.2 ((bytesContains_iff.1 h).trans (List.prefix_append b t).isInfix)

/-- A run that returns an id and `true` returns the same when bytes are
appended, unless the id is a scalar that ran to the end of the buffer and
the appended bytes go on with it. -/
theorem mainLoop_append {b : List Nat} (t : List Nat) {v : Slice}
    (hc : v.hi < b.length ∨ (∃ c, b[v.lo]? = some c ∧ (c = 34 ∨ c = 123 ∨ c = 91)) ∨
      headSat isScalarEnd t = true)
    (n : Nat) (s : LoopState) (hr : Reach b s) (h : mainLoop b n s = .ret (some v) true) :
    run (b ++ t) s = .ret (some v) true := by
  induction n generalizing s with
  | zero => simp [mainLoop] at h
  | succ n ih =>
    simp only [mainLoop] at h
    rcases hg : b[s.i]? with _ | c
    · simp [hg] at h
    · simp only [hg] at h
      have hg' := getElem?_append_some t hg
      by_cases hkey : s.inStr = false ∧ c = 34 ∧ s.depth = 1
      · obtain ⟨hstr, h34, hd⟩ := hkey
        subst h34
        have hk1 : mainStep b s 34 = scanMember b s := by simp [mainStep, hstr, hd]
        have hk2 : mainStep (b ++ t) s 34 = scanMember (b ++ t) s := by
          simp [mainStep, hstr, hd]
        rw [hk1] at h
        rcases scanMember_cases b s with hm | ⟨k, next, j, hk, hcolon, hlt, hv, hvj, hj, hq, hm⟩
        · simp [hm] at h
        · rcases hfin : finishKey
              (keyUpdate b s k ⟨skipSpaces b (skipSpaces b next + 1), j⟩) j
            with s' | ⟨id, ok⟩ | _
          · -- the loop goes on: the value ended before the end of the buffer
            rw [hm, hfin] at h
            simp only at h
            obtain ⟨hs', -⟩ := finishKey_next hfin
            have hj1 : j - 1 + 1 = j := by omega
            have hlt' : j < b.length := by
              cases n with
              | zero => simp [mainLoop] at h
              | succ n =>
                simp only [mainLoop] at h
                rcases hg2 : b[s'.i]? with _ | c2
                · simp [hg2] at h
                · have := lt_of_getElem?_some hg2
                  rw [hs'] at this
                  simp only [hj1] at this
                  exact this
            have hsm := scanMember_append t s hk hcolon hlt hv (Or.inl hlt')
            rw [run_next hg' (hk2.trans (hsm.trans (hm.trans hfin)))]
            exact ih s' (Reach.step s s' 34 hr hg (hk1.trans (hm.trans hfin))) h
          · -- the loop returns: the last value scanned is the id or the method
            rw [hm, hfin] at h
            simp only [Outcome.ret.injEq] at h
            obtain ⟨rfl, rfl⟩ := h
            obtain ⟨hid, -, hsome, hfound⟩ := finishKey_ret hfin
            have hcond : j < b.length ∨
                (∃ c, b[skipSpaces b (skipSpaces b next + 1)]? = some c ∧
                  (c = 34 ∨ c = 123 ∨ c = 91)) ∨ headSat isScalarEnd t = true := by
              cases k with
              | jsonKeyOther =>
                exact absurd ⟨hsome, hfound⟩ (reach_unseen hr)
              | jsonKeyID =>
                simp only [keyUpdate, Option.some.injEq] at hid
                subst hid
                exact hc
              | jsonKeyMethod =>
                exact Or.inr (Or.inl ⟨34, (hq rfl).1, Or.inl rfl⟩)
            have hsm := scanMember_append t s hk hcolon hlt hv hcond
            exact run_ret hg' (hk2.trans (hsm.trans (hm.trans hfin)))
          · exact absurd hfin (finishKey_ne_panic _ _)
      · rw [← mainStep_nonkey b (b ++ t) s c hkey] at h
        rcases hstep : mainStep (b ++ t) s c with s' | ⟨id, ok⟩ | _
        · rw [hstep] at h
          simp only at h
          rw [run_next hg' hstep]
          exact ih s' (Reach.step s s' c hr hg ((mainStep_nonkey b (b ++ t) s c hkey).symm.trans
            hstep)) h
        · rw [hstep] at h
          simp only [Outcome.ret.injEq] at h
          obtain ⟨rfl, rfl⟩ := h
          exact run_ret hg' hstep
        · exact absurd hstep (mainStep_ne_panic _ _ _)

/-- Appending bytes keeps the result `(id, true)`, unless the id is a scalar
that ran to the end of the buffer and the appended bytes go on with it. -/
theorem fastMiningSubmitID_append {b : List Nat} (t : List Nat) {v : Slice}
    (h : fastMiningSubmitID b = .ret (some v) true)
    (hc : v.hi < b.length ∨ (∃ c, b[v.lo]? = some c ∧ (c = 34 ∨ c = 123 ∨ c = 91)) ∨
      headSat isScalarEnd t = true) :
    fastMiningSubmitID (b ++ t) = .ret (some v) true := by
  by_cases hpre : bytesContains b miningSubmit = true
  · rw [fastMiningSubmitID_eq_run (bytesContains_append t hpre)]
    rw [fastMiningSubmitID_eq_run hpre] at h
    exact mainLoop_append t hc _ initState Reach.init h
  · simp [fastMiningSubmitID, hpre] at h

/-! ## Recognition stops at the second of `id` and `method` -/

theorem submitWithId_eq (tok t : List Nat) :
    submitWithId tok t =
      [] ++ 123 :: ((idMemberOf tok).render ++ 44 :: (exMethod.render ++ t)) := by
  have h1 : bytesOf "\x7b\"id\": " = [123, 34, 105, 100, 34, 58, 32] := by decide
  have h2 : bytesOf " ,\"method\":\"mining.submit\"" =
      32 :: 44 :: exMethod.render := by decide
  simp [submitWithId, h1, h2, idMemberOf, Member.render, idKeyBytes]

/-- The request `{"id": tok ,"method":"mining.submit"` followed by any bytes:
the call returns the view of `tok`, and `true`. -/
theorem fastMiningSubmitID_submitWithId (tok t : List Nat) (htok : StringTok tok ∨ ScalarTok tok) :
    fastMiningSubmitID (submitWithId tok t) = .ret (some ⟨7, 7 + tok.length⟩) true ∧
      Slice.bytes (submitWithId tok t) ⟨7, 7 + tok.length⟩ = tok := by
  have hb := submitWithId_eq tok t
  have htoken : Token tok := by
    rcases htok with h | h
    · exact Or.inl h
    · exact Or.inr (Or.inr h)
  have hwf1 : (idMemberOf tok).WF :=
    member_wf_of_plain rfl rfl rfl rfl htoken rfl
  constructor
  · have hpre : bytesContains (submitWithId tok t) miningSubmit = true := by
      have : submitWithId tok t =
          (bytesOf "\x7b\"id\": " ++ (tok ++ bytesOf " ,\"method\":\"")) ++
            (miningSubmit ++ (34 :: t)) := by
        have h2 : bytesOf " ,\"method\":\"mining.submit\"" =
            bytesOf " ,\"method\":\"" ++ (miningSubmit ++ [34]) := by decide
        simp [submitWithId, h2]
      rw [this]
      exact bytesContains_mid _ _ _
    rw [fastMiningSubmitID_eq_run hpre, run_open hb (by decide)]
    rw [@run_member _ ([] ++ [123]) (44 :: (exMethod.render ++ t))
      { initState with i := ([] : List Nat).length + 1, depth := 1 } (idMemberOf tok)
      (by simp [hb]) (by simp) rfl rfl hwf1
      (endsBefore_post _ _ _ rfl rfl)]
    rw [memberStep_eval (show 92 ∉ idKeyBytes by decide)
      (show ¬ (classifyKey idKeyBytes = jsonKeyMethod ∧ _) from fun h => by
        have := h.1; revert this; decide)
      { initState with i := 1, depth := 1, idRaw := some ⟨7, 7 + tok.length⟩ }
      (by simp [memberUpdate, idMemberOf, classifyKey, initState, Member.valOffset, idKeyBytes])]
    simp only [initState, Bool.and_false, Bool.false_eq_true, if_false]
    rw [@run_comma _ ([] ++ 123 :: (idMemberOf tok).render) (exMethod.render ++ t) _
      (by simp [hb]) (by simp; omega) rfl]
    rw [@run_member _ ([] ++ 123 :: ((idMemberOf tok).render ++ [44])) t _ exMethod
      (by simp [hb]) (by simp; omega) rfl rfl exMethod_wf
      (fun h => by simp [ScalarTok, exMethod, miningSubmitTok, headSat] at h)]
    rw [memberStep_eval (by decide) (by decide)
      { i := 1 + (idMemberOf tok).render.length + 1, depth := 1, inStr := false, esc := false,
        foundMethod := true, methodOK := true, idRaw := some ⟨7, 7 + tok.length⟩ }
      (by simp [memberUpdate, exMethod, classifyKey, methodKeyBytes, idKeyBytes])]
    simp
  · rw [hb]
    exact @bytes_at _ ([] ++ 123 :: (34 :: (idKeyBytes ++ 34 :: ([] ++ 58 :: [32])))) tok
      (32 :: 44 :: (exMethod.render ++ t)) 7 (7 + tok.length)
      (by simp [idMemberOf, Member.render]) (by simp [idKeyBytes]) (by simp [idKeyBytes])

/-- The general statement of C8 fails: `{"method":"mining.submit","id":1`
yields the id `b[31:32]`, and with the byte `2` appended the id `b[31:33]`. -/
theorem fastMiningSubmitID_append_counterexample :
    fastMiningSubmitID exTruncated = .ret (some ⟨31, 32⟩) true ∧
      fastMiningSubmitID (exTruncated ++ [50]) = .ret (some ⟨31, 33⟩) true ∧
      fastMiningSubmitID (exTruncated ++ [50]) ≠ fastMiningSubmitID exTruncated := by
  decide

/-- C8, amended. Recognition stops as soon as both `id` and `method` have been
seen. First, for every well-formed string token or non-empty scalar `tok` and
every byte sequence `t`, the call on `{"id": tok ,"method":"mining.submit"`
followed by `t` returns the view of `tok` and `true`. Second, for all `b` and
`t`, if the call on `b` returns `(id, true)`, the call on `b ++ t` returns the
same, provided the id token ends before the end of `b`, or starts with a
quote, brace or bracket, or `t` is empty or starts with one of `,` `}` `]`
space tab CR LF. -/
theorem fastMiningSubmitID_stops_early :
    (∀ tok t : List Nat, StringTok tok ∨ ScalarTok tok →
      fastMiningSubmitID (submitWithId tok t) = .ret (some ⟨7, 7 + tok.length⟩) true ∧
        Slice.bytes (submitWithId tok t) ⟨7, 7 + tok.length⟩ = tok) ∧
    (∀ (b t : List Nat) (id : Option Slice), fastMiningSubmitID b = .ret id true →
      (∀ v, id = some v →
        v.hi < b.length ∨ (∃ c, b[v.lo]? = some c ∧ (c = 34 ∨ c = 123 ∨ c = 91)) ∨
          headSat isScalarEnd t = true) →
      fastMiningSubmitID (b ++ t) = .ret id true) := by
  constructor
  · exact fastMiningSubmitID_submitWithId
  · intro b t id h hc
    have hsome := (fastMiningSubmitID_seen h).2.2 rfl
    rcases id with _ | v
    · simp at hsome
    · exact fastMiningSubmitID_append t h (hc v rfl)

/-- Witness of C8: the id token `"a"` with the bytes `]]` behind the request;
and `{"method":"mining.submit","id":1` with `,` appended. -/
theorem fastMiningSubmitID_stops_early_witness :
    (fastMiningSubmitID (submitWithId [34, 97, 34] [93, 93]) = .ret (some ⟨7, 10⟩) true ∧
      Slice.bytes (submitWithId [34, 97, 34] [93, 93]) ⟨7, 10⟩ = [34, 97, 34]) ∧
    fastMiningSubmitID (exTruncated ++ [44]) = .ret (some ⟨31, 32⟩) true :=
  ⟨fastMiningSubmitID_stops_early.1 [34, 97, 34] [93, 93]
      (Or.inl ⟨[97], strBody_of_plain (by decide), rfl⟩),
    fastMiningSubmitID_stops_early.2 exTruncated [44] (some ⟨31, 32⟩) (by decide)
      (fun v hv => Or.inr (Or.inr (by decide)))⟩

/-! ## The worker pool -/

theorem processTask_ok {Task W R : Type} (f : Task → W → W × Option R) (id : Int)
    (task : Task) (st : WorkerState Task W R) :
    ∃ st', processTask f id task st = .ok st' ∧ st'.world = (f task st.world).1 ∧
      st'.calls = st.calls ++ [task] ∧
      st'.errors = st.errors ++ panicLog f id [task] st.world := by
  unfold processTask processTaskBody
  rcases hf : f task st.world with ⟨w, _ | r⟩
  · exact ⟨_, rfl, rfl, rfl, by simp [panicLog, hf]⟩
  · exact ⟨_, rfl, rfl, rfl, by simp [panicLog, hf]⟩

/-- C9. Fault isolation of the worker: whether or not `processSubmissionTask`
panics, `processTask` returns normally, having run `processSubmissionTask` on
the task and logged its panic, if any. So the worker loop, run over any
finite sequence of queued tasks, returns normally having run
`processSubmissionTask` on every task exactly once, in queue order: the world
it leaves is the one the tasks, processed one after the other, lead to, and
the log holds the panics of exactly the tasks that fail, in that order. -/
theorem worker_fault_isolation {Task W R : Type} (f : Task → W → W × Option R) (id : Int) :
    (∀ (task : Task) (st : WorkerState Task W R),
      ∃ st', processTask f id task st = .ok st' ∧ st'.world = (f task st.world).1 ∧
        st'.calls = st.calls ++ [task] ∧
        st'.errors = st.errors ++ panicLog f id [task] st.world) ∧
    (∀ (tasks : List Task) (st : WorkerState Task W R),
      ∃ st', worker f id tasks st = .ok st' ∧
        st'.world = tasks.foldl (fun w task => (f task w).1) st.world ∧
        st'.calls = st.calls ++ tasks ∧
        st'.errors = st.errors ++ panicLog f id tasks st.world) := by
  constructor
  · intro task st
    exact processTask_ok f id task st
  · intro tasks
    induction tasks with
    | nil => intro st; exact ⟨st, rfl, rfl, by simp, by simp [panicLog]⟩
    | cons task rest ih =>
      intro st
      obtain ⟨st1, h1, hw1, hc1, he1⟩ := processTask_ok f id task st
      obtain ⟨st2, h2, hw2, hc2, he2⟩ := ih st1
      refine ⟨st2, ?_, ?_, ?_, ?_⟩
      · simp only [worker, h1]; exact h2
      · rw [hw2, hw1]; rfl
      · rw [hc2, hc1]; simp
      · rw [he2, he1, hw1]
        simp [panicLog]

theorem wrapInt64_id {x : Int} (h1 : -(2 ^ 63) ≤ x) (h2 : x < 2 ^ 63) : wrapInt64 x = x := by
  unfold wrapInt64
  rw [Int.emod_eq_of_lt (by omega) (by omega)]
  omega

/-- C10. For every worker count `w ≥ 1` whose product with 32 does not
overflow, the queue depth is `max(w * multiplier, minDepth) = max(32 w, 128)`:
128 for `w` in 1..4 and `32 w` for `w ≥ 4`. -/
theorem submissionWorkerQueueDepth_eq (w : Int) (h1 : 1 ≤ w) (h2 : w * 32 < 2 ^ 63) :
    submissionWorkerQueueDepth w =
        max (w * submissionWorkerQueueMultiplier) submissionWorkerQueueMinDepth ∧
      submissionWorkerQueueDepth w = max (32 * w) 128 ∧
      (w ≤ 4 → submissionWorkerQueueDepth w = 128) ∧
      (4 ≤ w → submissionWorkerQueueDepth w = 32 * w) := by
  have hw : wrapInt64 (w * 32) = w * 32 := wrapInt64_id (by omega) h2
  have hd : submissionWorkerQueueDepth w = if w * 32 < 128 then 128 else w * 32 := by
    simp only [submissionWorkerQueueDepth, submissionWorkerQueueMultiplier,
      submissionWorkerQueueMinDepth, hw]
  simp only [submissionWorkerQueueMultiplier, submissionWorkerQueueMinDepth]
  refine ⟨?_, ?_, ?_, ?_⟩
  · rw [hd]; split <;> omega
  · rw [hd]; split <;> omega
  · intro h; rw [hd]; split <;> omega
  · intro h; rw [hd]; split <;> omega

/-- Witness of C10: one worker yields the floor 128, ten workers yield 320. -/
theorem submissionWorkerQueueDepth_eq_witness :
    submissionWorkerQueueDepth 1 = 128 ∧ submissionWorkerQueueDepth 10 = 320 :=
  ⟨(submissionWorkerQueueDepth_eq 1 (by decide) (by decide)).2.2.1 (by decide),
    ((submissionWorkerQueueDepth_eq 10 (by decide) (by decide)).2.2.2 (by decide)).trans
      (by decide)⟩

/-- Witness of C9: three tasks of which the second panics, with a world that
records the tasks processed. All three are processed, once each and in
order, and the one panic is logged. -/
theorem worker_fault_isolation_witness :
    ∃ st', worker (fun (t : Nat) (w : List Nat) => (w ++ [t], if t = 2 then some t else none))
        7 [1, 2, 3] ⟨[], [], []⟩ = .ok st' ∧
      st'.world = [1, 2, 3] ∧ st'.calls = [1, 2, 3] ∧ st'.errors = [(7, 2)] := by
  obtain ⟨st', h1, h2, h3, h4⟩ := (worker_fault_isolation
    (fun (t : Nat) (w : List Nat) => (w ++ [t], if t = 2 then some t else none)) 7).2
    [1, 2, 3] ⟨[], [], []⟩
  exact ⟨st', h1, h2, h3, h4⟩

/-! ## Evaluations -/

/-- C7 fails on the code: a key that holds an escape sequence is not skipped
over but aborts the scan. The well-formed submit request
`{"a\nb":1,"id":1,"method":"mining.submit"}` yields `(nil, false)`, because
`scanTopLevelKey` hands back the index 4 behind the backslash, where the byte
`n` stands and no colon; without that member the id `1` is returned. The same
holds for every well-formed object whose first member has such a key. -/
theorem fastMiningSubmitID_escaped_key_aborts :
    (fastMiningSubmitID exEscapedKey = .ret none false ∧
      scanTopLevelKey exEscapedKey 1 = (jsonKeyOther, 4, true) ∧
      exEscapedKey[4]? = some 110 ∧
      fastMiningSubmitID (bytesOf "\x7b\"id\":1,\"method\":\"mining.submit\"\x7d") =
        .ret (some ⟨6, 7⟩) true) ∧
    (∀ (lead inner trail : List Nat) (m : Member) (ms : List Member),
      allSpace lead = true → (∀ x ∈ m :: ms, x.WF) → 92 ∈ m.key →
      fastMiningSubmitID (renderObject lead inner (m :: ms) trail) = .ret none false) := by
  refine ⟨by decide, ?_⟩
  intro lead inner trail m ms hlead hwf hesc
  by_cases hpre : bytesContains (renderObject lead inner (m :: ms) trail) miningSubmit = true
  · rw [fastMiningSubmitID_eq_run hpre,
      run_object (renderObject_cons lead inner trail m ms) hlead hwf]
    simp [walkObject, memberStep, hesc]
  · simp [fastMiningSubmitID, hpre]

/-- The table of the source's test `TestFastMiningSubmitID`, evaluated on the
embedding: ids `1`, `42`, `"abc"`, `null`, `7`, and the request that is not a
submit. -/
theorem fastMiningSubmitID_source_tests :
    fastMiningSubmitID exSubmit = .ret (some ⟨6, 7⟩) true ∧
      fastMiningSubmitID
          (bytesOf "\x7b\"method\":\"mining.submit\",\"params\":[],\"id\":42\x7d") =
        .ret (some ⟨43, 45⟩) true ∧
      fastMiningSubmitID
          (bytesOf "\x7b\"id\":\"abc\",\"method\":\"mining.submit\",\"params\":[]\x7d") =
        .ret (some ⟨6, 11⟩) true ∧
      fastMiningSubmitID
          (bytesOf "\x7b\"id\":null,\"method\":\"mining.submit\",\"params\":[]\x7d") =
        .ret (some ⟨6, 10⟩) true ∧
      fastMiningSubmitID
          (bytesOf "\x7b \"method\" : \"mining.submit\" , \"id\" : 7 , \"params\" : [] \x7d") =
        .ret (some ⟨38, 39⟩) true ∧
      fastMiningSubmitID
          (bytesOf "\x7b\"id\":1,\"method\":\"mining.ping\",\"params\":[]\x7d") =
        .ret none false := by
  decide

/-! ## Every JSON text of RFC 8259 is covered -/

theorem items_append {a b : List Nat} (ha : Items a) (hb : Items b) : Items (a ++ b) := by
  induction ha with
  | nil => simpa using hb
  | inert c t hc _ ih => exact Items.inert c _ hc ih
  | str body t hbody _ ih =>
    have := Items.str body (t ++ b) hbody ih
    simpa using this
  | nest o inner c t ho hi hc _ _ ih2 =>
    have := Items.nest o inner c (t ++ b) ho hi hc ih2
    simpa using this

theorem isInert_of_isSpace {c : Nat} (h : isSpace c = true) : isInert c = true := by
  have := isSpace_iff.1 h
  exact isInert_iff.2 (by omega)

theorem items_of_space {ws : List Nat} (h : allSpace ws = true) : Items ws := by
  apply items_of_inert
  simp only [allSpace, List.all_eq_true] at h ⊢
  exact fun c hc => isInert_of_isSpace (h c hc)

theorem jchars_strBody {t : List Nat} (h : JChars t) : StrBody t := by
  induction h with
  | nil => exact StrBody.nil
  | plain c t _ hc _ ih => exact StrBody.plain c t hc ih
  | escape c t _ _ ih => exact StrBody.escaped c t ih
  | unicode h1 h2 h3 h4 t _ _ _ _ _ ih =>
    have hplain : ∀ h, isHexDigit h = true → isPlain h = true := by
      intro h hh
      simp only [isHexDigit, isDigit, Bool.or_eq_true, Bool.and_eq_true, decide_eq_true_eq] at hh
      exact isPlain_iff.2 (by omega)
    exact StrBody.escaped 117 _ (StrBody.plain h1 _ (hplain h1 ‹_›)
      (StrBody.plain h2 _ (hplain h2 ‹_›)
        (StrBody.plain h3 _ (hplain h3 ‹_›) (StrBody.plain h4 _ (hplain h4 ‹_›) ih))))

theorem jchars_keyBody {t : List Nat} (h : JChars t) : KeyBody t := by
  induction h with
  | nil => exact KeyBody.nil
  | plain c t _ hc _ ih => exact KeyBody.plain c t hc ih
  | escape c t hc _ ih =>
    refine KeyBody.escaped c t ?_ ih
    simp only [isSimpleEscape, Bool.or_eq_true, decide_eq_true_eq] at hc
    exact isEscapeChar_iff.2 (by omega)
  | unicode h1 h2 h3 h4 t hh1 hh2 hh3 hh4 _ ih =>
    have hplain : ∀ h, isHexDigit h = true → isPlain h = true := by
      intro h hh
      simp only [isHexDigit, isDigit, Bool.or_eq_true, Bool.and_eq_true, decide_eq_true_eq] at hh
      exact isPlain_iff.2 (by omega)
    exact KeyBody.escaped 117 _ (by decide) (KeyBody.plain h1 _ (hplain h1 hh1)
      (KeyBody.plain h2 _ (hplain h2 hh2) (KeyBody.plain h3 _ (hplain h3 hh3)
        (KeyBody.plain h4 _ (hplain h4 hh4) ih))))

theorem isNumberByte_of_isDigit {c : Nat} (h : isDigit c = true) : isNumberByte c = true := by
  simp [isNumberByte, h]

theorem all_numberByte_of_digits {ds : List Nat} (h : ds.all isDigit = true) :
    ds.all isNumberByte = true := by
  simp only [List.all_eq_true] at h ⊢
  exact fun c hc => isNumberByte_of_isDigit (h c hc)

theorem isNumberByte_facts {c : Nat} (h : isNumberByte c = true) :
    isInert c = true ∧ isScalarEnd c = false := by
  simp only [isNumberByte, isDigit, Bool.or_eq_true, Bool.and_eq_true, decide_eq_true_eq] at h
  refine ⟨isInert_iff.2 (by omega), ?_⟩
  cases hs : isScalarEnd c with
  | false => rfl
  | true => have := isScalarEnd_iff.1 hs; omega

/-- A number is a non-empty run of number bytes that starts with a minus sign
or a digit. -/
theorem jnumber_bytes {v : List Nat} (h : JNumber v) :
    v.all isNumberByte = true ∧ ∃ c t, v = c :: t ∧ (c = 45 ∨ isDigit c = true) := by
  obtain ⟨sg, n, f, e, hsg, hn, hf, he, rfl⟩ := h
  have h1 : sg.all isNumberByte = true := by
    rcases hsg with rfl | rfl <;> decide
  have h2 : n.all isNumberByte = true ∧ ∃ c t, n = c :: t ∧ isDigit c = true := by
    rcases hn with rfl | ⟨d, ds, hd1, hd2, hds, rfl⟩
    · exact ⟨by decide, 48, [], rfl, by decide⟩
    · have hd : isDigit d = true := by
        simp only [isDigit, Bool.and_eq_true, decide_eq_true_eq]; omega
      exact ⟨by simp [isNumberByte_of_isDigit hd, all_numberByte_of_digits hds], d, ds, rfl, hd⟩
  have h3 : f.all isNumberByte = true := by
    rcases hf with rfl | ⟨ds, ⟨-, hds⟩, rfl⟩
    · rfl
    · simp only [List.all_cons, all_numberByte_of_digits hds, Bool.and_true]; decide
  have h4 : e.all isNumberByte = true := by
    rcases he with rfl | ⟨c, s, ds, hc, hs, ⟨-, hds⟩, rfl⟩
    · rfl
    · have hc' : isNumberByte c = true := by rcases hc with rfl | rfl <;> decide
      have hs' : s.all isNumberByte = true := by rcases hs with rfl | rfl | rfl <;> decide
      simp [hc', hs', all_numberByte_of_digits hds]
  refine ⟨by simp [h1, h2.1, h3, h4], ?_⟩
  obtain ⟨c, t, rfl, hc⟩ := h2.2
  rcases hsg with rfl | rfl
  · exact ⟨c, _, rfl, Or.inr hc⟩
  · exact ⟨45, _, rfl, Or.inl rfl⟩

theorem jnumber_shape {v : List Nat} (h : JNumber v) : Items v ∧ Token v := by
  obtain ⟨hall, c, t, rfl, hc⟩ := jnumber_bytes h
  simp only [List.all_eq_true] at hall
  refine ⟨items_of_inert ?_, token_of_scalar ⟨by simp, ?_, ?_⟩⟩
  · simp only [List.all_eq_true]
    exact fun x hx => (isNumberByte_facts (hall x hx)).1
  · simp only [List.all_eq_true, Bool.not_eq_true']
    exact fun x hx => (isNumberByte_facts (hall x hx)).2
  · have hi := isInert_iff.1 (isNumberByte_facts (hall c (by simp))).1
    simp only [headSat, Bool.and_eq_true, bne_iff_ne, ne_eq, Bool.not_eq_true']
    refine ⟨hi.1, ?_⟩
    cases ho : isOpen c with
    | false => rfl
    | true => have := isOpen_iff.1 ho; omega

theorem renderTail_of_ne_nil {ms : List Member} (h : ms ≠ []) :
    renderTail ms = 44 :: renderBody [] ms := by
  cases ms with
  | nil => exact absurd rfl h
  | cons m ms => rfl

/-- Every JSON text of RFC 8259 is covered by the token grammar: a value is a
`Token`, and the members of an object, with whitespace around them, are the
text of a list of well-formed members. -/
theorem json_shape {k : JKind} {t : List Nat} (h : Json k t) : JsonShape k t := by
  induction h with
  | litTrue => exact ⟨items_of_inert (by decide), token_of_scalar ⟨by decide, by decide, by decide⟩⟩
  | litFalse =>
    exact ⟨items_of_inert (by decide), token_of_scalar ⟨by decide, by decide, by decide⟩⟩
  | litNull => exact ⟨items_of_inert (by decide), token_of_scalar ⟨by decide, by decide, by decide⟩⟩
  | number v hv => exact jnumber_shape hv
  | string body hb =>
    exact ⟨Items.str body [] (jchars_strBody hb) Items.nil, Or.inl ⟨body, jchars_strBody hb, rfl⟩⟩
  | emptyArray ws hws =>
    exact ⟨Items.nest 91 ws 93 [] (by decide) (items_of_space hws) (by decide) Items.nil,
      token_of_compound 91 ws 93 (by decide) (items_of_space hws) (by decide)⟩
  | array ws1 els ws2 h1 _ h2 ih =>
    have hin : Items (ws1 ++ (els ++ ws2)) :=
      items_append (items_of_space h1) (items_append ih (items_of_space h2))
    have heq : 91 :: (ws1 ++ (els ++ (ws2 ++ [93]))) = 91 :: ((ws1 ++ (els ++ ws2)) ++ [93]) := by
      simp
    rw [heq]
    exact ⟨Items.nest 91 _ 93 [] (by decide) hin (by decide) Items.nil,
      token_of_compound 91 _ 93 (by decide) hin (by decide)⟩
  | emptyObject ws hws =>
    exact ⟨Items.nest 123 ws 125 [] (by decide) (items_of_space hws) (by decide) Items.nil,
      token_of_compound 123 ws 125 (by decide) (items_of_space hws) (by decide)⟩
  | object ws1 mems ws2 h1 _ h2 ih =>
    have hin : Items (ws1 ++ (mems ++ ws2)) :=
      items_append (items_of_space h1) (items_append ih.1 (items_of_space h2))
    have heq : 123 :: (ws1 ++ (mems ++ (ws2 ++ [125]))) =
        123 :: ((ws1 ++ (mems ++ ws2)) ++ [125]) := by simp
    rw [heq]
    exact ⟨Items.nest 123 _ 125 [] (by decide) hin (by decide) Items.nil,
      token_of_compound 123 _ 125 (by decide) hin (by decide)⟩
  | elemOne v _ ih => exact ih.1
  | elemCons v ws1 ws2 rest _ h1 h2 _ ihv ihr =>
    exact items_append ihv.1 (items_append (items_of_space h1)
      (Items.inert 44 _ (by decide) (items_append (items_of_space h2) ihr)))
  | memOne key ws1 ws2 v hk h1 h2 _ ih =>
    have hitems : Items (34 :: (key ++ 34 :: (ws1 ++ 58 :: (ws2 ++ v)))) :=
      Items.str key _ (jchars_strBody hk)
        (items_append (items_of_space h1)
          (Items.inert 58 _ (by decide) (items_append (items_of_space h2) ih.1)))
    refine ⟨hitems, ?_⟩
    intro wa wb ha hb
    refine ⟨[⟨wa, key, ws1, ws2, v, wb⟩], by simp, ?_, ?_⟩
    · exact forall_mem_cons ⟨ha, jchars_keyBody hk, h1, h2, ih.2, hb⟩ forall_mem_nil
    · simp [renderBody, renderTail, Member.render]
  | memCons key ws1 ws2 v ws3 ws4 rest hk h1 h2 _ h3 h4 _ ihv ihr =>
    have hitems : Items (34 :: (key ++ 34 :: (ws1 ++ 58 :: (ws2 ++ (v ++ (ws3 ++ 44 ::
        (ws4 ++ rest))))))) :=
      Items.str key _ (jchars_strBody hk)
        (items_append (items_of_space h1)
          (Items.inert 58 _ (by decide) (items_append (items_of_space h2)
            (items_append ihv.1 (items_append (items_of_space h3)
              (Items.inert 44 _ (by decide) (items_append (items_of_space h4) ihr.1)))))))
    refine ⟨hitems, ?_⟩
    intro wa wb ha hb
    obtain ⟨ms, hne, hwf, heq⟩ := ihr.2 ws4 wb h4 hb
    refine ⟨⟨wa, key, ws1, ws2, v, ws3⟩ :: ms, by simp, ?_, ?_⟩
    · exact forall_mem_cons ⟨ha, jchars_keyBody hk, h1, h2, ihv.2, h3⟩ hwf
    · rw [show renderBody [] (⟨wa, key, ws1, ws2, v, ws3⟩ :: ms) =
        (⟨wa, key, ws1, ws2, v, ws3⟩ : Member).render ++ renderTail ms from rfl,
        renderTail_of_ne_nil hne, ← heq]
      simp [Member.render]

/-- Every JSON value of RFC 8259 is a `Token`. -/
theorem json_value_token {v : List Nat} (h : Json .value v) : Token v := (json_shape h).2

/-- Every JSON object text of RFC 8259 is the text of a list of well-formed
members between braces. -/
theorem jsonObject_render {text : List Nat} (h : JsonObject text) :
    ∃ lead inner ms trail, allSpace lead = true ∧ allSpace inner = true ∧
      allSpace trail = true ∧ (∀ m ∈ ms, m.WF) ∧ text = renderObject lead inner ms trail := by
  cases h with
  | empty lead ws trail h1 h2 h3 =>
    exact ⟨lead, ws, [], trail, h1, h2, h3, forall_mem_nil, rfl⟩
  | full lead ws1 mems ws2 trail h1 h2 hm h3 h4 =>
    obtain ⟨ms, hne, hwf, heq⟩ := (json_shape hm).2 ws1 ws2 h2 h3
    refine ⟨lead, [], ms, trail, h1, rfl, h4, hwf, ?_⟩
    cases ms with
    | nil => exact absurd rfl hne
    | cons m ms =>
      simp only [renderObject]
      rw [show renderBody [] (m :: ms) = ws1 ++ (mems ++ ws2) from heq.symm]
      simp

/-- Every JSON value starts with a quote, a minus sign, a digit, a brace, a
bracket or one of the letters `t`, `f`, `n`. -/
theorem json_value_start {v : List Nat} (h : Json .value v) :
    ∃ c t, v = c :: t ∧ isJSONValueStart c = true := by
  cases h with
  | litTrue => exact ⟨_, _, rfl, by decide⟩
  | litFalse => exact ⟨_, _, rfl, by decide⟩
  | litNull => exact ⟨_, _, rfl, by decide⟩
  | number hv =>
    rename_i hnum
    obtain ⟨-, c, t, rfl, hc⟩ := jnumber_bytes hnum
    refine ⟨c, t, rfl, ?_⟩
    rcases hc with rfl | hc
    · decide
    · simp only [isDigit, Bool.and_eq_true, decide_eq_true_eq] at hc
      simp [isJSONValueStart, hc.1, hc.2]
  | string body hb => exact ⟨_, _, rfl, by decide⟩
  | emptyArray ws hws => exact ⟨_, _, rfl, by decide⟩
  | array ws1 els ws2 h1 _ h2 => exact ⟨_, _, rfl, by decide⟩
  | emptyObject ws hws => exact ⟨_, _, rfl, by decide⟩
  | object ws1 mems ws2 h1 _ h2 => exact ⟨_, _, rfl, by decide⟩

/-- C5 fails on the code: on `{"id":x,"method":"mining.submit"}` the call
returns `ok = true` and the id token `x`, which is no JSON value of RFC 8259
(no JSON value starts with the byte `x`), so the response that embeds it is not
JSON. -/
theorem fastMiningSubmitID_id_not_json :
    fastMiningSubmitID exBadId = .ret (some ⟨6, 7⟩) true ∧
      Slice.bytes exBadId ⟨6, 7⟩ = [120] ∧ ¬ Json .value [120] := by
  refine ⟨by decide, by decide, ?_⟩
  intro h
  obtain ⟨c, t, hct, hc⟩ := json_value_start h
  simp only [List.cons.injEq] at hct
  obtain ⟨rfl, -⟩ := hct
  exact absurd hc (by decide)

/-! ## Building the pool -/

theorem startWorkers_eq (workerCount : Int) (n : Nat) (i : Int) (started : List Int)
    (hn : (workerCount - i).toNat = n) :
    startWorkers workerCount i started =
      started ++ (List.range n).map (fun k => i + Int.ofNat k) := by
  induction n generalizing i started with
  | zero =>
    rw [startWorkers, if_neg (by omega)]
    simp
  | succ n ih =>
    rw [startWorkers, if_pos (by omega), ih (i + 1) (started ++ [i]) (by omega)]
    simp [List.range_succ_eq_map, Function.comp_def]
    intro a _
    ring

theorem startWorkers_length (workerCount : Int) (h : 0 ≤ workerCount) :
    ((startWorkers workerCount 0 []).length : Int) = workerCount := by
  rw [startWorkers_eq workerCount workerCount.toNat 0 [] (by simp)]
  simp [h]

theorem submissionWorkerQueueDepth_min (w : Int) :
    submissionWorkerQueueMinDepth ≤ submissionWorkerQueueDepth w := by
  simp only [submissionWorkerQueueDepth]
  split
  · exact le_refl _
  · omega

/-- The source's test `TestNormalizeWorkerCount`. -/
theorem normalizeWorkerCount_source_tests :
    normalizeWorkerCount 0 = 1 ∧ normalizeWorkerCount (-5) = 1 ∧ normalizeWorkerCount 3 = 3 := by
  decide

/-- C11. For every integer `n`, `normalizeWorkerCount n` is 1 when `n ≤ 0` and
`n` otherwise; the result is at least 1, and normalising twice is normalising
once. -/
theorem normalizeWorkerCount_spec (n : Int) :
    normalizeWorkerCount n = (if n ≤ 0 then 1 else n) ∧
    (n ≤ 0 → normalizeWorkerCount n = 1) ∧
    (0 < n → normalizeWorkerCount n = n) ∧
    1 ≤ normalizeWorkerCount n ∧
    normalizeWorkerCount (normalizeWorkerCount n) = normalizeWorkerCount n := by
  simp only [normalizeWorkerCount]
  by_cases h : n ≤ 0
  · simp [h]
  · have h1 : ¬ n ≤ 0 := h
    simp [h]
    omega

theorem makeChan_some {elemSize maxMem : Nat} {n : Int} (h0 : 0 ≤ n)
    (h1 : (elemSize : Int) * n ≤ (maxMem : Int)) : makeChan elemSize maxMem n = some n := by
  simp only [makeChan]
  rw [if_neg (by omega)]

theorem makeChan_none {elemSize maxMem : Nat} {n : Int}
    (h : n < 0 ∨ (maxMem : Int) < (elemSize : Int) * n) : makeChan elemSize maxMem n = none := by
  simp only [makeChan]
  rw [if_pos h]

/-- What `newSubmissionWorkerPool` does, on every platform and for every
worker count: `make` is called with the capacity
`submissionWorkerQueueDepth (normalizeWorkerCount workerCount)`; the call
panics exactly when that many tasks exceed the run-time's limit; otherwise the
pool has this capacity and the workers `0, 1, ...`, as many as the normalised
count. -/
theorem newSubmissionWorkerPool_eq (elemSize maxMem : Nat) (w : Int) :
    newSubmissionWorkerPool elemSize maxMem w =
      if (maxMem : Int) <
          (elemSize : Int) * submissionWorkerQueueDepth (normalizeWorkerCount w) then none
      else some (submissionWorkerPool.mk (submissionWorkerQueueDepth (normalizeWorkerCount w))
        ((List.range (normalizeWorkerCount w).toNat).map Int.ofNat)) := by
  have hd := submissionWorkerQueueDepth_min (normalizeWorkerCount w)
  simp only [submissionWorkerQueueMinDepth] at hd
  by_cases hlt : (maxMem : Int) <
      (elemSize : Int) * submissionWorkerQueueDepth (normalizeWorkerCount w)
  · rw [if_pos hlt]
    unfold newSubmissionWorkerPool
    simp only []
    rw [makeChan_none (Or.inr hlt)]
  · rw [if_neg hlt]
    have hs := @makeChan_some elemSize maxMem
      (submissionWorkerQueueDepth (normalizeWorkerCount w)) (by omega) (not_lt.1 hlt)
    unfold newSubmissionWorkerPool
    simp only []
    rw [hs, startWorkers_eq _ (normalizeWorkerCount w).toNat 0 [] (by simp)]
    simp

/-- C12. With `g` the value of `runtime.GOMAXPROCS(0)`:
`defaultSubmissionWorkerCount` gives `g` when `g > 0` and 1 otherwise; the
count is at least 1; `normalizeWorkerCount` leaves it as it is; and
`newSubmissionWorkerPool` called with it, wherever `make` grants the queue
(always for a count below `2^31`, as `GOMAXPROCS` gives, with tasks of at most
2048 bytes and a limit of at least `2^47` bytes), starts the workers with the
ids `0, 1, ...`, exactly as many as the count, and gives the channel the
capacity `submissionWorkerQueueDepth` of the count. -/
theorem newSubmissionWorkerPool_default (g : Int) :
    defaultSubmissionWorkerCount g = (if g > 0 then g else 1) ∧
    1 ≤ defaultSubmissionWorkerCount g ∧
    normalizeWorkerCount (defaultSubmissionWorkerCount g) = defaultSubmissionWorkerCount g ∧
    (∀ elemSize maxMem : Nat,
      (elemSize : Int) * submissionWorkerQueueDepth (defaultSubmissionWorkerCount g) ≤ maxMem →
      ∃ pool, newSubmissionWorkerPool elemSize maxMem (defaultSubmissionWorkerCount g) =
          some pool ∧
        (pool.workers.length : Int) = defaultSubmissionWorkerCount g ∧
        pool.workers = (List.range (defaultSubmissionWorkerCount g).toNat).map Int.ofNat ∧
        pool.tasksCap = submissionWorkerQueueDepth (defaultSubmissionWorkerCount g)) ∧
    (∀ elemSize maxMem : Nat, g < 2 ^ 31 → elemSize ≤ 2048 → 2 ^ 47 ≤ maxMem →
      (elemSize : Int) * submissionWorkerQueueDepth (defaultSubmissionWorkerCount g) ≤ maxMem) := by
  have h1 : 1 ≤ defaultSubmissionWorkerCount g := by
    simp only [defaultSubmissionWorkerCount]; split <;> omega
  have h2 : normalizeWorkerCount (defaultSubmissionWorkerCount g) =
      defaultSubmissionWorkerCount g := by
    simp only [normalizeWorkerCount]; rw [if_neg (by omega)]
  refine ⟨rfl, h1, h2, fun elemSize maxMem hle => ?_, fun elemSize maxMem hg he hm => ?_⟩
  · refine ⟨⟨submissionWorkerQueueDepth (defaultSubmissionWorkerCount g),
      (List.range (defaultSubmissionWorkerCount g).toNat).map Int.ofNat⟩, ?_, ?_, rfl, rfl⟩
    · rw [newSubmissionWorkerPool_eq, h2, if_neg (not_lt.2 hle)]
    · simp only [List.length_map, List.length_range]
      omega
  · have hc : defaultSubmissionWorkerCount g < 2 ^ 31 := by
      simp only [defaultSubmissionWorkerCount]; split <;> omega
    have hq := (submissionWorkerQueueDepth_eq (defaultSubmissionWorkerCount g) h1
      (by omega)).2.1
    have hd : submissionWorkerQueueDepth (defaultSubmissionWorkerCount g) ≤ 2 ^ 36 := by
      rw [hq]; omega
    have hd0 := submissionWorkerQueueDepth_min (defaultSubmissionWorkerCount g)
    simp only [submissionWorkerQueueMinDepth] at hd0
    have he' : (elemSize : Int) ≤ 2048 := by exact_mod_cast he
    have hm' : (2 : Int) ^ 47 ≤ (maxMem : Int) := by exact_mod_cast hm
    calc (elemSize : Int) * submissionWorkerQueueDepth (defaultSubmissionWorkerCount g)
        ≤ 2048 * 2 ^ 36 := Int.mul_le_mul he' hd (by omega) (by omega)
      _ ≤ (maxMem : Int) := by omega

/-- The source's test `TestDefaultSubmissionWorkerCountUsesGOMAXPROCS`, and the
pool built for two threads with tasks of 264 bytes and a limit of `2^47`
bytes; for `2^40` workers `make` panics there. -/
theorem newSubmissionWorkerPool_two :
    defaultSubmissionWorkerCount 2 = 2 ∧
    newSubmissionWorkerPool 264 (2 ^ 47) (defaultSubmissionWorkerCount 2) =
      some ⟨128, [0, 1]⟩ ∧
    newSubmissionWorkerPool 264 (2 ^ 47) (2 ^ 40) = none := by
  refine ⟨by decide, ?_, ?_⟩
  · rw [newSubmissionWorkerPool_eq]
    have h : defaultSubmissionWorkerCount 2 = 2 := by decide
    have hn : normalizeWorkerCount 2 = 2 := by decide
    have hd : submissionWorkerQueueDepth 2 = 128 := by decide
    rw [h, hn, hd, if_neg (by decide)]
    simp [List.range_succ]
  · rw [newSubmissionWorkerPool_eq]
    have hn : normalizeWorkerCount (2 ^ 40) = 2 ^ 40 := by decide
    have hd : submissionWorkerQueueDepth (2 ^ 40) = 2 ^ 45 := by decide
    rw [hn, hd, if_pos (by decide)]

/-- C20. The queue is never shorter than `submissionWorkerQueueMinDepth = 128`,
whatever the worker count: zero, negative, or so large that the product with
32 wraps around in 64 bits (`2^58 * 32` wraps to `-2^63`, and the depth is
128). So the capacity `newSubmissionWorkerPool` passes to `make`, the depth
of the normalised count, is never negative or zero: `make` panics only where
that many tasks exceed the run-time's limit, and a pool that is built has
this capacity, at least 128. Where the product does not overflow, more
workers never give a shorter queue. -/
theorem submissionWorkerQueueDepth_floor :
    (∀ w : Int, submissionWorkerQueueMinDepth ≤ submissionWorkerQueueDepth w ∧
      128 ≤ submissionWorkerQueueDepth w ∧ 0 < submissionWorkerQueueDepth w) ∧
    submissionWorkerQueueMinDepth = 128 ∧
    submissionWorkerQueueDepth 0 = 128 ∧ submissionWorkerQueueDepth (-7) = 128 ∧
    wrapInt64 (2 ^ 58 * 32) = -(2 ^ 63) ∧ submissionWorkerQueueDepth (2 ^ 58) = 128 ∧
    submissionWorkerQueueDepth (2 ^ 59 + 5) = 160 ∧
    (∀ (elemSize maxMem : Nat) (w : Int),
      newSubmissionWorkerPool elemSize maxMem w =
        (makeChan elemSize maxMem
          (submissionWorkerQueueDepth (normalizeWorkerCount w))).map
          (fun tasks => ⟨tasks, startWorkers (normalizeWorkerCount w) 0 []⟩) ∧
      (makeChan elemSize maxMem (submissionWorkerQueueDepth (normalizeWorkerCount w)) = none ↔
        (maxMem : Int) <
          (elemSize : Int) * submissionWorkerQueueDepth (normalizeWorkerCount w)) ∧
      (∀ pool, newSubmissionWorkerPool elemSize maxMem w = some pool →
        pool.tasksCap = submissionWorkerQueueDepth (normalizeWorkerCount w) ∧
          128 ≤ pool.tasksCap ∧ 0 < pool.tasksCap)) ∧
    (∀ w1 w2 : Int, w1 ≤ w2 → -(2 ^ 63) ≤ w1 * 32 → w2 * 32 < 2 ^ 63 →
      submissionWorkerQueueDepth w1 ≤ submissionWorkerQueueDepth w2) := by
  refine ⟨fun w => ?_, rfl, by decide, by decide, by decide, by decide, by decide,
    fun elemSize maxMem w => ⟨?_, ?_, ?_⟩, ?_⟩
  · have h := submissionWorkerQueueDepth_min w
    simp only [submissionWorkerQueueMinDepth] at h
    exact ⟨submissionWorkerQueueDepth_min w, h, by omega⟩
  · unfold newSubmissionWorkerPool
    simp only []
    generalize makeChan elemSize maxMem
      (submissionWorkerQueueDepth (normalizeWorkerCount w)) = m
    cases m <;> rfl
  · have h := submissionWorkerQueueDepth_min (normalizeWorkerCount w)
    simp only [submissionWorkerQueueMinDepth] at h
    constructor
    · intro hn
      by_contra hle
      rw [makeChan_some (by omega) (not_lt.1 hle)] at hn
      cases hn
    · intro hlt
      exact makeChan_none (Or.inr hlt)
  · intro pool hp
    have h := submissionWorkerQueueDepth_min (normalizeWorkerCount w)
    simp only [submissionWorkerQueueMinDepth] at h
    rw [newSubmissionWorkerPool_eq] at hp
    by_cases hlt : (maxMem : Int) <
        (elemSize : Int) * submissionWorkerQueueDepth (normalizeWorkerCount w)
    · rw [if_pos hlt] at hp
      cases hp
    · rw [if_neg hlt] at hp
      simp only [Option.some.injEq] at hp
      subst hp
      exact ⟨rfl, h, show (0 : Int) < submissionWorkerQueueDepth (normalizeWorkerCount w) by
        omega⟩
  · intro w1 w2 h12 hlo hhi
    have e1 : wrapInt64 (w1 * 32) = w1 * 32 := wrapInt64_id hlo (by omega)
    have e2 : wrapInt64 (w2 * 32) = w2 * 32 := wrapInt64_id (by omega) hhi
    simp only [submissionWorkerQueueDepth, submissionWorkerQueueMultiplier,
      submissionWorkerQueueMinDepth, e1, e2]
    split <;> split <;> omega

/-! ## Value tokens -/

/-- C16. Value tokens are captured verbatim: a well-formed JSON value `v`
(RFC 8259: a string with any escapes, a number, a literal, an array or object
nested to any depth) that stands behind any bytes `p` and before any bytes `r`
(behind a scalar: nothing, or one of `,` `}` `]` space tab CR LF first) is
returned whole by `scanJSONValueToken`: the view from `len(p)` to
`len(p) + len(v)`, whose bytes are `v`, quotes and closing delimiter
included, and the index right behind the token. -/
theorem scanJSONValueToken_verbatim (p v r : List Nat) (hv : Json .value v)
    (hr : isScalarValue v = true → headSat isScalarEnd r = true) :
    scanJSONValueToken (p ++ v ++ r) p.length =
      (some ⟨p.length, p.length + v.length⟩, p.length + v.length, true) ∧
    Slice.bytes (p ++ v ++ r) ⟨p.length, p.length + v.length⟩ = v := by
  have hb : p ++ v ++ r = p ++ (v ++ r) := List.append_assoc p v r
  have he : EndsBefore v r := fun hs => hr hs.2.2
  exact ⟨scanJSONValueToken_token hb rfl (json_value_token hv) he, bytes_at hb rfl rfl⟩

/-- Witness of C16: the array `["]\""]`, whose string holds a bracket and an
escaped quote, behind `{"id":` and before `,1`; and the number `-1.5e3`
before a closing brace. -/
theorem scanJSONValueToken_verbatim_witness :
    (scanJSONValueToken
        ([123, 34, 105, 100, 34, 58] ++ [91, 34, 93, 92, 34, 34, 93] ++ [44, 49]) 6 =
      (some ⟨6, 13⟩, 13, true) ∧
      Slice.bytes ([123, 34, 105, 100, 34, 58] ++ [91, 34, 93, 92, 34, 34, 93] ++ [44, 49])
        ⟨6, 13⟩ = [91, 34, 93, 92, 34, 34, 93]) ∧
    (scanJSONValueToken ([58] ++ [45, 49, 46, 53, 101, 51] ++ [125]) 1 =
      (some ⟨1, 7⟩, 7, true) ∧
      Slice.bytes ([58] ++ [45, 49, 46, 53, 101, 51] ++ [125]) ⟨1, 7⟩ =
        [45, 49, 46, 53, 101, 51]) :=
  ⟨scanJSONValueToken_verbatim [123, 34, 105, 100, 34, 58] [91, 34, 93, 92, 34, 34, 93]
      [44, 49]
      (Json.array [] [34, 93, 92, 34, 34] [] rfl
        (Json.elemOne _ (Json.string [93, 92, 34]
          (JChars.plain 93 _ (by decide) (by decide)
            (JChars.escape 34 [] (by decide) JChars.nil)))) rfl)
      (fun h => absurd h (by decide)),
    scanJSONValueToken_verbatim [58] [45, 49, 46, 53, 101, 51] [125]
      (Json.number _ ⟨[45], [49], [46, 53], [101, 51], Or.inr rfl,
        Or.inr ⟨49, [], by decide, by decide, rfl, rfl⟩,
        Or.inr ⟨[53], ⟨by decide, rfl⟩, rfl⟩,
        Or.inr ⟨101, [], [51], Or.inl rfl, Or.inl rfl, ⟨by decide, rfl⟩, rfl⟩, rfl⟩)
      (fun _ => rfl)⟩

theorem scanScalarLoop_least (l : List Nat) (j : Nat) :
    (∀ k c, k < scanScalarLoop l j - j → l[k]? = some c → isScalarEnd c = false) ∧
    (∀ c, l[scanScalarLoop l j - j]? = some c → isScalarEnd c = true) := by
  induction l generalizing j with
  | nil => simp [scanScalarLoop]
  | cons a l ih =>
    simp only [scanScalarLoop]
    by_cases ha : isScalarEnd a = true
    · simp [ha]
    · have ha' : isScalarEnd a = false := by simpa using ha
      simp only [ha', Bool.false_eq_true, if_false]
      have hb := (scanScalarLoop_bounds l (j + 1)).1
      obtain ⟨h1, h2⟩ := ih (j + 1)
      have e : scanScalarLoop l (j + 1) - j = (scanScalarLoop l (j + 1) - (j + 1)) + 1 := by
        omega
      constructor
      · intro k c hk hc
        cases k with
        | zero => simp at hc; subst hc; exact ha'
        | succ k =>
          simp only [List.getElem?_cons_succ] at hc
          exact h1 k c (by omega) hc
      · intro c hc
        rw [e, List.getElem?_cons_succ] at hc
        exact h2 c hc

/-- C17 as worded fails on the code: a colon, an opening brace or an opening
bracket does not end a scalar. In `1:2` the specification's run ends at index
1, and `scanJSONValueToken` returns the three bytes; on the single byte `:`
the run is empty, and the call succeeds with the token `:`. -/
theorem scanJSONValueToken_scalar_counterexample :
    (scalarRunEnd [49, 58, 50] 0 = 1 ∧
      scanJSONValueToken [49, 58, 50] 0 = (some ⟨0, 3⟩, 3, true)) ∧
    (scalarRunEnd [58] 0 = 0 ∧ scanJSONValueToken [58] 0 = (some ⟨0, 1⟩, 1, true)) ∧
    ¬ (∀ (b : List Nat) (i c : Nat), b[i]? = some c → c ≠ 34 → isOpen c = false →
        isClose c = false →
        scanJSONValueToken b i =
          if scalarRunEnd b i = i then (none, i, false)
          else (some ⟨i, scalarRunEnd b i⟩, scalarRunEnd b i, true)) := by
  refine ⟨by decide, by decide, fun h => ?_⟩
  have h1 := h [49, 58, 50] 0 49 rfl (by decide) (by decide) (by decide)
  revert h1
  decide

/-- C17, amended. For every buffer `b` and index `i < len(b)` at which no
quote, opening brace or opening bracket stands, the token is `b[i:j]` with
`j` the least index from `i` on at which one of `,` `}` `]` space tab CR LF
stands, or `len(b)` if there is none; the call fails exactly when that run is
empty (`j = i`), and returns `j` as the next index otherwise. -/
theorem scanJSONValueToken_scalar_run (b : List Nat) (i c : Nat) (hc : b[i]? = some c)
    (hq : c ≠ 34) (ho : isOpen c = false) :
    ∃ j, i ≤ j ∧ j ≤ b.length ∧
      (∀ k c', i ≤ k → k < j → b[k]? = some c' → isScalarEnd c' = false) ∧
      (∀ c', b[j]? = some c' → isScalarEnd c' = true) ∧
      scanJSONValueToken b i =
        (if j = i then (none, i, false) else (some ⟨i, j⟩, j, true)) := by
  have hlt : i < b.length := lt_of_getElem?_some hc
  have hb := scanScalarLoop_bounds (b.drop i) i
  obtain ⟨h1, h2⟩ := scanScalarLoop_least (b.drop i) i
  refine ⟨scanScalarLoop (b.drop i) i, hb.1, ?_, ?_, ?_, ?_⟩
  · have := hb.2; simp only [List.length_drop] at this; omega
  · intro k c' hik hkj hk
    refine h1 (k - i) c' (by omega) ?_
    rw [List.getElem?_drop]
    rwa [show i + (k - i) = k by omega]
  · intro c' hj
    refine h2 c' ?_
    rw [List.getElem?_drop]
    rwa [show i + (scanScalarLoop (b.drop i) i - i) = scanScalarLoop (b.drop i) i by omega]
  · have ho' : ¬ (c = 123 ∨ c = 91) := by
      intro h; rw [isOpen_iff.2 h] at ho; cases ho
    simp only [scanJSONValueToken, hc, hq, ho', if_false]

/-- Witness of C17: in `{"id":12,"a":1}` the scalar at index 6 ends at the
comma at index 8. -/
theorem scanJSONValueToken_scalar_run_witness :
    ∃ j, 6 ≤ j ∧ j ≤ (bytesOf "\x7b\"id\":12,\"a\":1\x7d").length ∧
      (∀ k c', 6 ≤ k → k < j → (bytesOf "\x7b\"id\":12,\"a\":1\x7d")[k]? = some c' →
        isScalarEnd c' = false) ∧
      (∀ c', (bytesOf "\x7b\"id\":12,\"a\":1\x7d")[j]? = some c' → isScalarEnd c' = true) ∧
      scanJSONValueToken (bytesOf "\x7b\"id\":12,\"a\":1\x7d") 6 =
        (if j = 6 then (none, 6, false) else (some ⟨6, j⟩, j, true)) :=
  scanJSONValueToken_scalar_run (bytesOf "\x7b\"id\":12,\"a\":1\x7d") 6 49 (by decide)
    (by decide) (by decide)

/-! ## The pre-check and the bounds of the scan -/

theorem methodSeen_contains {b : List Nat} (h : MethodSeen b) :
    bytesContains b miningSubmit = true := by
  obtain ⟨s, ws1, ws2, rest, -, -, -, -, -, hd⟩ := h
  have hb : b = b.take s.i ++ b.drop s.i := (List.take_append_drop s.i b).symm
  rw [hd] at hb
  rw [hb]
  have : b.take s.i ++ 34 :: (methodKeyBytes ++ 34 :: (ws1 ++ 58 :: (ws2 ++
      (miningSubmitTok ++ rest)))) =
      (b.take s.i ++ 34 :: (methodKeyBytes ++ 34 :: (ws1 ++ 58 :: (ws2 ++ [34])))) ++
        (miningSubmit ++ (34 :: rest)) := by
    simp [miningSubmitTok]
  rw [this]
  exact bytesContains_mid _ _ _

/-- The structural scan says `ok = true` only where the loop has seen the key
`"method"` with the token `"mining.submit"`. -/
theorem run_method_seen {b : List Nat} {id : Option Slice}
    (h : run b initState = .ret id true) : MethodSeen b := by
  have hne : ¬ (id = none ∧ true = false) := fun h => Bool.noConfusion h.2
  obtain ⟨s, c, hr, hc, hstep⟩ := run_ret_reach Reach.init h hne
  have ih := reach_seen hr
  rcases mainStep_cases b s c with ⟨s'', h1, -⟩ | ⟨hstr, h34, hd, hkey⟩
  · rw [h1] at hstep; cases hstep
  · subst h34
    rw [hkey] at hstep
    rcases scanMember_cases b s with hm | ⟨k, next, j, hk, hcolon, hlt, -, hvj, hj, hq, hm⟩
    · rw [hm] at hstep; cases hstep
    · rw [hm] at hstep
      obtain ⟨-, hok, -, -⟩ := finishKey_ret hstep
      exact (keyUpdate_seen hr hstr hd hc ih.1 ih.2 hk hcolon hlt hvj hj hq).1 hok.symm

/-- C18. The substring pre-check is a pure optimisation: `fastMiningSubmitID`
returns `ok = true` with an id token exactly when the structural scan alone
does, with the same token; the structural scan never says `ok = true` on a
buffer that does not hold the bytes `mining.submit`; and on a buffer that
holds them the two agree in every result. -/
theorem fastMiningSubmitID_precheck (b : List Nat) :
    (∀ X, fastMiningSubmitID b = .ret X true ↔ structuralScan b = .ret X true) ∧
    (∀ X, structuralScan b = .ret X true → bytesContains b miningSubmit = true) ∧
    (bytesContains b miningSubmit = true → fastMiningSubmitID b = structuralScan b) := by
  have h2 : ∀ X, structuralScan b = .ret X true → bytesContains b miningSubmit = true :=
    fun X h => methodSeen_contains (run_method_seen h)
  have h3 : bytesContains b miningSubmit = true → fastMiningSubmitID b = structuralScan b :=
    fun h => fastMiningSubmitID_eq_run h
  refine ⟨fun X => ⟨fun h => ?_, fun h => ?_⟩, h2, h3⟩
  · by_cases hpre : bytesContains b miningSubmit = true
    · rw [← h3 hpre]; exact h
    · simp [fastMiningSubmitID, hpre] at h
  · rw [h3 (h2 X h)]; exact h

theorem mainLoopIters_le (b : List Nat) (fuel : Nat) (s : LoopState) (hs : s.i ≤ b.length) :
    mainLoopIters b fuel s + s.i ≤ b.length := by
  induction fuel generalizing s with
  | zero => simpa [mainLoopIters] using hs
  | succ n ih =>
    simp only [mainLoopIters]
    rcases hc : b[s.i]? with _ | c
    · simpa using hs
    · have hlt := lt_of_getElem?_some hc
      simp only
      rcases hstep : mainStep b s c with s' | ⟨id, ok⟩ | _
      · simp only
        have hn := mainStep_next hc hstep
        have := ih s' hn.2
        omega
      · simp only; omega
      · simp only; omega

theorem scanTopLevelKey_le {b : List Nat} {i next : Nat} {k : jsonTopLevelKey}
    (h : scanTopLevelKey b i = (k, next, true)) : next ≤ b.length := by
  simp only [scanTopLevelKey] at h
  split at h
  · rename_i j hj
    have := scanTopLevelKeyLoop_early _ _ _ hj
    have hb := scanTopLevelKeyLoop_bounds (b.drop (i + 1)) (i + 1)
    rw [hj] at hb
    simp only [List.length_drop] at this hb
    simp only [Prod.mk.injEq] at h
    omega
  · rename_i j hj
    split at h
    · simp at h
    · rename_i c hc
      have hlt := lt_of_getElem?_some hc
      split at h
      · simp at h
      · simp only [Prod.mk.injEq] at h
        omega

/-- C19. The function `fastMiningSubmitID` is total and free of panics on
arbitrary bytes. Reads of the buffer are guarded by the loop conditions and
the length tests before them (in the embedding, a read is a lookup that the
code's own test decides); beyond that:
* every call returns: no panic, no running out of iterations;
* the reads `val[0]`, `val[len(val)-1]` of the method branch never fail;
* an iteration that does not return moves the index forward, within the
  buffer, and the loop body runs at most `len(b)` times;
* a key scan, a string scan, a compound scan and a value scan that succeed
  return a position behind their start and within the buffer; `skipSpaces`
  never moves backwards and stays within the buffer;
* the slices taken, `b[start:j]` of the key, `b[i:j]` of a value,
  `val[1:len(val)-1]` of the method, and the id returned, have
  `lo ≤ hi ≤ len(b)`. -/
theorem fastMiningSubmitID_panic_free :
    (∀ b : List Nat, ∃ id ok, fastMiningSubmitID b = .ret id ok) ∧
    (∀ (b : List Nat) (s : LoopState) (c : Nat), mainStep b s c ≠ .panic) ∧
    (∀ (b : List Nat) (s s' : LoopState) (c : Nat), b[s.i]? = some c →
      mainStep b s c = .next s' → s.i < s'.i ∧ s'.i ≤ b.length) ∧
    (∀ (b : List Nat) (fuel : Nat), mainLoopIters b fuel initState ≤ b.length) ∧
    (∀ (b : List Nat) (i next : Nat) (k : jsonTopLevelKey),
      scanTopLevelKey b i = (k, next, true) → i < next ∧ next ≤ b.length) ∧
    (∀ (b : List Nat) (i : Nat), i < b.length →
      i + 1 ≤ (scanTopLevelKeyLoop (b.drop (i + 1)) (i + 1)).1 ∧
        (scanTopLevelKeyLoop (b.drop (i + 1)) (i + 1)).1 ≤ b.length) ∧
    (∀ (b : List Nat) (i : Nat), i ≤ skipSpaces b i ∧
      (i ≤ b.length → skipSpaces b i ≤ b.length)) ∧
    (∀ (b : List Nat) (i j : Nat), scanJSONStringEnd b i = (j, true) →
      i < j ∧ j ≤ b.length) ∧
    (∀ (b : List Nat) (i j : Nat), scanJSONCompoundEnd b i = (j, true) →
      i < j ∧ j ≤ b.length) ∧
    (∀ (b : List Nat) (i next : Nat) (tok : Option Slice),
      scanJSONValueToken b i = (tok, next, true) →
        tok = some ⟨i, next⟩ ∧ i < next ∧ next ≤ b.length ∧
        (2 ≤ sliceLen tok → i + 1 ≤ next - 1 ∧ next - 1 ≤ b.length)) ∧
    (∀ (b : List Nat) (v : Slice) (ok : Bool), fastMiningSubmitID b = .ret (some v) ok →
      v.lo < v.hi ∧ v.hi ≤ b.length) := by
  refine ⟨fastMiningSubmitID_total, mainStep_ne_panic, fun b s s' c hc h => mainStep_next hc h,
    fun b fuel => ?_, fun b i next k h => ?_, fun b i hi => ?_, fun b i => ?_,
    fun b i j h => ?_, fun b i j h => ?_, fun b i next tok h => ?_, fun b v ok h => ?_⟩
  · have := mainLoopIters_le b fuel initState (Nat.zero_le _)
    simpa [initState] using this
  · have := scanTopLevelKey_next h
    exact ⟨by omega, scanTopLevelKey_le h⟩
  · have := scanTopLevelKeyLoop_bounds (b.drop (i + 1)) (i + 1)
    simp only [List.length_drop] at this
    omega
  · exact ⟨skipSpaces_ge b i, skipSpaces_le b i⟩
  · have := scanJSONStringEndLoop_bounds i (b.drop (i + 1)) (i + 1) false h
    simp only [List.length_drop] at this
    omega
  · have := scanJSONCompoundEndLoop_bounds i (b.drop i) i 0 false false h
    simp only [List.length_drop] at this
    omega
  · obtain ⟨h1, h2, h3⟩ := scanJSONValueToken_ok h
    subst h1
    refine ⟨rfl, h2, h3, fun hl => ?_⟩
    simp only [sliceLen] at hl
    omega
  · obtain ⟨-, -, -, c, -, -, -, -, -, -, -, -, -, h1, h2⟩ := (fastMiningSubmitID_seen h).2.1 v rfl
    exact ⟨h1, h2⟩

/-! ## Repeated keys -/

theorem decodeLast_cons (key : List Nat) (m : Member) (ms : List Member) :
    decodeLast key (m :: ms) =
      match decodeLast key ms with
      | some v => some v
      | none => if m.key = key then some m.val else none := rfl

theorem decodeLast_snoc (key : List Nat) (seen : List Member) (m : Member) :
    decodeLast key (seen ++ [m]) = if m.key = key then some m.val else decodeLast key seen := by
  induction seen with
  | nil => simp [decodeLast]
  | cons x seen ih =>
    rw [List.cons_append, decodeLast_cons, ih, decodeLast_cons]
    by_cases h : m.key = key
    · simp [h]
    · simp [h]

theorem decodeLast_isSome (key : List Nat) (ms : List Member) :
    (decodeLast key ms).isSome = hasKey key ms := by
  induction ms with
  | nil => rfl
  | cons x ms ih =>
    simp only [hasKey, List.any_cons] at ih ⊢
    simp only [decodeLast]
    rcases hd : decodeLast key ms with _ | v
    · rw [hd] at ih
      simp only [Option.isSome_none] at ih
      rw [← ih]
      by_cases h : x.key = key <;> simp [h]
    · rw [hd] at ih
      simp only [Option.isSome_some] at ih
      rw [← ih]
      simp

theorem hasKey_append (key : List Nat) (xs ys : List Member) :
    hasKey key (xs ++ ys) = (hasKey key xs || hasKey key ys) := by
  simp [hasKey, List.any_append]

theorem decodeLast_append (key : List Nat) (xs post : List Member)
    (h : hasKey key post = false) : decodeLast key (xs ++ post) = decodeLast key xs := by
  induction xs with
  | nil =>
    have := decodeLast_isSome key post
    rw [h] at this
    simpa using this
  | cons x xs ih => rw [List.cons_append, decodeLast_cons, ih, decodeLast_cons]

theorem decodeLast_mem {key : List Nat} {ms : List Member} {v : List Nat}
    (h : decodeLast key ms = some v) : ∃ x ∈ ms, x.key = key ∧ x.val = v := by
  induction ms with
  | nil => simp [decodeLast] at h
  | cons x ms ih =>
    simp only [decodeLast] at h
    rcases hd : decodeLast key ms with _ | w
    · rw [hd] at h
      simp only at h
      split at h
      · rename_i hk
        simp only [Option.some.injEq] at h
        exact ⟨x, by simp, hk, h⟩
      · cases h
    · rw [hd] at h
      simp only [Option.some.injEq] at h
      subst h
      obtain ⟨y, hy, h1, h2⟩ := ih hd
      exact ⟨y, by simp [hy], h1, h2⟩

theorem tracks_init (b : List Nat) (n : Nat) :
    Tracks b { initState with i := n, depth := 1 } [] := by
  refine ⟨rfl, ?_, rfl⟩
  simp [initState, decodeLast]

/-- The key branch keeps the loop variables in step with a generic decode of
the members read so far. -/
theorem tracks_step (lead inner trail : List Nat) (seen post : List Member) (m : Member)
    (s : LoopState)
    (hi : s.i = lead.length + (renderTail seen).length)
    (ht : Tracks (renderObject lead inner (seen ++ m :: post) trail) s seen) :
    Tracks (renderObject lead inner (seen ++ m :: post) trail)
      (memberUpdate { s with i := s.i + 1 } m
        ⟨s.i + 1 + m.valOffset, s.i + 1 + m.valOffset + m.val.length⟩) (seen ++ [m]) := by
  obtain ⟨h1, h2, h3⟩ := ht
  have hne : idKeyBytes ≠ methodKeyBytes := by decide
  rcases hk : classifyKey m.key with _ | _ | _
  · have hkid : m.key ≠ idKeyBytes := fun h => by simp [classifyKey_id.2 h] at hk
    have hkm : m.key ≠ methodKeyBytes := fun h => by simp [classifyKey_method.2 h] at hk
    simp only [memberUpdate, hk]
    refine ⟨?_, ?_, ?_⟩
    · simp [h1, hasKey_append, hasKey, hkm]
    · simp [h2, decodeLast_snoc, hkm]
    · simp [h3, decodeLast_snoc, hkid]
  · have hkid : m.key = idKeyBytes := classifyKey_id.1 hk
    have hkm : m.key ≠ methodKeyBytes := fun h => hne (hkid.symm.trans h)
    simp only [memberUpdate, hk]
    refine ⟨?_, ?_, ?_⟩
    · simp [h1, hasKey_append, hasKey, hkm]
    · simp [h2, decodeLast_snoc, hkm]
    · simp only [Option.map_some', decodeLast_snoc, hkid, if_true, Option.some.injEq]
      rw [hi]
      exact bytes_member_val lead inner trail seen post m
  · have hkm : m.key = methodKeyBytes := classifyKey_method.1 hk
    have hkid : m.key ≠ idKeyBytes := fun h => hne (h.symm.trans hkm)
    simp only [memberUpdate, hk]
    refine ⟨?_, ?_, ?_⟩
    · simp [hasKey_append, hasKey, hkm]
    · simp [decodeLast_snoc, hkm]
    · simp [h3, decodeLast_snoc, hkid]

theorem tracks_both {b : List Nat} {u : LoopState} {seen : List Member}
    (h : Tracks b u seen) : (u.idRaw.isSome && u.foundMethod) = hasBoth seen := by
  obtain ⟨h1, -, h3⟩ := h
  have : u.idRaw.isSome = hasKey idKeyBytes seen := by
    rw [← decodeLast_isSome, ← h3]
    cases u.idRaw <;> rfl
  rw [this, h1, hasBoth]

theorem hasBoth_append_false {xs ys : List Member} (h : hasBoth (xs ++ ys) = false) :
    hasBoth xs = false := by
  simp only [hasBoth, hasKey_append] at h ⊢
  revert h
  cases hasKey idKeyBytes xs <;> cases hasKey methodKeyBytes xs <;> simp

/-- The walk over the members up to the first at which both keys have
occurred returns what a generic decode of these members gives. -/
theorem walkTail_decode (lead inner trail : List Nat) (b : List Nat) (m : Member)
    (post : List Member) (pre : List Member) :
    ∀ (seen : List Member) (s : LoopState),
      b = renderObject lead inner (seen ++ (pre ++ m :: post)) trail →
      s.i = lead.length + (renderTail seen).length →
      Tracks b s seen →
      (∀ x ∈ pre ++ [m], 92 ∉ x.key) →
      (∀ x ∈ pre ++ [m], x.key = methodKeyBytes → x.val.head? = some 34) →
      hasBoth (seen ++ pre) = false → hasBoth (seen ++ (pre ++ [m])) = true →
      ∃ v, walkTail s (pre ++ m :: post) =
          .ret (some v) (genericDecode (seen ++ (pre ++ [m]))).2 ∧
        some (v.bytes b) = (genericDecode (seen ++ (pre ++ [m]))).1 := by
  induction pre with
  | nil =>
    intro seen s hb hi ht hesc hstr _ hboth
    simp only [List.nil_append] at hb hesc hstr hboth ⊢
    have hu := tracks_step lead inner trail seen post m s hi (hb ▸ ht)
    rw [← hb] at hu
    have hb2 := tracks_both hu
    rw [hboth] at hb2
    simp only [walkTail]
    rw [memberStep_eval (hesc m (by simp))
      (fun h => h.2 (hstr m (by simp) (classifyKey_method.1 h.1))) _ rfl, if_pos hb2]
    simp only [Bool.and_eq_true] at hb2
    obtain ⟨v, hv⟩ := Option.isSome_iff_exists.1 hb2.1
    refine ⟨v, ?_, ?_⟩
    · simp only [hv, genericDecode]
      rw [hu.2.1]
    · have := hu.2.2
      simp only [hv, Option.map_some'] at this
      simpa [genericDecode] using this
  | cons x pre ih =>
    intro seen s hb hi ht hesc hstr hnot hboth
    have hassoc : ∀ t : List Member, seen ++ (x :: pre ++ t) = (seen ++ [x]) ++ (pre ++ t) := by
      intro t; simp
    have hu := tracks_step lead inner trail seen (pre ++ m :: post) x s hi
      (by rw [List.cons_append] at hb; exact hb ▸ ht)
    rw [List.cons_append] at hb
    rw [← hb] at hu
    have hb2 := tracks_both hu
    have hnot' : hasBoth (seen ++ [x]) = false := by
      have : seen ++ (x :: pre) = (seen ++ [x]) ++ pre := by simp
      rw [this] at hnot
      exact hasBoth_append_false hnot
    rw [hnot'] at hb2
    simp only [List.cons_append, walkTail]
    rw [memberStep_eval (hesc x (by simp))
      (fun h => h.2 (hstr x (by simp) (classifyKey_method.1 h.1))) _ rfl,
      if_neg (by rw [hb2]; exact Bool.noConfusion)]
    simp only
    obtain ⟨v, hv1, hv2⟩ := ih (seen ++ [x])
      { memberUpdate { s with i := s.i + 1 } x
          ⟨s.i + 1 + x.valOffset, s.i + 1 + x.valOffset + x.val.length⟩ with
        i := s.i + 1 + x.render.length }
      (by rw [hb]; simp)
      (by simp only [hi, renderTail_append, renderTail, List.length_append, List.length_cons,
            List.length_nil]; omega)
      ⟨hu.1, hu.2.1, hu.2.2⟩
      (fun y hy => hesc y (by simp at hy ⊢; tauto))
      (fun y hy => hstr y (by simp at hy ⊢; tauto))
      (by simpa using hnot) (by simpa using hboth)
    refine ⟨v, ?_, ?_⟩
    · simpa using hv1
    · simpa using hv2

theorem jchars_of_plain {t : List Nat} (h : t.all (fun c => decide (32 ≤ c) && isPlain c) = true) :
    JChars t := by
  induction t with
  | nil => exact JChars.nil
  | cons c t ih =>
    simp only [List.all_cons, Bool.and_eq_true, decide_eq_true_eq] at h
    exact JChars.plain c t h.1.1 h.1.2 (ih (by simpa using h.2))

theorem jnumber_digit (d : Nat) (h1 : 49 ≤ d) (h2 : d ≤ 57) : JNumber [d] :=
  ⟨[], [d], [], [], Or.inl rfl, Or.inr ⟨d, [], h1, h2, rfl, rfl⟩, Or.inl rfl, Or.inl rfl, rfl⟩

theorem exIdTwo_wf : exIdTwo.WF :=
  member_wf_of_plain (by decide) (by decide) (by decide) (by decide)
    (token_of_scalar ⟨by decide, by decide, by decide⟩) (by decide)

theorem bytesContains_member {ms : List Member} {mm : Member} (hmm : mm ∈ ms)
    (hmv : mm.val = miningSubmitTok) (lead inner trail : List Nat) :
    bytesContains (renderObject lead inner ms trail) miningSubmit = true := by
  obtain ⟨X, Y, hXY⟩ := mem_split_render hmm lead inner trail
  rw [hXY]
  have : X ++ (mm.render ++ Y) =
      (X ++ (mm.pre ++ 34 :: (mm.key ++ 34 :: (mm.sep1 ++ 58 :: (mm.sep2 ++ [34]))))) ++
        (miningSubmit ++ (34 :: (mm.post ++ Y))) := by
    simp [Member.render, hmv, miningSubmitTok]
  rw [this]
  exact bytesContains_mid _ _ _

/-- C15 as worded fails on the code: the first pair of keys wins, not the
last occurrence. `{"id":1,"method":"mining.submit","id":2}` is a well-formed
JSON object; a generic decode gives the id `2`, and `fastMiningSubmitID`
returns the view `b[6:7]`, the token `1`. In
`{"method":"mining.submit","id":1,"method":"mining.ping"}` a generic decode
gives the method `mining.ping`, and `fastMiningSubmitID` returns
`ok = true`. -/
theorem fastMiningSubmitID_repeated_key_counterexample :
    (renderObject [] [] exRepeatedId [] =
        bytesOf "\x7b\"id\":1,\"method\":\"mining.submit\",\"id\":2\x7d" ∧
      JsonObject (renderObject [] [] exRepeatedId []) ∧
      genericDecode exRepeatedId = (some [50], true) ∧
      fastMiningSubmitID (renderObject [] [] exRepeatedId []) = .ret (some ⟨6, 7⟩) true ∧
      Slice.bytes (renderObject [] [] exRepeatedId []) ⟨6, 7⟩ = [49]) ∧
    (renderObject [] [] exRepeatedMethod [] =
        bytesOf "\x7b\"method\":\"mining.submit\",\"id\":1,\"method\":\"mining.ping\"\x7d" ∧
      genericDecode exRepeatedMethod = (some [49], false) ∧
      fastMiningSubmitID (renderObject [] [] exRepeatedMethod []) =
        .ret (some ⟨31, 32⟩) true) := by
  refine ⟨⟨by decide, ?_, by decide, by decide, by decide⟩, by decide, by decide, by decide⟩
  exact JsonObject.full [] [] _ [] [] rfl rfl
    (Json.memCons idKeyBytes [] [] [49] [] [] _ (jchars_of_plain (by decide)) rfl rfl
      (Json.number _ (jnumber_digit 49 (by decide) (by decide))) rfl rfl
      (Json.memCons methodKeyBytes [] [] miningSubmitTok [] [] _ (jchars_of_plain (by decide))
        rfl rfl (Json.string miningSubmit (jchars_of_plain (by decide))) rfl rfl
        (Json.memOne idKeyBytes [] [] [50] (jchars_of_plain (by decide)) rfl rfl
          (Json.number _ (jnumber_digit 50 (by decide) (by decide)))))) rfl rfl

/-- C15, amended. For every well-formed `mining.submit` request (one that a
generic decode of the whole request, or of the members up to `m`, reads as
`mining.submit`), keys repeated or not, whose keys hold no escape sequence and
whose `method` values are strings: the id token and the verdict that
`fastMiningSubmitID` returns are those of a generic decode, which keeps the
last occurrence of a repeated key, of the members up to and including the
first member `m` at which both an `id` key and a `method` key have occurred.
They are those of a generic decode of the whole request when neither key
occurs again behind `m`. -/
theorem fastMiningSubmitID_repeated_key (lead inner trail : List Nat)
    (pre post : List Member) (m : Member) (hlead : allSpace lead = true)
    (hwf : ∀ x ∈ pre ++ m :: post, x.WF)
    (hesc : ∀ x ∈ pre ++ [m], 92 ∉ x.key)
    (hstr : ∀ x ∈ pre ++ [m], x.key = methodKeyBytes → x.val.head? = some 34)
    (hpre : hasBoth pre = false) (hm : hasBoth (pre ++ [m]) = true)
    (hsub : (genericDecode (pre ++ m :: post)).2 = true ∨
      (genericDecode (pre ++ [m])).2 = true) :
    (∃ v, fastMiningSubmitID (renderObject lead inner (pre ++ m :: post) trail) =
        .ret (some v) (genericDecode (pre ++ [m])).2 ∧
      some (v.bytes (renderObject lead inner (pre ++ m :: post) trail)) =
        (genericDecode (pre ++ [m])).1) ∧
    (hasKey idKeyBytes post = false → hasKey methodKeyBytes post = false →
      genericDecode (pre ++ [m]) = genericDecode (pre ++ m :: post)) := by
  constructor
  · have hcontains :
        bytesContains (renderObject lead inner (pre ++ m :: post) trail) miningSubmit = true := by
      simp only [genericDecode, decide_eq_true_eq] at hsub
      rcases hsub with hsub | hsub
      · obtain ⟨mm, hmm, -, hmv⟩ := decodeLast_mem hsub
        exact bytesContains_member hmm hmv lead inner trail
      · obtain ⟨mm, hmm, -, hmv⟩ := decodeLast_mem hsub
        refine bytesContains_member ?_ hmv lead inner trail
        simp only [List.mem_append, List.mem_singleton, List.mem_cons] at hmm ⊢
        tauto
    rw [fastMiningSubmitID_eq_run hcontains]
    obtain ⟨v, hv1, hv2⟩ := walkTail_decode lead inner trail
      (renderObject lead inner (pre ++ m :: post) trail) m post pre []
      { initState with i := lead.length, depth := 1 } rfl (by simp [renderTail])
      (tracks_init _ _) hesc hstr hpre hm
    simp only [List.nil_append] at hv1 hv2
    refine ⟨v, ?_, hv2⟩
    obtain ⟨m0, rest, hms⟩ : ∃ m0 rest, pre ++ m :: post = m0 :: rest := by
      cases pre with
      | nil => exact ⟨m, post, rfl⟩
      | cons x pre => exact ⟨x, pre ++ m :: post, rfl⟩
    rw [hms] at hwf hv1 ⊢
    rw [run_object (renderObject_cons lead inner trail m0 rest) hlead hwf, walkObject_cons, hv1]
  · intro h1 h2
    have : pre ++ m :: post = (pre ++ [m]) ++ post := by simp
    rw [this]
    simp only [genericDecode, decodeLast_append _ _ _ h1, decodeLast_append _ _ _ h2]

/-- Witness of C15: on `{"id":1,"id":2,"method":"mining.submit","params":["mining.submit"]}`
both keys have occurred at the member `method`; the id returned is the one a
generic decode of the whole request keeps, the last: the token `2`. -/
theorem fastMiningSubmitID_repeated_key_witness :
    (∃ v, fastMiningSubmitID
          (renderObject [] [] ([exId, exIdTwo] ++ exMethod :: [exParamsSubmit]) []) =
        .ret (some v) (genericDecode ([exId, exIdTwo] ++ [exMethod])).2 ∧
      some (v.bytes (renderObject [] [] ([exId, exIdTwo] ++ exMethod :: [exParamsSubmit]) [])) =
        (genericDecode ([exId, exIdTwo] ++ [exMethod])).1) ∧
    (hasKey idKeyBytes [exParamsSubmit] = false →
      hasKey methodKeyBytes [exParamsSubmit] = false →
      genericDecode ([exId, exIdTwo] ++ [exMethod]) =
        genericDecode ([exId, exIdTwo] ++ exMethod :: [exParamsSubmit])) ∧
    genericDecode ([exId, exIdTwo] ++ exMethod :: [exParamsSubmit]) = (some [50], true) :=
  ⟨(fastMiningSubmitID_repeated_key [] [] [] [exId, exIdTwo] [exParamsSubmit] exMethod rfl
    (forall_mem_cons exId_wf (forall_mem_cons exIdTwo_wf (forall_mem_cons exMethod_wf
      (forall_mem_cons exParamsSubmit_wf forall_mem_nil))))
    (by decide) (by decide) (by decide) (by decide) (Or.inl (by decide))).1,
   (fastMiningSubmitID_repeated_key [] [] [] [exId, exIdTwo] [exParamsSubmit] exMethod rfl
    (forall_mem_cons exId_wf (forall_mem_cons exIdTwo_wf (forall_mem_cons exMethod_wf
      (forall_mem_cons exParamsSubmit_wf forall_mem_nil))))
    (by decide) (by decide) (by decide) (by decide) (Or.inl (by decide))).2, by decide⟩

/-! ## The submission processor -/

theorem acknowledge_optimistic (env : Collaborators) (task : submissionTask) (mc : MinerConn)
    (id : Option (List Nat)) (reject : Option submitRejectReason)
    (h : task.optimistic = true) : acknowledge env task mc id reject = mc := by
  simp [acknowledge, h]

/-- C13. Silent drop under optimistic acknowledgement, on the processor
modelled from the specification: a task marked optimistic whose extranonce2
hex text is not twice the job's `Extranonce2Size` long is rejected, with
`badExtranonceSize` on an authorized connection, and nothing is written to
the connection; no relay call is made. -/
theorem processSubmissionTask_silent_reject (env : Collaborators) (task : submissionTask)
    (mc : MinerConn) (id : List Nat) (p : SubmitParams) (job : Job)
    (hopt : task.optimistic = true)
    (hparse : parseSubmit env task.rawLine = some (id, p))
    (hjob : mc.activeJobs.lookup p.jobID = some job)
    (hlen : p.extranonce2.length ≠ 2 * job.Extranonce2Size) :
    (processSubmissionTask env task mc).2.reject.isSome = true ∧
    (mc.authorized = true →
      (processSubmissionTask env task mc).2.reject = some .badExtranonceSize) ∧
    (processSubmissionTask env task mc).2.winning = false ∧
    (processSubmissionTask env task mc).1.written = mc.written ∧
    (processSubmissionTask env task mc).1.rpcCalls = mc.rpcCalls := by
  have hv : validateSubmit env mc p =
      if mc.authorized then .error .badExtranonceSize else .error .unauthorized := by
    simp only [validateSubmit, hjob]
    cases mc.authorized <;> simp [hlen]
  simp only [processSubmissionTask, hparse, hv]
  cases ha : mc.authorized <;> simp [acknowledge_optimistic, hopt]

/-- Witness of C13: the task of the source's test
`TestProcessSubmissionTaskFastAckSilentReject`, extranonce2 `00` against a job
of four bytes. -/
theorem processSubmissionTask_silent_reject_witness :
    (processSubmissionTask (exCollaborators exShortParams) ⟨exShortLine, true⟩
      (exMinerConn 0)).2.reject.isSome = true ∧
    ((exMinerConn 0).authorized = true →
      (processSubmissionTask (exCollaborators exShortParams) ⟨exShortLine, true⟩
        (exMinerConn 0)).2.reject = some .badExtranonceSize) ∧
    (processSubmissionTask (exCollaborators exShortParams) ⟨exShortLine, true⟩
      (exMinerConn 0)).2.winning = false ∧
    (processSubmissionTask (exCollaborators exShortParams) ⟨exShortLine, true⟩
      (exMinerConn 0)).1.written = (exMinerConn 0).written ∧
    (processSubmissionTask (exCollaborators exShortParams) ⟨exShortLine, true⟩
      (exMinerConn 0)).1.rpcCalls = (exMinerConn 0).rpcCalls :=
  processSubmissionTask_silent_reject (exCollaborators exShortParams) ⟨exShortLine, true⟩
    (exMinerConn 0) [49] exShortParams (exJob 0) rfl (by decide) (by decide) (by decide)

/-- C14. Optimism never suppresses block relay, on the processor modelled from
the specification: a submission that parses and passes validation, against a
job whose target is `2^256 - 1`, is classified as a winning block and makes
exactly one call to the node RPC client, `submitblock` with the serialized
block, whether the task is marked optimistic or not; a task marked optimistic
writes nothing to the connection. -/
theorem processSubmissionTask_winning_block (env : Collaborators) (task : submissionTask)
    (mc : MinerConn) (id : List Nat) (p : SubmitParams) (job : Job)
    (hparse : parseSubmit env task.rawLine = some (id, p))
    (hvalid : validateSubmit env mc p = .ok job)
    (htarget : job.Target = 2 ^ 256 - 1) :
    (processSubmissionTask env task mc).2.winning = true ∧
    (processSubmissionTask env task mc).1.rpcCalls =
      mc.rpcCalls ++ [(submitblockMethod, env.serializeBlock job mc.extranonce1 p)] ∧
    (processSubmissionTask env task mc).1.foundBlocks =
      mc.foundBlocks ++ [env.serializeBlock job mc.extranonce1 p] ∧
    (task.optimistic = true → (processSubmissionTask env task mc).1.written = mc.written) := by
  have hw : env.headerHash job mc.extranonce1 p % 2 ^ 256 ≤ job.Target := by
    rw [htarget]
    have : env.headerHash job mc.extranonce1 p % 2 ^ 256 < 2 ^ 256 :=
      Nat.mod_lt _ (by positivity)
    omega
  simp only [processSubmissionTask, hparse, hvalid, hw, decide_True, if_true]
  refine ⟨trivial, ?_, ?_, ?_⟩
  · simp only [acknowledge]
    split <;> split <;> rfl
  · simp only [acknowledge]
    split <;> split <;> rfl
  · intro hopt
    rw [acknowledge_optimistic _ _ _ _ _ hopt]
    split <;> rfl

/-- Witness of C14: the task of the source's test
`TestProcessSubmissionTaskFastAckWinningBlockStillSubmits`, marked optimistic,
against the job with the maximum target. -/
theorem processSubmissionTask_winning_block_witness :
    (processSubmissionTask (exCollaborators exWinningParams) ⟨exWinningLine, true⟩
      (exMinerConn (2 ^ 256 - 1))).2.winning = true ∧
    (processSubmissionTask (exCollaborators exWinningParams) ⟨exWinningLine, true⟩
      (exMinerConn (2 ^ 256 - 1))).1.rpcCalls =
      (exMinerConn (2 ^ 256 - 1)).rpcCalls ++
        [(submitblockMethod, (exCollaborators exWinningParams).serializeBlock
          (exJob (2 ^ 256 - 1)) (exMinerConn (2 ^ 256 - 1)).extranonce1 exWinningParams)] ∧
    (processSubmissionTask (exCollaborators exWinningParams) ⟨exWinningLine, true⟩
      (exMinerConn (2 ^ 256 - 1))).1.foundBlocks =
      (exMinerConn (2 ^ 256 - 1)).foundBlocks ++
        [(exCollaborators exWinningParams).serializeBlock
          (exJob (2 ^ 256 - 1)) (exMinerConn (2 ^ 256 - 1)).extranonce1 exWinningParams] ∧
    ((⟨exWinningLine, true⟩ : submissionTask).optimistic = true →
      (processSubmissionTask (exCollaborators exWinningParams) ⟨exWinningLine, true⟩
        (exMinerConn (2 ^ 256 - 1))).1.written = (exMinerConn (2 ^ 256 - 1)).written) :=
  processSubmissionTask_winning_block (exCollaborators exWinningParams) ⟨exWinningLine, true⟩
    (exMinerConn (2 ^ 256 - 1)) [49] exWinningParams (exJob (2 ^ 256 - 1)) (by decide) rfl rfl

end GoPool
